import Mathlib

/-!
Verification development for the sleepyjson repository: a lazy, random-access
JSON reader.  The repository contains two sibling implementations of the same
design: `sleepyjson` (text mode: `sleepyjson/parser.py`, `sleepyjson/node.py`)
and `lazyjson` (byte mode with a per-node child cache: `lazyjson/node.py`,
`lazyjson/reader.py`).  Both are embedded below as pure functions over a file
modelled as `List Char` with explicit cursor positions (the Python code's
`seek`/`tell`/`read` discipline is deterministic, so each scanning routine is a
pure function of the file contents and its starting offset).  Unbounded `while`
loops are given a fuel parameter; running out of fuel is the distinguished
error `Err.outOfFuel`, which never arises for the fuel values supplied by the
top-level wrappers used in the theorems.
-/

/-- Error outcomes.  The Python code signals errors with `ValueError`,
`IndexError`, `KeyError` and `TypeError`; the constructors below record the
distinct error conditions (one per distinct raise site family). -/
inductive Err where
  | unexpectedEnd
  | malformedInput
  | unterminatedString
  | bareLineBreak
  | malformedNumber
  | invalidEscape
  | typeErr
  | indexOutOfRange
  | keyNotFound
  | notIndexable
  | expectedDelimiter
  | atStart
  | negativeIndex
  | endOfSequence
  | outOfFuel
  deriving DecidableEq, Repr

/-- Materialized Python values, as produced by `Node.value()`.  Python's `int`
and `float` are distinct types; a float's numeric value is carried exactly as a
rational (every JSON numeric literal denotes a rational). -/
inductive PyVal where
  | pnone
  | bool (b : Bool)
  | int (n : Int)
  | float (q : Rat)
  | str (s : String)
  | list (l : List PyVal)
  | dict (l : List (String × PyVal))
  deriving Repr

/-- Lookup in an insertion-ordered Python dict modelled as an association
list. -/
def dictGet {α : Type} : List (String × α) → String → Option α
  | [], _ => Option.none
  | (k, v) :: rest, key => if k = key then some v else dictGet rest key

/-- Assignment `d[k] = v` on an insertion-ordered Python dict: an existing key
keeps its position and gets the new value, a new key is appended. -/
def dictPut {α : Type} : List (String × α) → String → α → List (String × α)
  | [], key, v => [(key, v)]
  | (k, w) :: rest, key, v =>
    if k = key then (k, v) :: rest else (k, w) :: dictPut rest key v

mutual

/-- Python `==` on materialized values: numeric kinds (`bool`, `int`, `float`)
compare by numeric value across kinds, strings by content, lists elementwise
with equal lengths, dicts by equal key sets with equal values; any other mix of
kinds is unequal. -/
def pyEq : PyVal → PyVal → Bool
  | .pnone, .pnone => true
  | .bool a, .bool b => a == b
  | .bool a, .int b => (if a then (1 : Int) else 0) == b
  | .int a, .bool b => a == (if b then (1 : Int) else 0)
  | .bool a, .float b => mkRat (if a then 1 else 0) 1 == b
  | .float a, .bool b => a == mkRat (if b then 1 else 0) 1
  | .int a, .int b => a == b
  | .int a, .float b => mkRat a 1 == b
  | .float a, .int b => a == mkRat b 1
  | .float a, .float b => a == b
  | .str a, .str b => a == b
  | .list a, .list b => pyEqList a b
  | .dict a, .dict b => a.length == b.length && pyEqPairs a b
  | _, _ => false

def pyEqList : List PyVal → List PyVal → Bool
  | [], [] => true
  | x :: xs, y :: ys => pyEq x y && pyEqList xs ys
  | _, _ => false

def pyEqPairs : List (String × PyVal) → List (String × PyVal) → Bool
  | [], _ => true
  | (k, v) :: rest, other =>
    (match dictGet other k with
     | some w => pyEq v w
     | Option.none => false) && pyEqPairs rest other

end

/-- The node kinds (`NodeType` in both `sleepyjson/node.py` and
`lazyjson/node.py`). -/
inductive NType where
  | obj | arr | str | num | tru | fls | nul
  deriving DecidableEq, Repr

/-- `WHITESPACE = '\r\n\t '`. -/
def wsChars : List Char := ['\r', '\n', '\t', ' ']

/-- `Parser.skip_skippable` (sleepyjson, text mode): the number of characters
consumed from the given suffix before the cursor comes to rest.  Whitespace is
skipped; `//` starts a comment running to the next `'\n'`; a single `'/'` not
followed by another `'/'` is itself consumed and scanning continues (the code
seeks back only past the second character). -/
def skipAuxS : List Char → Bool → Nat
  | [], _ => 0
  | c :: cs, inComment =>
    if inComment then
      if c = '\n' then 1 + skipAuxS cs false else 1 + skipAuxS cs true
    else if c ∈ wsChars then 1 + skipAuxS cs false
    else if c = '/' then
      match cs with
      | '/' :: cs2 => 2 + skipAuxS cs2 true
      | [] => 1
      | c2 :: cs2 => 1 + skipAuxS (c2 :: cs2) false
    else 0

/-- `Parser.skip_to_start(pos)`: seek to `pos` and skip insignificant text,
returning the resulting cursor position. -/
def skipToStartS (f : List Char) (pos : Nat) : Nat :=
  pos + skipAuxS (f.drop pos) false

/-- `Parser.skip_comma`: skip insignificant text, consume one `','` if present
(then skip again).  Returns whether a comma was consumed and the final cursor
position. -/
def skipCommaS (f : List Char) (pos : Nat) : Bool × Nat :=
  let p := skipToStartS f pos
  match (f.drop p).head? with
  | some ',' => (true, skipToStartS f (p + 1))
  | _ => (false, p)

/-- `Parser.skip_colon`: same as `skip_comma` with `':'`. -/
def skipColonS (f : List Char) (pos : Nat) : Bool × Nat :=
  let p := skipToStartS f pos
  match (f.drop p).head? with
  | some ':' => (true, skipToStartS f (p + 1))
  | _ => (false, p)

/-- The determinant table (`SIMPLE_DETERMINANTS` plus the digit rule) applied
to the up-to-5-character lookahead, as in `Node.get_type`.  An empty lookahead
is the `Unexpected end of file` error; an unmatched one is `Unexpected
input`. -/
def nodeTypeOfBuf (buf : List Char) : Except Err NType :=
  if buf.isEmpty then .error .unexpectedEnd
  else if List.isPrefixOf ['\x7b'] buf then .ok .obj
  else if List.isPrefixOf ['['] buf then .ok .arr
  else if List.isPrefixOf ['"'] buf then .ok .str
  else if List.isPrefixOf ['t', 'r', 'u', 'e'] buf then .ok .tru
  else if List.isPrefixOf ['f', 'a', 'l', 's', 'e'] buf then .ok .fls
  else if List.isPrefixOf ['n', 'u', 'l', 'l'] buf then .ok .nul
  else if buf.headD ' ' ∈ ['0','1','2','3','4','5','6','7','8','9','-'] then .ok .num
  else .error .malformedInput

/-- A sleepyjson `Node` is just a resolved start offset and a type tag (the
`end` attribute is a memoization of the deterministic `end_position`
computation, so it does not need to be part of the model's state). -/
structure SNode where
  pos : Nat
  ty : NType
  deriving DecidableEq, Repr

/-- `Node.__init__` (sleepyjson): skip to the value's start, classify it from
at most 5 characters of lookahead. -/
def mkSNodeS (f : List Char) (pos : Nat) : Except Err SNode :=
  let p := skipToStartS f pos
  (nodeTypeOfBuf ((f.drop p).take 5)).map fun t => ⟨p, t⟩

/-- Helper for the quote-searching loop of `measure_string`: the least index
`i ≥ 0` into `cs` whose character is `'"'` and whose predecessor character
(`prevc` for `i = 0`, otherwise `cs[i-1]`) is not a backslash, mirroring the
`buf.find('"', quote_pos)` skip loop for positions past the chunk start. -/
def qNext (prevc : Char) : List Char → Option Nat
  | [] => Option.none
  | c :: cs =>
    if c = '"' ∧ prevc ≠ '\\' then some 0
    else (qNext c cs).map (· + 1)

/-- The inner loop of `Parser.measure_string` (sleepyjson) on one chunk: find
the first quote it deems unescaped.  A quote at chunk position 0 is deemed
escaped when the previous chunk ended in a backslash (`prev_was_backslash`) or
— through Python's negative indexing `buf[0 - 1]` — when the current chunk's
last character is a backslash. -/
def qFindS (buf : List Char) (prevBS : Bool) : Option Nat :=
  match buf with
  | [] => Option.none
  | c :: cs =>
    if c = '"' then
      if prevBS ∨ buf.getLastD 'x' = '\\' then (qNext c cs).map (· + 1)
      else some 0
    else (qNext c cs).map (· + 1)

/-- The chunk loop of `Parser.measure_string` (sleepyjson): scan the remaining
suffix in 1024-character chunks (`BUF_LENGTH`).  `acc` starts at 1 (the opening
quote).  A chunk with no unescaped quote must not contain `'\n'`; when the
quote is found, the part of the chunk before it must not contain `'\n'`. -/
def msAuxS : Nat → List Char → Nat → Bool → Except Err Nat
  | 0, _, _, _ => .error .outOfFuel
  | fuel + 1, rest, acc, prevBS =>
    let buf := rest.take 1024
    if buf.isEmpty then .error .unterminatedString
    else
      match qFindS buf prevBS with
      | some q =>
        if '\n' ∈ buf.take q then .error .bareLineBreak
        else .ok (acc + q + 1)
      | Option.none =>
        if '\n' ∈ buf then .error .bareLineBreak
        else msAuxS fuel (rest.drop 1024) (acc + buf.length) (buf.getLastD 'x' = '\\')

/-- `Parser.measure_string(pos)` (sleepyjson): total length of the string
literal starting at `pos`, both quotes included. -/
def measureStringS (f : List Char) (pos : Nat) : Except Err Nat :=
  msAuxS (f.length + 1) (f.drop (pos + 1)) 1 false

/-- The characters greedily consumed by `measure_number`. -/
def numChars : List Char :=
  ['-', '+', '0', '1', '2', '3', '4', '5', '6', '7', '8', '9', 'e', 'E', '.']

/-- The chunked accumulation loop of `Parser.measure_number` (sleepyjson):
consume 1024-character chunks while every character is in `numChars`, stopping
within the first chunk containing an excluded character (or at end of
input). -/
def numAccS : Nat → List Char → List Char
  | 0, _ => []
  | fuel + 1, rest =>
    let buf := rest.take 1024
    if buf.isEmpty then []
    else
      match buf.findIdx? (fun c => ¬(c ∈ numChars)) with
      | some i => buf.take i
      | Option.none => buf ++ numAccS fuel (rest.drop 1024)

/-- Length of the leading digit run. -/
def digitRun (cs : List Char) : Nat := (cs.takeWhile Char.isDigit).length

/-- Characters matched by the regex group `(?: \.\d+ )?` at the front of
`cs`: 0 if absent, otherwise 1 + the greedy digit run. -/
def fracLen (cs : List Char) : Nat :=
  match cs with
  | '.' :: r => if digitRun r = 0 then 0 else 1 + digitRun r
  | _ => 0

/-- Characters matched by the regex group `(?: [eE] [+-]? \d+ )?` at the front
of `cs`. -/
def expLen (cs : List Char) : Nat :=
  match cs with
  | c :: r =>
    if c = 'e' ∨ c = 'E' then
      match r with
      | s :: r2 =>
        if s = '+' ∨ s = '-' then
          if digitRun r2 = 0 then 0 else 2 + digitRun r2
        else if digitRun r = 0 then 0 else 1 + digitRun r
      | [] => 0
    else 0
  | [] => 0

/-- Characters matched by the regex group `(?: 0 | [1-9]\d* )` at the front of
`cs`; `Option.none` when the group cannot match. -/
def intLen (cs : List Char) : Option Nat :=
  match cs with
  | '0' :: _ => some 1
  | c :: r => if c.isDigit then some (1 + digitRun r) else Option.none
  | [] => Option.none

/-- `NUMBER_REGEX.match(accumulated)`: the regex
`^ -? (0|[1-9]\d*) (\.\d+)? ([eE][+-]?\d+)?` is deterministic (each optional
group either matches greedily or is skipped), so `m.end()` is the sum of the
group lengths; `Option.none` when the mandatory integer part cannot match. -/
def matchNumber (cs : List Char) : Option Nat :=
  let sg : Nat := if cs.headD ' ' = '-' then 1 else 0
  let cs1 := cs.drop sg
  match intLen cs1 with
  | Option.none => Option.none
  | some il =>
    let cs2 := cs1.drop il
    let fl := fracLen cs2
    let cs3 := cs2.drop fl
    some (sg + il + fl + expLen cs3)

/-- `Parser.measure_number(pos)` (sleepyjson): greedy accumulation followed by
the regex match; a failed match (including an empty accumulation, which makes
the Python error message formatting itself fail with `IndexError`) is an
error. -/
def measureNumberS (f : List Char) (pos : Nat) : Except Err Nat :=
  match matchNumber (numAccS (f.length + 1) (f.drop pos)) with
  | some n => .ok n
  | Option.none => .error .malformedNumber

/-- `ESCAPE_CHARACTERS_MAP`. -/
def escMap (c : Char) : Option Char :=
  if c = '"' then some '"'
  else if c = '\\' then some '\\'
  else if c = '/' then some '/'
  else if c = 'b' then some '\x08'
  else if c = 'f' then some '\x0c'
  else if c = 'n' then some '\n'
  else if c = 'r' then some '\r'
  else if c = 't' then some '\t'
  else Option.none

def isHexDigit (c : Char) : Bool :=
  c.isDigit ∨ (('a' ≤ c ∧ c ≤ 'f') ∨ ('A' ≤ c ∧ c ≤ 'F'))

def hexVal (c : Char) : Nat :=
  if c.isDigit then c.toNat - 48
  else if 'a' ≤ c ∧ c ≤ 'f' then c.toNat - 87
  else c.toNat - 55

def hexNat (cs : List Char) : Nat := cs.foldl (fun a c => a * 16 + hexVal c) 0

/-- The loop of `unescape_string_literal` (sleepyjson) over the part of the
literal after the opening quote: up to the next backslash text is copied; with
no further backslash the remaining text minus its final character (the closing
quote) is copied.  `\uXXXX` requires exactly 4 hex digits and decodes to the
single UTF-16 code unit `chr(int(XXXX, 16))` (modelled by `Char.ofNat`, with
the caveat that Lean's `Char` cannot carry a lone surrogate). -/
def unescAuxS : Nat → List Char → Except Err (List Char)
  | 0, _ => .error .outOfFuel
  | fuel + 1, cs =>
    match cs.findIdx? (fun c => c = '\\') with
    | Option.none => .ok cs.dropLast
    | some b =>
      let pre := cs.take b
      let rest := cs.drop (b + 1)
      match rest.head? with
      | Option.none => .error .invalidEscape
      | some e =>
        match escMap e with
        | some d => (unescAuxS fuel (rest.drop 1)).map fun tl => pre ++ d :: tl
        | Option.none =>
          if e = 'u' then
            let hx := (rest.drop 1).take 4
            if hx.length = 4 ∧ hx.all isHexDigit then
              (unescAuxS fuel (rest.drop 5)).map fun tl =>
                pre ++ Char.ofNat (hexNat hx) :: tl
            else .error .invalidEscape
          else .error .invalidEscape

/-- `unescape_string_literal(literal)` (sleepyjson): decode a full quoted
literal. -/
def unescapeS (lit : List Char) : Except Err (List Char) :=
  unescAuxS (lit.length + 1) (lit.drop 1)

/-- Numeric value of a digit run. -/
def natOfDigits (ds : List Char) : Nat :=
  ds.foldl (fun a c => a * 10 + (c.toNat - 48)) 0

/-- Python `int(literal)` restricted to the shapes `measure_number` can
produce: an optional `'-'` followed by one or more digits; everything else
(a fraction or an exponent) raises `ValueError`. -/
def pyIntOfLit (lit : List Char) : Option Int :=
  match lit with
  | '-' :: ds =>
    if ds ≠ [] ∧ ds.all Char.isDigit then some (-(natOfDigits ds : Int))
    else Option.none
  | ds =>
    if ds ≠ [] ∧ ds.all Char.isDigit then some ((natOfDigits ds : Int))
    else Option.none

/-- Python `float(literal)` on a literal conforming to the JSON number
grammar: its exact rational value (the model tracks float-ness by the `PyVal`
tag and carries the mathematical value of the literal). -/
def floatOfLit (lit : List Char) : Rat :=
  let neg := lit.headD ' ' = '-'
  let l1 := if neg then lit.drop 1 else lit
  let ipart := l1.takeWhile Char.isDigit
  let l2 := l1.drop ipart.length
  let fpart := match l2 with
    | '.' :: r => r.takeWhile Char.isDigit
    | _ => []
  let l3 := match l2 with
    | '.' :: _ => l2.drop (fpart.length + 1)
    | _ => l2
  let ev : Int := match l3 with
    | _ :: '-' :: ds => -(natOfDigits (ds.takeWhile Char.isDigit) : Int)
    | _ :: '+' :: ds => (natOfDigits (ds.takeWhile Char.isDigit) : Int)
    | _ :: ds => (natOfDigits (ds.takeWhile Char.isDigit) : Int)
    | [] => 0
  let mant : Int := natOfDigits (ipart ++ fpart)
  let mant : Int := if neg then -mant else mant
  let scale : Int := ev - fpart.length
  if 0 ≤ scale then mkRat (mant * (10 : Int) ^ scale.toNat) 1
  else mkRat mant ((10 : Nat) ^ (-scale).toNat)

/-- `Parser.seek_next_array_child(pos)` (sleepyjson): peek one character at
`pos` (no skipping).  End of file is an error; `']'` is consumed and signals
the end of the array (the cursor, and hence the recorded end offset, becomes
`pos + 1`); anything else is the start of the next child. -/
def seekNextArrayChildS (f : List Char) (pos : Nat) : Except Err (Option Nat) :=
  match (f.drop pos).head? with
  | Option.none => .error .unexpectedEnd
  | some ']' => .ok Option.none
  | some _ => .ok (some pos)

/-- `Parser.seek_next_object_child(pos)` (sleepyjson): peek one character at
`pos`; `'}'` ends the object.  Otherwise parse a key: a transient node is
built at `pos` and must be a string; its literal is measured, the mandatory
colon consumed (skipping insignificant text on both sides), and the key's
decoded text returned together with the position of the value. -/
def seekNextObjectChildS (f : List Char) (pos : Nat) :
    Except Err (Option (String × Nat)) :=
  match (f.drop pos).head? with
  | Option.none => .error .unexpectedEnd
  | some '\x7d' => .ok Option.none
  | some _ => do
    let key ← mkSNodeS f pos
    if key.ty ≠ .str then .error .malformedInput
    else do
      let klen ← measureStringS f key.pos
      match skipColonS f (key.pos + klen) with
      | (false, _) => .error .expectedDelimiter
      | (true, cur) => do
        let kv ← unescapeS ((f.drop key.pos).take klen)
        .ok (some (String.mk kv, cur))

/-- Suspension state of the `array_iter` generator (sleepyjson): either about
to call `seek_next_array_child(p)`, or suspended just after yielding child `c`
(the resume work — seeking to the child's end and consuming the separating
comma — has not happened yet). -/
inductive ArrG where
  | atPos (p : Nat)
  | after (c : SNode)
  deriving DecidableEq, Repr

/-- One step of the `array_iter` generator: either the next child together
with the new suspension state, or termination.  Termination through `']'`
records the array's end offset; termination through a missing comma (the
`break` in `array_iter`) records none — `self.end` is never assigned on that
path. -/
inductive ArrStep where
  | yieldA (c : SNode) (g : ArrG)
  | doneA (endOff : Option Nat)
  deriving DecidableEq, Repr

/-- Suspension state of the `items` generator (sleepyjson). -/
inductive ObjG where
  | oAtPos (p : Nat)
  | oAfter (c : SNode)
  deriving DecidableEq, Repr

/-- One step of the `items` generator.  Unlike arrays, the object loop ignores
the result of `skip_comma` and always terminates through `'}'`, so the end
offset is always recorded. -/
inductive ObjStep where
  | yieldO (k : String) (c : SNode) (g : ObjG)
  | doneO (endOff : Nat)
  deriving DecidableEq, Repr

/-- A fully materialized subtree in which object children keep their document
order and multiplicity (duplicate keys are not collapsed).  This is the
comparison structure used to state what `Node.equals` computes. -/
inductive MTree where
  | mscalar (v : PyVal)
  | mlist (ts : List MTree)
  | mdict (ps : List (String × MTree))
  deriving Repr

/-- The mutually recursive operations of a sleepyjson `Node`, stratified by
fuel: level `n + 1` is built from level `n`, so every recursive call (a loop
iteration or a descent into a child) moves one level down. -/
structure SCoreFns where
  endPos : SNode → Except Err (Option Nat)
  arrStep : ArrG → Except Err ArrStep
  objStep : ObjG → Except Err ObjStep
  arrList : ArrG → Except Err (List SNode × Option Nat)
  objList : ObjG → Except Err (List (String × SNode) × Nat)
  arrNth : ArrG → Nat → Except Err SNode
  objFind : ObjG → String → Except Err SNode
  value : SNode → Except Err PyVal
  equalsFn : SNode → Option PyVal → Except Err Bool
  eqZip : ArrG → List PyVal → Except Err Bool
  eqPairs : ObjG → List (String × PyVal) → Except Err Bool
  mtree : SNode → Except Err MTree

/-- The out-of-fuel bottom level. -/
def sBot : SCoreFns where
  endPos := fun _ => .error .outOfFuel
  arrStep := fun _ => .error .outOfFuel
  objStep := fun _ => .error .outOfFuel
  arrList := fun _ => .error .outOfFuel
  objList := fun _ => .error .outOfFuel
  arrNth := fun _ _ => .error .outOfFuel
  objFind := fun _ _ => .error .outOfFuel
  value := fun _ => .error .outOfFuel
  equalsFn := fun _ _ => .error .outOfFuel
  eqZip := fun _ _ => .error .outOfFuel
  eqPairs := fun _ _ => .error .outOfFuel
  mtree := fun _ => .error .outOfFuel

/-- Materialize a list of children (`[child.value() for child in iter(self)]`,
with the enumeration and the per-child materializations sequenced). -/
def sValueList (vf : SNode → Except Err PyVal) : List SNode → Except Err (List PyVal)
  | [] => .ok []
  | c :: cs => do
    let v ← vf c
    let vs ← sValueList vf cs
    .ok (v :: vs)

/-- Materialize object items and build the Python dict
(`{key: child.value() for key, child in self.items()}`): later duplicate keys
overwrite the value while keeping the first occurrence's position. -/
def sValuePairs (vf : SNode → Except Err PyVal) :
    List (String × SNode) → List (String × PyVal) → Except Err (List (String × PyVal))
  | [], acc => .ok acc
  | (k, c) :: cs, acc => do
    let v ← vf c
    sValuePairs vf cs (dictPut acc k v)

/-- Map `mtree` over children. -/
def sTreeList (tf : SNode → Except Err MTree) : List SNode → Except Err (List MTree)
  | [] => .ok []
  | c :: cs => do
    let t ← tf c
    let ts ← sTreeList tf cs
    .ok (t :: ts)

def sTreePairs (tf : SNode → Except Err MTree) :
    List (String × SNode) → Except Err (List (String × MTree))
  | [] => .ok []
  | (k, c) :: cs => do
    let t ← tf c
    let ts ← sTreePairs tf cs
    .ok ((k, t) :: ts)

/-- One level of the sleepyjson operations over the previous level. -/
def sStep (f : List Char) (prev : SCoreFns) : SCoreFns where
  endPos := fun nd =>
    match nd.ty with
    | .tru => .ok (some (nd.pos + 4))
    | .fls => .ok (some (nd.pos + 5))
    | .nul => .ok (some (nd.pos + 4))
    | .str => (measureStringS f nd.pos).map fun l => some (nd.pos + l)
    | .num => (measureNumberS f nd.pos).map fun l => some (nd.pos + l)
    | .arr => (prev.arrList (.atPos (nd.pos + 1))).map fun r => r.2
    | .obj => (prev.objList (.oAtPos (nd.pos + 1))).map fun r => some r.2
  arrStep := fun g =>
    match g with
    | .atPos p =>
      match seekNextArrayChildS f p with
      | .error e => .error e
      | .ok Option.none => .ok (.doneA (some (p + 1)))
      | .ok (some p2) => (mkSNodeS f p2).map fun c => .yieldA c (.after c)
    | .after c => do
      match ← prev.endPos c with
      | Option.none => .error .typeErr
      | some e =>
        match skipCommaS f e with
        | (false, _) => .ok (.doneA Option.none)
        | (true, cur) => prev.arrStep (.atPos cur)
  objStep := fun g =>
    match g with
    | .oAtPos p =>
      match seekNextObjectChildS f p with
      | .error e => .error e
      | .ok Option.none => .ok (.doneO (p + 1))
      | .ok (some (k, vpos)) => (mkSNodeS f vpos).map fun c => .yieldO k c (.oAfter c)
    | .oAfter c => do
      match ← prev.endPos c with
      | Option.none => .error .typeErr
      | some e => prev.objStep (.oAtPos (skipCommaS f e).2)
  arrList := fun g => do
    match ← prev.arrStep g with
    | .doneA e => .ok ([], e)
    | .yieldA c g2 => (prev.arrList g2).map fun r => (c :: r.1, r.2)
  objList := fun g => do
    match ← prev.objStep g with
    | .doneO e => .ok ([], e)
    | .yieldO k c g2 => (prev.objList g2).map fun r => ((k, c) :: r.1, r.2)
  arrNth := fun g j => do
    match ← prev.arrStep g with
    | .doneA _ => .error .indexOutOfRange
    | .yieldA c g2 =>
      match j with
      | 0 => .ok c
      | j2 + 1 => prev.arrNth g2 j2
  objFind := fun g key => do
    match ← prev.objStep g with
    | .doneO _ => .error .keyNotFound
    | .yieldO k c g2 => if k = key then .ok c else prev.objFind g2 key
  value := fun nd =>
    match nd.ty with
    | .tru => .ok (.bool true)
    | .fls => .ok (.bool false)
    | .nul => .ok .pnone
    | .str => do
      let l ← measureStringS f nd.pos
      let s ← unescapeS ((f.drop nd.pos).take l)
      .ok (.str (String.mk s))
    | .num => do
      let l ← measureNumberS f nd.pos
      let lit := (f.drop nd.pos).take l
      match pyIntOfLit lit with
      | some i => .ok (.int i)
      | Option.none => .ok (.float (floatOfLit lit))
    | .arr => do
      let r ← prev.arrList (.atPos (nd.pos + 1))
      let vs ← sValueList prev.value r.1
      .ok (.list vs)
    | .obj => do
      let r ← prev.objList (.oAtPos (nd.pos + 1))
      let ps ← sValuePairs prev.value r.1 []
      .ok (.dict ps)
  equalsFn := fun nd other =>
    match nd.ty with
    | .arr =>
      match other with
      | some (.list xs) => prev.eqZip (.atPos (nd.pos + 1)) xs
      | some (.str s) =>
        prev.eqZip (.atPos (nd.pos + 1)) (s.data.map fun c => .str (String.mk [c]))
      | some (.dict m) =>
        prev.eqZip (.atPos (nd.pos + 1)) (m.map fun kv => .str kv.1)
      | _ => .error .typeErr
    | .obj =>
      match other with
      | some (.dict m) => prev.eqPairs (.oAtPos (nd.pos + 1)) m
      | _ => do
        match ← prev.objStep (.oAtPos (nd.pos + 1)) with
        | .doneO _ => .ok true
        | .yieldO _ _ _ => .error .typeErr
    | _ => do
      let v ← prev.value nd
      match other with
      | Option.none => .ok false
      | some x => .ok (pyEq v x)
  eqZip := fun g xs => do
    match ← prev.arrStep g with
    | .doneA _ => .ok true
    | .yieldA c g2 =>
      match xs with
      | [] => .ok true
      | x :: xs2 => do
        let b ← prev.equalsFn c (some x)
        if b then prev.eqZip g2 xs2 else .ok false
  eqPairs := fun g m => do
    match ← prev.objStep g with
    | .doneO _ => .ok true
    | .yieldO k c g2 => do
      let b ← prev.equalsFn c (dictGet m k)
      if b then prev.eqPairs g2 m else .ok false
  mtree := fun nd =>
    match nd.ty with
    | .arr => do
      let r ← prev.arrList (.atPos (nd.pos + 1))
      let ts ← sTreeList prev.mtree r.1
      .ok (.mlist ts)
    | .obj => do
      let r ← prev.objList (.oAtPos (nd.pos + 1))
      let ps ← sTreePairs prev.mtree r.1
      .ok (.mdict ps)
    | _ => (prev.value nd).map .mscalar

/-- The fuel-stratified sleepyjson operations. -/
def score (f : List Char) : Nat → SCoreFns
  | 0 => sBot
  | n + 1 => sStep f (score f n)

/-- Initial generator state for an array node. -/
def sArrG (nd : SNode) : ArrG := .atPos (nd.pos + 1)

/-- Initial generator state for an object node. -/
def sObjG (nd : SNode) : ObjG := .oAtPos (nd.pos + 1)

/-- Keys accepted by `Node.__getitem__`, covering the `isinstance` checks: a
Python `int`, a Python `str`, or a value of any other type (represented by
`kNone`). -/
inductive PyKey where
  | kInt (k : Int)
  | kStr (s : String)
  | kNone
  deriving DecidableEq, Repr

/-- `Node.__len__` (sleepyjson): `sum(1 for _ in self)` — a full enumeration
on every call (this implementation caches nothing between calls). -/
def sLen (fuel : Nat) (f : List Char) (nd : SNode) : Except Err Nat :=
  match nd.ty with
  | .arr => ((score f fuel).arrList (sArrG nd)).map fun r => r.1.length
  | .obj => ((score f fuel).objList (sObjG nd)).map fun r => r.1.length
  | _ => .error .notIndexable

/-- `Node.value()` (sleepyjson). -/
def sValue (fuel : Nat) (f : List Char) (nd : SNode) : Except Err PyVal :=
  (score f fuel).value nd

/-- `Node.__getitem__` (sleepyjson).  Arrays demand an `int` key: a negative
index builds `deque(self, -key)` — a full enumeration keeping the last `-key`
children — and returns its head; a non-negative index pulls the enumeration
only until the wanted position.  Objects demand a `str` key and pull `items()`
until the key matches.  Any other key type is rejected before any scanning. -/
def sGetItem (fuel : Nat) (f : List Char) (nd : SNode) (key : PyKey) :
    Except Err SNode :=
  match nd.ty with
  | .arr =>
    match key with
    | .kInt k =>
      if k < 0 then
        match (score f fuel).arrList (sArrG nd) with
        | .error e => .error e
        | .ok (l, _) =>
          if l.length < (-k).toNat then .error .indexOutOfRange
          else
            match l.get? (l.length - (-k).toNat) with
            | some c => .ok c
            | Option.none => .error .indexOutOfRange
      else (score f fuel).arrNth (sArrG nd) k.toNat
    | _ => .error .typeErr
  | .obj =>
    match key with
    | .kStr s => (score f fuel).objFind (sObjG nd) s
    | _ => .error .typeErr
  | _ => .error .notIndexable

/-- `Node.equals(other)` (sleepyjson). -/
def sEquals (fuel : Nat) (f : List Char) (nd : SNode) (other : PyVal) :
    Except Err Bool :=
  (score f fuel).equalsFn nd (some other)

/-- `Node.end_position()` (sleepyjson); `Option.none` is Python's `None`,
which `end_position` returns for an array whose final child is not followed by
a comma (the `break` path of `array_iter` never assigns `self.end`). -/
def sEndPos (fuel : Nat) (f : List Char) (nd : SNode) : Except Err (Option Nat) :=
  (score f fuel).endPos nd

/-- Node materialization keeping duplicate object keys (used to specify
`equals`). -/
def sMTree (fuel : Nat) (f : List Char) (nd : SNode) : Except Err MTree :=
  (score f fuel).mtree nd

/-- `Node.skip_skippable` (lazyjson, byte mode): like the sleepyjson variant
but a comment also ends at a bare `'\r'` or at `'\r\n'` (both consumed). -/
def skipAuxL : List Char → Bool → Nat
  | [], _ => 0
  | c :: cs, inComment =>
    if inComment then
      if c = '\n' then 1 + skipAuxL cs false
      else if c = '\r' then
        match cs with
        | '\n' :: cs2 => 2 + skipAuxL cs2 false
        | [] => 1
        | c2 :: cs2 => 1 + skipAuxL (c2 :: cs2) false
      else 1 + skipAuxL cs true
    else if c ∈ wsChars then 1 + skipAuxL cs false
    else if c = '/' then
      match cs with
      | '/' :: cs2 => 2 + skipAuxL cs2 true
      | [] => 1
      | c2 :: cs2 => 1 + skipAuxL (c2 :: cs2) false
    else 0

/-- `Node.skip_to_start` (lazyjson). -/
def skipToStartL (f : List Char) (pos : Nat) : Nat :=
  pos + skipAuxL (f.drop pos) false

/-- `Node.skip_comma` (lazyjson). -/
def skipCommaL (f : List Char) (pos : Nat) : Bool × Nat :=
  let p := skipToStartL f pos
  match (f.drop p).head? with
  | some ',' => (true, skipToStartL f (p + 1))
  | _ => (false, p)

/-- `Node.skip_colon` (lazyjson). -/
def skipColonL (f : List Char) (pos : Nat) : Bool × Nat :=
  let p := skipToStartL f pos
  match (f.drop p).head? with
  | some ':' => (true, skipToStartL f (p + 1))
  | _ => (false, p)

/-- The chunk-search loop of the free function `measure_string` (lazyjson):
no escape state is carried between chunks, and a quote at chunk position 0 is
never deemed escaped (the slice `buf[-1:0]` is empty). -/
def qFindL (buf : List Char) : Option Nat :=
  match buf with
  | [] => Option.none
  | c :: cs => if c = '"' then some 0 else (qNext c cs).map (· + 1)

/-- The chunk loop of `measure_string` (lazyjson): both `'\n'` and `'\r'` are
bare line breaks. -/
def msAuxL : Nat → List Char → Nat → Except Err Nat
  | 0, _, _ => .error .outOfFuel
  | fuel + 1, rest, acc =>
    let buf := rest.take 1024
    if buf.isEmpty then .error .unterminatedString
    else
      match qFindL buf with
      | some q =>
        if '\n' ∈ buf.take q ∨ '\r' ∈ buf.take q then .error .bareLineBreak
        else .ok (acc + q + 1)
      | Option.none =>
        if '\n' ∈ buf ∨ '\r' ∈ buf then .error .bareLineBreak
        else msAuxL fuel (rest.drop 1024) (acc + buf.length)

/-- `measure_string(file, pos)` (lazyjson). -/
def measureStringL (f : List Char) (pos : Nat) : Except Err Nat :=
  msAuxL (f.length + 1) (f.drop (pos + 1)) 1

/-- The one-byte-at-a-time accumulation loop of `measure_number` (lazyjson),
which is exactly `takeWhile` over `numChars`. -/
def numRunL : List Char → List Char
  | [] => []
  | c :: cs => if c ∈ numChars then c :: numRunL cs else []

/-- `measure_number(file, pos)` (lazyjson): same regex as sleepyjson. -/
def measureNumberL (f : List Char) (pos : Nat) : Except Err Nat :=
  match matchNumber (numRunL (f.drop pos)) with
  | some n => .ok n
  | Option.none => .error .malformedNumber

/-- The decoding loop of `Node.parse_string` (lazyjson).  Unlike the
sleepyjson `unescape_string_literal`: a `\uXXXX` escape advances the scan by
only two characters (`prev = backslash + 2` in every branch), so the four hex
digits are also copied literally after the decoded code unit, and there is no
explicit length/digit validation beyond `int(..., 16)` succeeding. -/
def lparseAux : Nat → List Char → Except Err (List Char)
  | 0, _ => .error .outOfFuel
  | fuel + 1, cs =>
    match cs.findIdx? (fun c => c = '\\') with
    | Option.none => .ok cs.dropLast
    | some b =>
      let pre := cs.take b
      let rest := cs.drop (b + 1)
      match rest.head? with
      | Option.none => .error .invalidEscape
      | some e =>
        match escMap e with
        | some d => (lparseAux fuel (rest.drop 1)).map fun tl => pre ++ d :: tl
        | Option.none =>
          if e = 'u' then
            let hx := (rest.drop 1).take 4
            if hx.length = 4 ∧ hx.all isHexDigit then
              (lparseAux fuel (rest.drop 1)).map fun tl =>
                pre ++ Char.ofNat (hexNat hx) :: tl
            else .error .invalidEscape
          else .error .invalidEscape

/-- `Node.parse_string` (lazyjson): measure, then decode the literal. -/
def parseStringL (f : List Char) (pos : Nat) : Except Err String := do
  let l ← measureStringL f pos
  let lit := (f.drop pos).take l
  (lparseAux (lit.length + 1) (lit.drop 1)).map String.mk

/-- `Node.parse_number` (lazyjson): `float(...)` of the measured literal —
always a float, never an int. -/
def parseNumberL (f : List Char) (pos : Nat) : Except Err PyVal :=
  (measureNumberL f pos).map fun l => .float (floatOfLit ((f.drop pos).take l))

/-- A lazyjson `Node`: offset, type, and — for containers — the child cache
(`children`, a list for arrays and an insertion-ordered dict for objects),
`last_key`, and the lazily discovered `size` and `end`. -/
inductive LNode where
  | mk (pos : Nat) (ty : NType) (ach : List LNode)
      (och : List (String × LNode)) (lastKey : Option String)
      (size : Option Nat) (endO : Option Nat)

def LNode.pos : LNode → Nat
  | .mk p _ _ _ _ _ _ => p

def LNode.ty : LNode → NType
  | .mk _ t _ _ _ _ _ => t

def LNode.ach : LNode → List LNode
  | .mk _ _ a _ _ _ _ => a

def LNode.och : LNode → List (String × LNode)
  | .mk _ _ _ o _ _ _ => o

def LNode.lastKey : LNode → Option String
  | .mk _ _ _ _ k _ _ => k

def LNode.size : LNode → Option Nat
  | .mk _ _ _ _ _ s _ => s

def LNode.endO : LNode → Option Nat
  | .mk _ _ _ _ _ _ e => e

/-- Record the permanent size/end of a container (`self.size = len(...);
self.end = ...`). -/
def LNode.close (nd : LNode) (sz : Nat) (e : Nat) : LNode :=
  match nd with
  | .mk p t a o k _ _ => .mk p t a o k (some sz) (some e)

/-- Append a discovered array child. -/
def LNode.pushA (nd : LNode) (c : LNode) : LNode :=
  match nd with
  | .mk p t a o k s e => .mk p t (a ++ [c]) o k s e

/-- Replace the most recently discovered array child (its `end_position` call
mutated it in place). -/
def LNode.setLastA (nd : LNode) (c : LNode) : LNode :=
  match nd with
  | .mk p t a o k s e => .mk p t (a.dropLast ++ [c]) o k s e

/-- `self.children[this_key] = child; self.last_key = this_key`: dict
assignment overwrites an existing key in place. -/
def LNode.putO (nd : LNode) (key : String) (c : LNode) : LNode :=
  match nd with
  | .mk p t a o _ s e => .mk p t a (dictPut o key c) (some key) s e

/-- Replace the child stored at `last_key` (mutated by its `end_position`
call). -/
def LNode.setLastO (nd : LNode) (c : LNode) : LNode :=
  match nd with
  | .mk p t a o k s e =>
    match k with
    | some key => .mk p t a (dictPut o key c) k s e
    | Option.none => .mk p t a o k s e

/-- `Node.__init__` (lazyjson): skip to the start, classify from a 5-byte
peek, and initialize the container state. -/
def lazyNew (f : List Char) (pos : Nat) : Except Err LNode :=
  let p := skipToStartL f pos
  (nodeTypeOfBuf ((f.drop p).take 5)).map fun t =>
    .mk p t [] [] Option.none Option.none Option.none

def LNode.setACh (nd : LNode) (a : List LNode) : LNode :=
  match nd with
  | .mk p t _ o k s e => .mk p t a o k s e

def LNode.setOCh (nd : LNode) (o : List (String × LNode)) : LNode :=
  match nd with
  | .mk p t a _ k s e => .mk p t a o k s e

/-- The mutually recursive operations of a lazyjson `Node`, stratified by
fuel.  Each operation returns the updated node (the Python methods mutate
`self` and the cached children in place). -/
structure LCoreFns where
  endPos : LNode → Except Err (Nat × LNode)
  seekNC : LNode → Bool → Except Err (Bool × Nat × LNode)
  readNA : LNode → Bool → Except Err (Bool × LNode)
  readUA : LNode → Option Nat → Except Err LNode
  readNO : LNode → Bool → Except Err (Bool × LNode)
  readUO : LNode → Option String → Except Err LNode
  value : LNode → Except Err (PyVal × LNode)

def lBot : LCoreFns where
  endPos := fun _ => .error .outOfFuel
  seekNC := fun _ _ => .error .outOfFuel
  readNA := fun _ _ => .error .outOfFuel
  readUA := fun _ _ => .error .outOfFuel
  readNO := fun _ _ => .error .outOfFuel
  readUO := fun _ _ => .error .outOfFuel
  value := fun _ => .error .outOfFuel

/-- `[child.value() for child in self.children]`, threading the state of each
child (its `value()` call can force discovery inside it). -/
def lValueList (vf : LNode → Except Err (PyVal × LNode)) :
    List LNode → Except Err (List PyVal × List LNode)
  | [] => .ok ([], [])
  | c :: cs => do
    let (v, c2) ← vf c
    let (vs, cs2) ← lValueList vf cs
    .ok (v :: vs, c2 :: cs2)

/-- `{key: child.value() for key, child in self.children.items()}` (keys in
the cache are already unique). -/
def lValuePairs (vf : LNode → Except Err (PyVal × LNode)) :
    List (String × LNode) →
    Except Err (List (String × PyVal) × List (String × LNode))
  | [] => .ok ([], [])
  | (k, c) :: cs => do
    let (v, c2) ← vf c
    let (vs, cs2) ← lValuePairs vf cs
    .ok ((k, v) :: vs, (k, c2) :: cs2)

/-- One level of the lazyjson operations over the previous level. -/
def lStep (f : List Char) (prev : LCoreFns) : LCoreFns where
  endPos := fun nd =>
    match nd.ty with
    | .tru => .ok (nd.pos + 4, nd)
    | .fls => .ok (nd.pos + 5, nd)
    | .nul => .ok (nd.pos + 4, nd)
    | .str => (measureStringL f nd.pos).map fun l => (nd.pos + l, nd)
    | .num => (measureNumberL f nd.pos).map fun l => (nd.pos + l, nd)
    | .arr => do
      let nd2 ← prev.readUA nd Option.none
      match nd2.endO with
      | some e => .ok (e, nd2)
      | Option.none => .error .malformedInput
    | .obj => do
      let nd2 ← prev.readUO nd Option.none
      match nd2.endO with
      | some e => .ok (e, nd2)
      | Option.none => .error .malformedInput
  seekNC := fun nd expecting =>
    if (match nd.ty with | .arr => nd.ach.isEmpty | _ => nd.och.isEmpty) then
      .ok (false, skipToStartL f (nd.pos + 1), nd)
    else
      match (match nd.ty with
             | .arr => nd.ach.getLast?
             | _ => nd.lastKey.bind (dictGet nd.och)) with
      | Option.none => .error .keyNotFound
      | some child => do
        let (e, child2) ← prev.endPos child
        let nd2 := match nd.ty with
          | .arr => nd.setLastA child2
          | _ => nd.setLastO child2
        match skipCommaL f e with
        | (true, cur) => .ok (false, cur, nd2)
        | (false, cur) =>
          if expecting then
            .error (match nd.ty with | .arr => Err.indexOutOfRange | _ => Err.keyNotFound)
          else .ok (true, cur, nd2)
  readNA := fun nd expecting =>
    if nd.size.isSome then
      if expecting then .error .indexOutOfRange else .ok (false, nd)
    else do
      let (mustEnd, cur, nd2) ← prev.seekNC nd expecting
      let pk := (f.drop cur).head?
      if mustEnd ∧ pk ≠ some ']' then .error .malformedInput
      else if pk = some ']' then
        let nd3 := nd2.close nd2.ach.length (cur + 1)
        if expecting then .error .indexOutOfRange else .ok (false, nd3)
      else do
        let child ← lazyNew f cur
        .ok (true, nd2.pushA child)
  readUA := fun nd amount =>
    match amount with
    | some a =>
      if a ≤ nd.ach.length then .ok nd
      else do
        let (_, nd2) ← prev.readNA nd true
        if nd2.ach.length = a then .ok nd2 else prev.readUA nd2 amount
    | Option.none => do
      let (produced, nd2) ← prev.readNA nd false
      if produced then prev.readUA nd2 Option.none else .ok nd2
  readNO := fun nd expecting =>
    if nd.size.isSome then
      if expecting then .error .keyNotFound else .ok (false, nd)
    else do
      let (_, cur, nd2) ← prev.seekNC nd expecting
      if (f.drop cur).head? = some '\x7d' then
        let nd3 := nd2.close nd2.och.length (cur + 1)
        if expecting then .error .keyNotFound else .ok (false, nd3)
      else do
        let key ← lazyNew f cur
        if key.ty ≠ .str then .error .malformedInput
        else do
          let (kend, _) ← prev.endPos key
          let kv ← parseStringL f key.pos
          match skipColonL f kend with
          | (false, _) => .error .expectedDelimiter
          | (true, cur2) => do
            let child ← lazyNew f cur2
            .ok (true, nd2.putO kv child)
  readUO := fun nd key =>
    match key with
    | some k =>
      if (dictGet nd.och k).isSome then .ok nd
      else do
        let (_, nd2) ← prev.readNO nd true
        if (dictGet nd2.och k).isSome then .ok nd2 else prev.readUO nd2 key
    | Option.none => do
      let (produced, nd2) ← prev.readNO nd false
      if produced then prev.readUO nd2 Option.none else .ok nd2
  value := fun nd =>
    match nd.ty with
    | .tru => .ok (.bool true, nd)
    | .fls => .ok (.bool false, nd)
    | .nul => .ok (.pnone, nd)
    | .str => (parseStringL f nd.pos).map fun s => (.str s, nd)
    | .num => (parseNumberL f nd.pos).map fun v => (v, nd)
    | .arr => do
      let nd2 ← prev.readUA nd Option.none
      let (vs, ach2) ← lValueList prev.value nd2.ach
      .ok (.list vs, nd2.setACh ach2)
    | .obj => do
      let nd2 ← prev.readUO nd Option.none
      let (vs, och2) ← lValuePairs prev.value nd2.och
      .ok (.dict vs, nd2.setOCh och2)

/-- The fuel-stratified lazyjson operations. -/
def lcore (f : List Char) : Nat → LCoreFns
  | 0 => lBot
  | n + 1 => lStep f (lcore f n)

/-- `Node.__len__` (lazyjson): force full discovery, then report the cache
size; once `size` is known the forcing loop returns immediately without
touching the file. -/
def lazyLen (fuel : Nat) (f : List Char) (nd : LNode) : Except Err (Nat × LNode) :=
  match nd.ty with
  | .arr => ((lcore f fuel).readUA nd Option.none).map fun nd2 => (nd2.ach.length, nd2)
  | .obj => ((lcore f fuel).readUO nd Option.none).map fun nd2 => (nd2.och.length, nd2)
  | _ => .error .notIndexable

/-- `Node.__getitem__` (lazyjson). -/
def lazyGetItem (fuel : Nat) (f : List Char) (nd : LNode) (key : PyKey) :
    Except Err (LNode × LNode) :=
  match nd.ty with
  | .arr =>
    match key with
    | .kInt k => do
      let nd2 ←
        if k < 0 then (lcore f fuel).readUA nd Option.none
        else (lcore f fuel).readUA nd (some (k.toNat + 1))
      let idx : Int := if k < 0 then (nd2.ach.length : Int) + k else k
      if h : 0 ≤ idx ∧ idx.toNat < nd2.ach.length then
        .ok (nd2.ach.get ⟨idx.toNat, h.2⟩, nd2)
      else .error .indexOutOfRange
    | _ => .error .typeErr
  | .obj =>
    match key with
    | .kStr s => do
      let nd2 ← (lcore f fuel).readUO nd (some s)
      match dictGet nd2.och s with
      | some c => .ok (c, nd2)
      | Option.none => .error .keyNotFound
    | _ => .error .typeErr
  | _ => .error .notIndexable

/-- `Node.value()` (lazyjson). -/
def lazyValue (fuel : Nat) (f : List Char) (nd : LNode) : Except Err (PyVal × LNode) :=
  (lcore f fuel).value nd

/-- Modelled from the spec: the repository's `sleepyjson` Reader
(`from sleepyjson import Reader`, used by `tests/feature/measure_time.py`, and
the `prev`/`seek` navigation exercised by `tests/feature/test_api.py`) is not
among the sources; `src/lazyjson/reader.py` contains only forward navigation
(`next`, `jump`).  Spec §4.3 describes the missing cursor: a current node, a
0-based document index, and a cache mapping visited document indices to their
start offsets, enabling `prev`/`seek` without re-scanning.  The state below is
that cursor over sleepyjson nodes in a single source. -/
structure RState where
  idx : Nat
  offs : List Nat
  node : SNode
  deriving DecidableEq, Repr

/-- Modelled from the spec: Reader construction — the cursor starts at offset
0 of the source, with document 0's start offset cached. -/
def readerNew (f : List Char) : Except Err RState :=
  (mkSNodeS f 0).map fun nd => ⟨0, [nd.pos], nd⟩

/-- Modelled from the spec: `next()` — if no significant bytes remain after
the current node's end, fail with `EndOfSequence` (single-source mode);
otherwise construct a new node at the current node's end offset, increment the
document index, and record the new start offset in the position cache (unless
the index was already visited). -/
def readerNext (fuel : Nat) (f : List Char) (r : RState) : Except Err RState := do
  match ← sEndPos fuel f r.node with
  | Option.none => .error .typeErr
  | some e =>
    if skipToStartS f e ≥ f.length then .error .endOfSequence
    else do
      let nd ← mkSNodeS f e
      let offs := if r.idx + 1 < r.offs.length then r.offs else r.offs ++ [nd.pos]
      .ok ⟨r.idx + 1, offs, nd⟩

/-- Modelled from the spec: `prev()` — fail with `AtStart` at index 0, else
decrement the index and reconstruct the node from the cached start offset. -/
def readerPrev (f : List Char) (r : RState) : Except Err RState :=
  if r.idx = 0 then .error .atStart
  else
    match r.offs.get? (r.idx - 1) with
    | some o => (mkSNodeS f o).map fun nd => ⟨r.idx - 1, r.offs, nd⟩
    | Option.none => .error .atStart

/-- Modelled from the spec: replay `next()` `n` times. -/
def readerReplay (f : List Char) : Nat → Nat → RState → Except Err RState
  | _, 0, r => .ok r
  | fuel, n + 1, r => (readerNext fuel f r).bind (readerReplay f fuel n)

/-- Modelled from the spec: `seek(i)` — negative input fails with
`NegativeIndex`; an already visited index is reconstructed directly from the
cache; otherwise replay `next()` from the highest cached index. -/
def readerSeek (fuel : Nat) (f : List Char) (r : RState) (i : Int) :
    Except Err RState :=
  if i < 0 then .error .negativeIndex
  else
    match r.offs.get? i.toNat with
    | some o => (mkSNodeS f o).map fun nd => ⟨i.toNat, r.offs, nd⟩
    | Option.none =>
      match r.offs.getLast? with
      | Option.none => .error .atStart
      | some o =>
        (mkSNodeS f o).bind fun nd =>
          readerReplay f fuel (i.toNat - (r.offs.length - 1)) ⟨r.offs.length - 1, r.offs, nd⟩

/-- The sequence of documents a single-source stream denotes: document 0 is
the node at offset 0, document `i + 1` is the node at document `i`'s end
offset. -/
def docNode (fuel : Nat) (f : List Char) : Nat → Except Err SNode
  | 0 => mkSNodeS f 0
  | i + 1 => do
    let nd ← docNode fuel f i
    match ← sEndPos fuel f nd with
    | Option.none => .error .typeErr
    | some e => mkSNodeS f e

/-! ## Theorems for the claims -/

/-- Concrete document with one duplicate key, `{"a": 1, "a": 2}`. -/
def dupKeyDoc : List Char := ('\x7b' :: "\"a\": 1, \"a\": 2".data) ++ ['\x7d']

/-- Claim C1 (code bug): the round-trip law fails in the code.  (i) lazyjson's
`Node.parse_number` materializes every number literal as a float — `value()`
on the document `12` yields `float(12.0)`, not the integer `12` demanded by
the claim and by the repository's own test
`test_node.py::test_number_nodes_return_int_or_float`; (ii) sleepyjson does
materialize `12` as an integer, but its `array_iter` never records an array's
end offset when the array does not end with a trailing comma, so `value()` on
the nested document `[[1]]` aborts (the outer iteration seeks to the inner
array's `None` end position) instead of returning `[[1]]`. -/
theorem c1_roundtrip_code_bug :
    ((lazyNew ("12").data 0).bind fun nd => (lazyValue 5 ("12").data nd).map (·.1))
      = .ok (.float 12)
    ∧ ((mkSNodeS ("12").data 0).bind fun nd => sValue 5 ("12").data nd)
      = .ok (.int 12)
    ∧ ((mkSNodeS ("[[1]]").data 0).bind fun nd => sValue 10 ("[[1]]").data nd)
      = .error .typeErr := by
  refine ⟨by rfl, by rfl, by rfl⟩

/-- Claim C6, counterexample: on `{"a": 1, "a": 2}` full materialization
reflects the *second* pair — the later duplicate key overwrites the earlier
discovered child in the cache (`self.children[this_key] = child` is a plain
dict assignment) — while the claim demands the first occurrence (`1`, i.e.
`1.0` here since lazyjson materializes floats). -/
theorem c6_duplicate_key_counterexample :
    ((lazyNew dupKeyDoc 0).bind fun nd => (lazyValue 30 dupKeyDoc nd).map (·.1))
      = .ok (.dict [("a", .float 2)])
    ∧ ((lazyNew dupKeyDoc 0).bind fun nd => (lazyValue 30 dupKeyDoc nd).map (·.1))
      ≠ .ok (.dict [("a", .float 1)]) := by
  have h :
      ((lazyNew dupKeyDoc 0).bind fun nd => (lazyValue 30 dupKeyDoc nd).map (·.1))
        = .ok (.dict [("a", .float 2)]) := by rfl
  refine ⟨h, ?_⟩
  rw [h]
  intro hc
  simp only [Except.ok.injEq, PyVal.dict.injEq, List.cons.injEq, Prod.mk.injEq,
    PyVal.float.injEq] at hc
  exact absurd hc.1.2 (by norm_num)

/-- Claim C6 (amended): a lookup on a fresh object node stops at and returns
the first occurrence of a duplicated key, but any discovery that passes the
later duplicate overwrites the cached child in place (keeping the first
occurrence's position), so after full discovery (`value()`, `length()`)
lookups and materialization reflect the last occurrence. -/
theorem c6_duplicate_key_amended :
    ((lazyNew dupKeyDoc 0).bind fun nd =>
        (lazyGetItem 30 dupKeyDoc nd (.kStr "a")).bind fun r =>
          (lazyValue 30 dupKeyDoc r.1).map (·.1))
      = .ok (.float 1)
    ∧ ((lazyNew dupKeyDoc 0).bind fun nd => (lazyValue 30 dupKeyDoc nd).map (·.1))
      = .ok (.dict [("a", .float 2)])
    ∧ ((lazyNew dupKeyDoc 0).bind fun nd =>
        (lazyLen 30 dupKeyDoc nd).bind fun r =>
          (lazyGetItem 30 dupKeyDoc r.2 (.kStr "a")).bind fun r2 =>
            (lazyValue 30 dupKeyDoc r2.1).map (·.1))
      = .ok (.float 2) := by
  refine ⟨by rfl, by rfl, by rfl⟩

/-- Claim C10: indexing an array node with a non-`int` key, or an object node
with a non-`str` key, fails with the type-complaint `ValueError` raised by the
`isinstance` checks at the top of `__getitem__` — for every file and every
fuel (in particular fuel 0: no scanning at all is performed), and the error is
distinct from `IndexError` (`indexOutOfRange`) and `KeyError`
(`keyNotFound`). -/
theorem c10_key_type_check :
    (∀ (f : List Char) (nd : SNode) (fuel : Nat),
      (nd.ty = .arr →
        (∀ s, sGetItem fuel f nd (.kStr s) = .error .typeErr)
        ∧ sGetItem fuel f nd .kNone = .error .typeErr)
      ∧ (nd.ty = .obj →
        (∀ k : Int, sGetItem fuel f nd (.kInt k) = .error .typeErr)
        ∧ sGetItem fuel f nd .kNone = .error .typeErr))
    ∧ Err.typeErr ≠ Err.indexOutOfRange ∧ Err.typeErr ≠ Err.keyNotFound := by
  refine ⟨fun f nd fuel => ⟨fun h => ?_, fun h => ?_⟩, by simp, by simp⟩ <;>
    cases nd <;> simp_all [sGetItem]

/-- Witness for C10 at an array node and an object node. -/
theorem c10_key_type_check_witness :
    sGetItem 0 [] ⟨0, .arr⟩ (.kStr "x") = .error .typeErr
    ∧ sGetItem 0 [] ⟨0, .obj⟩ (.kInt 0) = .error .typeErr := by
  exact ⟨((c10_key_type_check.1 [] ⟨0, .arr⟩ 0).1 rfl).1 "x",
    ((c10_key_type_check.1 [] ⟨0, .obj⟩ 0).2 rfl).1 0⟩

@[simp] theorem ebind_ok {α β : Type} (a : α) (g : α → Except Err β) :
    (Except.ok a >>= g) = g a := rfl

@[simp] theorem ebind_err {α β : Type} (e : Err) (g : α → Except Err β) :
    ((Except.error e : Except Err α) >>= g) = .error e := rfl

@[simp] theorem emap_ok {α β : Type} (a : α) (g : α → β) :
    (Except.ok a : Except Err α).map g = .ok (g a) := rfl

@[simp] theorem emap_err {α β : Type} (e : Err) (g : α → β) :
    (Except.error e : Except Err α).map g = .error e := rfl

/-- Unfolding one fuel level of the sleepyjson operations. -/
theorem score_succ (f : List Char) (n : Nat) : score f (n + 1) = sStep f (score f n) := rfl

/-- Pulling the `array_iter` generator to position `j` agrees with the full
enumeration: if the full enumeration succeeds with children `l`, the `j`-th
pull returns `l[j]` for `j < |l|` and `IndexError` past the end. -/
theorem sArrNth_of_arrList (f : List Char) :
    ∀ (fuel : Nat) (g : ArrG) (l : List SNode) (e : Option Nat),
      (score f fuel).arrList g = .ok (l, e) →
      (∀ (j : Nat) (hj : j < l.length), (score f fuel).arrNth g j = .ok (l.get ⟨j, hj⟩))
      ∧ (∀ j : Nat, l.length ≤ j → (score f fuel).arrNth g j = .error .indexOutOfRange) := by
  intro fuel
  induction fuel with
  | zero => intro g l e h; simp [score, sBot] at h
  | succ n ih =>
    intro g l e h
    simp only [score_succ, sStep] at h ⊢
    cases hs : (score f n).arrStep g with
    | error e2 => rw [hs] at h; simp at h
    | ok st =>
      rw [hs] at h
      cases st with
      | doneA e2 =>
        simp only [ebind_ok, Except.ok.injEq, Prod.mk.injEq] at h
        obtain ⟨h1, h2⟩ := h
        subst h1
        exact ⟨fun j hj => by simp at hj, fun j hj => by simp⟩
      | yieldA c g2 =>
        simp only [ebind_ok] at h ⊢
        cases hl : (score f n).arrList g2 with
        | error e3 => rw [hl] at h; simp at h
        | ok r =>
          rw [hl] at h
          simp only [emap_ok, Except.ok.injEq, Prod.mk.injEq] at h
          obtain ⟨h1, h2⟩ := h
          subst h1
          obtain ⟨ih1, ih2⟩ := ih g2 r.1 r.2 (by rw [hl])
          constructor
          · intro j hj
            match j with
            | 0 => rfl
            | j2 + 1 =>
              simp only [List.length_cons] at hj
              have := ih1 j2 (by omega)
              simpa using this
          · intro j hj
            match j with
            | 0 => simp at hj
            | j2 + 1 =>
              simp only [List.length_cons] at hj
              have := ih2 j2 (by omega)
              simpa using this

/-- Claim C7: on an array node whose full enumeration yields children `l`
(with `n = |l|`), a negative index `k` resolves to the element at `n + k` when
`0 ≤ n + k` — returning the same node as the non-negative index `n + k` — and
fails with `IndexError` (`indexOutOfRange`) when `n + k < 0`. -/
theorem c7_negative_index :
    ∀ (fuel : Nat) (f : List Char) (nd : SNode) (l : List SNode) (e : Option Nat),
      nd.ty = .arr →
      (score f fuel).arrList (sArrG nd) = .ok (l, e) →
      ∀ k : Int, ∀ hk : k < 0,
        (∀ h : 0 ≤ (l.length : Int) + k,
          sGetItem fuel f nd (.kInt k)
            = .ok (l.get ⟨((l.length : Int) + k).toNat, by omega⟩)
          ∧ sGetItem fuel f nd (.kInt ((l.length : Int) + k))
            = sGetItem fuel f nd (.kInt k))
        ∧ ((l.length : Int) + k < 0 →
          sGetItem fuel f nd (.kInt k) = .error .indexOutOfRange) := by
  intro fuel f nd l e hty hl k hk
  have hneg : sGetItem fuel f nd (.kInt k)
      = (if l.length < (-k).toNat then .error .indexOutOfRange
         else match l.get? (l.length - (-k).toNat) with
              | some c => .ok c
              | Option.none => .error .indexOutOfRange) := by
    unfold sGetItem
    rw [hty]
    simp only [if_pos hk, hl]
  constructor
  · intro h
    have hlt : ¬ l.length < (-k).toNat := by omega
    have hidx : l.length - (-k).toNat = ((l.length : Int) + k).toNat := by omega
    have hbound : ((l.length : Int) + k).toNat < l.length := by omega
    have hget : l.get? (l.length - (-k).toNat) = some (l.get ⟨((l.length : Int) + k).toNat, hbound⟩) := by
      rw [hidx]
      exact List.get?_eq_get hbound
    constructor
    · rw [hneg, if_neg hlt, hget]
    · have hk2 : ¬ ((l.length : Int) + k < 0) := by omega
      have : sGetItem fuel f nd (.kInt ((l.length : Int) + k))
          = (score f fuel).arrNth (sArrG nd) ((l.length : Int) + k).toNat := by
        unfold sGetItem
        rw [hty]
        simp only [if_neg hk2]
      rw [this, (sArrNth_of_arrList f fuel (sArrG nd) l e hl).1 _ hbound, hneg,
        if_neg hlt, hget]
  · intro h
    have hlt : l.length < (-k).toNat := by omega
    rw [hneg, if_pos hlt]

def c7doc : List Char := "[10, 20, 30]".data

/-- Witness for C7 on `[10, 20, 30]`: index `-1` yields the node of `30`,
`-3` yields the node of `10`, `-4` fails, and `-1` resolves the same node as
index `2`. -/
theorem c7_witness :
    (score c7doc 20).arrList (sArrG ⟨0, .arr⟩)
      = .ok ([⟨1, .num⟩, ⟨5, .num⟩, ⟨9, .num⟩], Option.none)
    ∧ sGetItem 20 c7doc ⟨0, .arr⟩ (.kInt (-1)) = .ok ⟨9, .num⟩
    ∧ sGetItem 20 c7doc ⟨0, .arr⟩ (.kInt (-3)) = .ok ⟨1, .num⟩
    ∧ sGetItem 20 c7doc ⟨0, .arr⟩ (.kInt (-4)) = .error .indexOutOfRange
    ∧ sGetItem 20 c7doc ⟨0, .arr⟩ (.kInt 2) = sGetItem 20 c7doc ⟨0, .arr⟩ (.kInt (-1))
    ∧ sValue 20 c7doc ⟨9, .num⟩ = .ok (.int 30)
    ∧ sValue 20 c7doc ⟨1, .num⟩ = .ok (.int 10) := by
  have hl : (score c7doc 20).arrList (sArrG ⟨0, .arr⟩)
      = .ok ([⟨1, .num⟩, ⟨5, .num⟩, ⟨9, .num⟩], Option.none) := by rfl
  refine ⟨hl, ?_, ?_, ?_, ?_, by rfl, by rfl⟩
  · exact ((c7_negative_index 20 c7doc ⟨0, .arr⟩ _ _ rfl hl (-1) (by norm_num)).1 (by norm_num)).1
  · exact ((c7_negative_index 20 c7doc ⟨0, .arr⟩ _ _ rfl hl (-3) (by norm_num)).1 (by norm_num)).1
  · exact (c7_negative_index 20 c7doc ⟨0, .arr⟩ _ _ rfl hl (-4) (by norm_num)).2 (by norm_num)
  · exact (((c7_negative_index 20 c7doc ⟨0, .arr⟩ _ _ rfl hl (-1) (by norm_num)).1 (by norm_num)).2)

theorem lcore_succ (f : List Char) (n : Nat) : lcore f (n + 1) = lStep f (lcore f n) := rfl

@[simp] theorem LNode_close_ty (nd : LNode) (s e : Nat) : (nd.close s e).ty = nd.ty := by
  cases nd; rfl
@[simp] theorem LNode_close_size (nd : LNode) (s e : Nat) : (nd.close s e).size = some s := by
  cases nd; rfl
@[simp] theorem LNode_close_ach (nd : LNode) (s e : Nat) : (nd.close s e).ach = nd.ach := by
  cases nd; rfl
@[simp] theorem LNode_close_och (nd : LNode) (s e : Nat) : (nd.close s e).och = nd.och := by
  cases nd; rfl
@[simp] theorem LNode_pushA_ty (nd c : LNode) : (nd.pushA c).ty = nd.ty := by
  cases nd; rfl
@[simp] theorem LNode_pushA_size (nd c : LNode) : (nd.pushA c).size = nd.size := by
  cases nd; rfl
@[simp] theorem LNode_putO_ty (nd : LNode) (k : String) (c : LNode) : (nd.putO k c).ty = nd.ty := by
  cases nd; rfl
@[simp] theorem LNode_putO_size (nd : LNode) (k : String) (c : LNode) : (nd.putO k c).size = nd.size := by
  cases nd; rfl
@[simp] theorem LNode_setLastA_ty (nd c : LNode) : (nd.setLastA c).ty = nd.ty := by
  cases nd; rfl
@[simp] theorem LNode_setLastA_size (nd c : LNode) : (nd.setLastA c).size = nd.size := by
  cases nd; rfl
@[simp] theorem LNode_setLastO_ty (nd c : LNode) : (nd.setLastO c).ty = nd.ty := by
  cases nd with
  | mk p t a o k s e => cases k <;> rfl

@[simp] theorem LNode_setLastO_size (nd c : LNode) : (nd.setLastO c).size = nd.size := by
  cases nd with
  | mk p t a o k s e => cases k <;> rfl


/-- Transport an error's non-fuel-exhaustion across result types. -/
theorem errNe {α β : Type} {e : Err}
    (hne : (Except.error e : Except Err α) ≠ .error .outOfFuel) :
    (Except.error e : Except Err β) ≠ .error .outOfFuel := by
  intro hh
  injection hh with h2
  rw [h2] at hne
  exact hne rfl

/-- Pointwise fuel-monotonicity relation between two levels of the lazyjson
operations: any result other than fuel exhaustion is preserved. -/
structure LMonoRel (P Q : LCoreFns) : Prop where
  mendPos : ∀ nd r, P.endPos nd = r → r ≠ .error .outOfFuel → Q.endPos nd = r
  mseekNC : ∀ nd b r, P.seekNC nd b = r → r ≠ .error .outOfFuel → Q.seekNC nd b = r
  mreadNA : ∀ nd b r, P.readNA nd b = r → r ≠ .error .outOfFuel → Q.readNA nd b = r
  mreadUA : ∀ nd a r, P.readUA nd a = r → r ≠ .error .outOfFuel → Q.readUA nd a = r
  mreadNO : ∀ nd b r, P.readNO nd b = r → r ≠ .error .outOfFuel → Q.readNO nd b = r
  mreadUO : ∀ nd k r, P.readUO nd k = r → r ≠ .error .outOfFuel → Q.readUO nd k = r

/-- One `lStep` preserves the monotonicity relation. -/
theorem lStep_mono (f : List Char) (P Q : LCoreFns) (ih : LMonoRel P Q) :
    LMonoRel (lStep f P) (lStep f Q) := by
  obtain ⟨ihE, ihS, ihNA, ihUA, ihNO, ihUO⟩ := ih
  constructor
  -- endPos
  · intro nd r h hne
    simp only [lStep] at h ⊢
    cases hty : nd.ty <;> simp only [hty] at h ⊢ <;> try exact h
    · -- obj
      cases h1 : P.readUO nd Option.none with
      | error e =>
        rw [h1, ebind_err] at h
        subst h
        rw [ihUO nd Option.none _ h1 (errNe hne), ebind_err]
      | ok nd2 =>
        rw [h1, ebind_ok] at h
        rw [ihUO nd Option.none _ h1 (by simp), ebind_ok]
        exact h
    · -- arr
      cases h1 : P.readUA nd Option.none with
      | error e =>
        rw [h1, ebind_err] at h
        subst h
        rw [ihUA nd Option.none _ h1 (errNe hne), ebind_err]
      | ok nd2 =>
        rw [h1, ebind_ok] at h
        rw [ihUA nd Option.none _ h1 (by simp), ebind_ok]
        exact h
  -- seekNC
  · intro nd b r h hne
    simp only [lStep] at h ⊢
    by_cases hemp : (match nd.ty with | .arr => nd.ach.isEmpty | _ => nd.och.isEmpty)
    · rw [if_pos hemp] at h; rw [if_pos hemp]; exact h
    · rw [if_neg hemp] at h
      rw [if_neg hemp]
      cases hch : (match nd.ty with
          | .arr => nd.ach.getLast?
          | _ => nd.lastKey.bind (dictGet nd.och)) with
      | none => rw [hch] at h; exact h
      | some child =>
        rw [hch] at h
        try dsimp only at h ⊢
        cases h1 : P.endPos child with
        | error e =>
          rw [h1] at h
          try dsimp only at h
          subst h
          rw [ihE child _ h1 (errNe hne)]
        | ok e =>
          rw [h1] at h
          rw [ihE child _ h1 (by simp)]
          try dsimp only at h ⊢
          exact h
  -- readNA
  · intro nd b r h hne
    simp only [lStep] at h ⊢
    by_cases hsz : nd.size.isSome = true
    · rw [if_pos hsz] at h; rw [if_pos hsz]; exact h
    · rw [if_neg hsz] at h
      rw [if_neg hsz]
      cases h1 : P.seekNC nd b with
      | error e =>
        rw [h1, ebind_err] at h
        subst h
        rw [ihS nd b _ h1 (errNe hne), ebind_err]
      | ok v =>
        rw [h1, ebind_ok] at h
        rw [ihS nd b _ h1 (by simp), ebind_ok]
        exact h
  -- readUA
  · intro nd a r h hne
    simp only [lStep] at h ⊢
    cases a with
    | some a0 =>
      dsimp only at h ⊢
      by_cases hle : a0 ≤ nd.ach.length
      · rw [if_pos hle] at h; rw [if_pos hle]; exact h
      · rw [if_neg hle] at h
        rw [if_neg hle]
        cases h1 : P.readNA nd true with
        | error e =>
          rw [h1, ebind_err] at h
          subst h
          rw [ihNA nd true _ h1 (errNe hne), ebind_err]
        | ok v =>
          rw [h1, ebind_ok] at h
          rw [ihNA nd true _ h1 (by simp), ebind_ok]
          by_cases heq : v.2.ach.length = a0
          · rw [if_pos heq] at h; rw [if_pos heq]; exact h
          · rw [if_neg heq] at h
            rw [if_neg heq]
            exact ihUA v.2 (some a0) _ h hne
    | none =>
      dsimp only at h ⊢
      cases h1 : P.readNA nd false with
      | error e =>
        rw [h1, ebind_err] at h
        subst h
        rw [ihNA nd false _ h1 (errNe hne), ebind_err]
      | ok v =>
        rw [h1, ebind_ok] at h
        rw [ihNA nd false _ h1 (by simp), ebind_ok]
        by_cases hp : v.1 = true
        · rw [if_pos hp] at h
          rw [if_pos hp]
          exact ihUA v.2 Option.none _ h hne
        · rw [if_neg hp] at h; rw [if_neg hp]; exact h
  -- readNO
  · intro nd b r h hne
    simp only [lStep] at h ⊢
    by_cases hsz : nd.size.isSome = true
    · rw [if_pos hsz] at h; rw [if_pos hsz]; exact h
    · rw [if_neg hsz] at h
      rw [if_neg hsz]
      cases h1 : P.seekNC nd b with
      | error e =>
        rw [h1, ebind_err] at h
        subst h
        rw [ihS nd b _ h1 (errNe hne), ebind_err]
      | ok v =>
        rw [h1, ebind_ok] at h
        rw [ihS nd b _ h1 (by simp), ebind_ok]
        by_cases hbr : (f.drop v.2.1).head? = some '\x7d'
        · rw [if_pos hbr] at h; rw [if_pos hbr]; exact h
        · rw [if_neg hbr] at h
          rw [if_neg hbr]
          cases h2 : lazyNew f v.2.1 with
          | error e =>
            rw [h2] at h
            try simp only [ebind_ok, ebind_err] at h ⊢
            exact h
          | ok key =>
            rw [h2] at h
            try simp only [ebind_ok, ebind_err] at h ⊢
            by_cases hkt : key.ty ≠ NType.str
            · rw [if_pos hkt] at h; rw [if_pos hkt]; exact h
            · rw [if_neg hkt] at h
              rw [if_neg hkt]
              cases h3 : P.endPos key with
              | error e =>
                rw [h3, ebind_err] at h
                subst h
                rw [ihE key _ h3 (errNe hne), ebind_err]
              | ok ke =>
                rw [h3, ebind_ok] at h
                rw [ihE key _ h3 (by simp), ebind_ok]
                exact h
  -- readUO
  · intro nd k r h hne
    simp only [lStep] at h ⊢
    cases k with
    | some k0 =>
      dsimp only at h ⊢
      by_cases hin : (dictGet nd.och k0).isSome = true
      · rw [if_pos hin] at h; rw [if_pos hin]; exact h
      · rw [if_neg hin] at h
        rw [if_neg hin]
        cases h1 : P.readNO nd true with
        | error e =>
          rw [h1, ebind_err] at h
          subst h
          rw [ihNO nd true _ h1 (errNe hne), ebind_err]
        | ok v =>
          rw [h1, ebind_ok] at h
          rw [ihNO nd true _ h1 (by simp), ebind_ok]
          by_cases hf : (dictGet v.2.och k0).isSome = true
          · rw [if_pos hf] at h; rw [if_pos hf]; exact h
          · rw [if_neg hf] at h
            rw [if_neg hf]
            exact ihUO v.2 (some k0) _ h hne
    | none =>
      dsimp only at h ⊢
      cases h1 : P.readNO nd false with
      | error e =>
        rw [h1, ebind_err] at h
        subst h
        rw [ihNO nd false _ h1 (errNe hne), ebind_err]
      | ok v =>
        rw [h1, ebind_ok] at h
        rw [ihNO nd false _ h1 (by simp), ebind_ok]
        by_cases hp : v.1 = true
        · rw [if_pos hp] at h
          rw [if_pos hp]
          exact ihUO v.2 Option.none _ h hne
        · rw [if_neg hp] at h; rw [if_neg hp]; exact h

/-- Fuel monotonicity between consecutive levels of the lazyjson
operations. -/
theorem lmono (f : List Char) : ∀ n, LMonoRel (lcore f n) (lcore f (n + 1))
  | 0 => by
    refine ⟨?_, ?_, ?_, ?_, ?_, ?_⟩
    · exact fun nd r h hne => absurd h.symm hne
    · exact fun nd b r h hne => absurd h.symm hne
    · exact fun nd b r h hne => absurd h.symm hne
    · exact fun nd a r h hne => absurd h.symm hne
    · exact fun nd b r h hne => absurd h.symm hne
    · exact fun nd k r h hne => absurd h.symm hne
  | n + 1 => lStep_mono f (lcore f n) (lcore f (n + 1)) (lmono f n)

/-- `LMonoRel` is reflexive. -/
theorem lmono_rfl (P : LCoreFns) : LMonoRel P P :=
  ⟨fun _ _ h _ => h, fun _ _ _ h _ => h, fun _ _ _ h _ => h,
   fun _ _ _ h _ => h, fun _ _ _ h _ => h, fun _ _ _ h _ => h⟩

/-- `LMonoRel` is transitive. -/
theorem lmono_trans {P Q R : LCoreFns} (h1 : LMonoRel P Q) (h2 : LMonoRel Q R) :
    LMonoRel P R :=
  ⟨fun nd r h hne => h2.mendPos nd r (h1.mendPos nd r h hne) hne,
   fun nd b r h hne => h2.mseekNC nd b r (h1.mseekNC nd b r h hne) hne,
   fun nd b r h hne => h2.mreadNA nd b r (h1.mreadNA nd b r h hne) hne,
   fun nd a r h hne => h2.mreadUA nd a r (h1.mreadUA nd a r h hne) hne,
   fun nd b r h hne => h2.mreadNO nd b r (h1.mreadNO nd b r h hne) hne,
   fun nd k r h hne => h2.mreadUO nd k r (h1.mreadUO nd k r h hne) hne⟩

/-- Fuel monotonicity between any two levels. -/
theorem lmono_le (f : List Char) {n m : Nat} (h : n ≤ m) :
    LMonoRel (lcore f n) (lcore f m) := by
  induction m with
  | zero =>
    have : n = 0 := Nat.le_zero.mp h
    subst this
    exact lmono_rfl _
  | succ m ih =>
    rcases Nat.lt_or_ge n (m + 1) with h2 | h2
    · exact lmono_trans (ih (Nat.lt_succ_iff.mp h2)) (lmono f m)
    · have : n = m + 1 := Nat.le_antisymm h h2
      subst this
      exact lmono_rfl _

/-- Two successful `read_next_array_child` runs at any fuels agree. -/
theorem uniq_readNA (f : List Char) {n m : Nat} {nd : LNode} {b : Bool}
    {v w : Bool × LNode} (hn : (lcore f n).readNA nd b = .ok v)
    (hm : (lcore f m).readNA nd b = .ok w) : v = w := by
  rcases Nat.le_total n m with h | h
  · have h2 := (lmono_le f h).mreadNA nd b _ hn (by simp)
    rw [h2] at hm
    exact Except.ok.inj hm
  · have h2 := (lmono_le f h).mreadNA nd b _ hm (by simp)
    rw [h2] at hn
    exact (Except.ok.inj hn).symm

/-- Two successful `read_array_children_up_to` runs at any fuels agree. -/
theorem uniq_readUA (f : List Char) {n m : Nat} {nd : LNode} {a : Option Nat}
    {v w : LNode} (hn : (lcore f n).readUA nd a = .ok v)
    (hm : (lcore f m).readUA nd a = .ok w) : v = w := by
  rcases Nat.le_total n m with h | h
  · have h2 := (lmono_le f h).mreadUA nd a _ hn (by simp)
    rw [h2] at hm
    exact Except.ok.inj hm
  · have h2 := (lmono_le f h).mreadUA nd a _ hm (by simp)
    rw [h2] at hn
    exact (Except.ok.inj hn).symm

/-- Two successful `read_next_object_child` runs at any fuels agree. -/
theorem uniq_readNO (f : List Char) {n m : Nat} {nd : LNode} {b : Bool}
    {v w : Bool × LNode} (hn : (lcore f n).readNO nd b = .ok v)
    (hm : (lcore f m).readNO nd b = .ok w) : v = w := by
  rcases Nat.le_total n m with h | h
  · have h2 := (lmono_le f h).mreadNO nd b _ hn (by simp)
    rw [h2] at hm
    exact Except.ok.inj hm
  · have h2 := (lmono_le f h).mreadNO nd b _ hm (by simp)
    rw [h2] at hn
    exact (Except.ok.inj hn).symm

/-- Two successful `read_object_children_up_to` runs at any fuels agree. -/
theorem uniq_readUO (f : List Char) {n m : Nat} {nd : LNode} {k : Option String}
    {v w : LNode} (hn : (lcore f n).readUO nd k = .ok v)
    (hm : (lcore f m).readUO nd k = .ok w) : v = w := by
  rcases Nat.le_total n m with h | h
  · have h2 := (lmono_le f h).mreadUO nd k _ hn (by simp)
    rw [h2] at hm
    exact Except.ok.inj hm
  · have h2 := (lmono_le f h).mreadUO nd k _ hm (by simp)
    rw [h2] at hn
    exact (Except.ok.inj hn).symm

/-- When `seek_next_child` succeeds with `expecting_next = True`, the flag did
not matter: the same run with `expecting_next = False` gives the same
result. -/
theorem seekNC_tf (f : List Char) :
    ∀ (n : Nat) (nd : LNode) (v : Bool × Nat × LNode),
      (lcore f n).seekNC nd true = .ok v → (lcore f n).seekNC nd false = .ok v := by
  intro n nd v h
  cases n with
  | zero => exact absurd h (by simp [lcore, lBot])
  | succ n =>
    simp only [lcore_succ, lStep] at h ⊢
    by_cases hemp : (match nd.ty with | .arr => nd.ach.isEmpty | _ => nd.och.isEmpty)
    · rw [if_pos hemp] at h; rw [if_pos hemp]; exact h
    · rw [if_neg hemp] at h
      rw [if_neg hemp]
      cases hch : (match nd.ty with
          | .arr => nd.ach.getLast?
          | _ => nd.lastKey.bind (dictGet nd.och)) with
      | none =>
        rw [hch] at h
        exact absurd h (by simp)
      | some child =>
        rw [hch] at h
        try dsimp only at h ⊢
        cases h1 : (lcore f n).endPos child with
        | error e =>
          rw [h1] at h
          try simp only [ebind_err] at h
          exact absurd h (by simp)
        | ok e =>
          rw [h1] at h
          try simp only [ebind_ok] at h ⊢
          cases hsk : skipCommaL f e.1 with
          | mk found cur =>
            rw [hsk] at h
            cases found with
            | true => exact h
            | false => simp at h

/-- When `read_next_array_child` succeeds with `expecting_next = True`, it
produced a child, and the same run with `expecting_next = False` gives the
same result. -/
theorem readNA_tf (f : List Char) :
    ∀ (n : Nat) (nd : LNode) (p : Bool) (nd2 : LNode),
      (lcore f n).readNA nd true = .ok (p, nd2) →
      p = true ∧ (lcore f n).readNA nd false = .ok (true, nd2) := by
  intro n nd p nd2 h
  cases n with
  | zero => exact absurd h (by simp [lcore, lBot])
  | succ n =>
    simp only [lcore_succ, lStep] at h ⊢
    by_cases hsz : nd.size.isSome = true
    · rw [if_pos hsz] at h
      simp at h
    · rw [if_neg hsz] at h
      rw [if_neg hsz]
      cases h1 : (lcore f n).seekNC nd true with
      | error e =>
        rw [h1] at h
        simp at h
      | ok v =>
        rw [h1] at h
        rw [seekNC_tf f n nd v h1]
        try simp only [ebind_ok] at h ⊢
        by_cases hm : v.1 ∧ ¬ (f.drop v.2.1).head? = some ']'
        · rw [if_pos hm] at h; simp at h
        · rw [if_neg hm] at h
          rw [if_neg hm]
          by_cases hbr : (f.drop v.2.1).head? = some ']'
          · rw [if_pos hbr] at h
            simp at h
          · rw [if_neg hbr] at h
            rw [if_neg hbr]
            cases h2 : lazyNew f v.2.1 with
            | error e =>
              rw [h2] at h
              simp only [ebind_err] at h
              exact absurd h (by simp)
            | ok child =>
              rw [h2] at h
              try simp only [ebind_ok] at h ⊢
              obtain ⟨hp, hnd⟩ := Prod.mk.injEq .. ▸ Except.ok.inj h
              exact ⟨hp.symm, by rw [← hnd]⟩

/-- When `read_next_object_child` succeeds with `expecting_next = True`, it
produced a child, and the same run with `expecting_next = False` gives the
same result. -/
theorem readNO_tf (f : List Char) :
    ∀ (n : Nat) (nd : LNode) (p : Bool) (nd2 : LNode),
      (lcore f n).readNO nd true = .ok (p, nd2) →
      p = true ∧ (lcore f n).readNO nd false = .ok (true, nd2) := by
  intro n nd p nd2 h
  cases n with
  | zero => exact absurd h (by simp [lcore, lBot])
  | succ n =>
    simp only [lcore_succ, lStep] at h ⊢
    by_cases hsz : nd.size.isSome = true
    · rw [if_pos hsz] at h
      simp at h
    · rw [if_neg hsz] at h
      rw [if_neg hsz]
      cases h1 : (lcore f n).seekNC nd true with
      | error e =>
        rw [h1] at h
        simp at h
      | ok v =>
        rw [h1] at h
        rw [seekNC_tf f n nd v h1]
        try simp only [ebind_ok] at h ⊢
        by_cases hbr : (f.drop v.2.1).head? = some '\x7d'
        · rw [if_pos hbr] at h
          simp at h
        · rw [if_neg hbr] at h
          rw [if_neg hbr]
          cases h2 : lazyNew f v.2.1 with
          | error e =>
            rw [h2] at h
            simp only [ebind_err] at h
            exact absurd h (by simp)
          | ok key =>
            rw [h2] at h
            try simp only [ebind_ok] at h ⊢
            by_cases hkt : key.ty ≠ NType.str
            · rw [if_pos hkt] at h; simp at h
            · rw [if_neg hkt] at h
              rw [if_neg hkt]
              cases h3 : (lcore f n).endPos key with
              | error e =>
                rw [h3] at h
                simp only [ebind_err] at h
                exact absurd h (by simp)
              | ok ke =>
                rw [h3] at h
                try simp only [ebind_ok] at h ⊢
                cases h4 : parseStringL f key.pos with
                | error e =>
                  rw [h4] at h
                  simp only [ebind_err] at h
                  exact absurd h (by simp)
                | ok kv =>
                  rw [h4] at h
                  try simp only [ebind_ok] at h ⊢
                  cases h5 : skipColonL f ke.1 with
                  | mk found cur2 =>
                    rw [h5] at h
                    cases found with
                    | false => simp at h
                    | true =>
                      try dsimp only at h ⊢
                      cases h6 : lazyNew f cur2 with
                      | error e =>
                        rw [h6] at h
                        simp only [ebind_err] at h
                        exact absurd h (by simp)
                      | ok child =>
                        rw [h6] at h
                        try simp only [ebind_ok] at h ⊢
                        obtain ⟨hp, hnd⟩ := Prod.mk.injEq .. ▸ Except.ok.inj h
                        exact ⟨hp.symm, by rw [← hnd]⟩

/-- A successful `seek_next_child` preserves the node's type. -/
theorem seekNC_ty (f : List Char) :
    ∀ (n : Nat) (nd : LNode) (b : Bool) (v : Bool × Nat × LNode),
      (lcore f n).seekNC nd b = .ok v → v.2.2.ty = nd.ty := by
  intro n nd b v h
  cases n with
  | zero => exact absurd h (by simp [lcore, lBot])
  | succ n =>
    simp only [lcore_succ, lStep] at h
    by_cases hemp : (match nd.ty with | .arr => nd.ach.isEmpty | _ => nd.och.isEmpty)
    · rw [if_pos hemp] at h
      obtain h2 := Except.ok.inj h
      rw [← h2]
    · rw [if_neg hemp] at h
      cases hch : (match nd.ty with
          | .arr => nd.ach.getLast?
          | _ => nd.lastKey.bind (dictGet nd.och)) with
      | none => rw [hch] at h; exact absurd h (by simp)
      | some child =>
        rw [hch] at h
        try dsimp only at h
        cases h1 : (lcore f n).endPos child with
        | error e => rw [h1] at h; simp at h
        | ok e =>
          rw [h1] at h
          try simp only [ebind_ok] at h
          cases hsk : skipCommaL f e.1 with
          | mk found cur =>
            rw [hsk] at h
            cases found with
            | true =>
              obtain h2 := Except.ok.inj h
              rw [← h2]
              cases hty : nd.ty <;> simp [hty]
            | false =>
              cases b with
              | true => simp at h
              | false =>
                try dsimp only at h
                obtain h2 := Except.ok.inj h
                rw [← h2]
                cases hty : nd.ty <;> simp [hty]

/-- A successful `read_next_array_child` preserves the node's type, and when
it reports no child produced the node has become Sized. -/
theorem readNA_post (f : List Char) :
    ∀ (n : Nat) (nd : LNode) (b p : Bool) (nd2 : LNode),
      (lcore f n).readNA nd b = .ok (p, nd2) →
      nd2.ty = nd.ty ∧ (p = false → nd2.size.isSome = true) := by
  intro n nd b p nd2 h
  cases n with
  | zero => exact absurd h (by simp [lcore, lBot])
  | succ n =>
    simp only [lcore_succ, lStep] at h
    by_cases hsz : nd.size.isSome = true
    · rw [if_pos hsz] at h
      cases b with
      | true => simp at h
      | false =>
        try dsimp only at h
        obtain h2 := Except.ok.inj h
        obtain ⟨hp, hnd⟩ := Prod.mk.injEq .. ▸ h2
        subst hnd
        exact ⟨rfl, fun _ => hsz⟩
    · rw [if_neg hsz] at h
      cases h1 : (lcore f n).seekNC nd b with
      | error e => rw [h1] at h; simp at h
      | ok v =>
        rw [h1] at h
        try simp only [ebind_ok] at h
        have hvt := seekNC_ty f n nd b v h1
        by_cases hm : v.1 ∧ ¬ (f.drop v.2.1).head? = some ']'
        · rw [if_pos hm] at h; simp at h
        · rw [if_neg hm] at h
          by_cases hbr : (f.drop v.2.1).head? = some ']'
          · rw [if_pos hbr] at h
            cases b with
            | true => simp at h
            | false =>
              try dsimp only at h
              obtain h2 := Except.ok.inj h
              obtain ⟨hp, hnd⟩ := Prod.mk.injEq .. ▸ h2
              subst hnd
              simp [hvt]
          · rw [if_neg hbr] at h
            cases h2 : lazyNew f v.2.1 with
            | error e => rw [h2] at h; simp at h
            | ok child =>
              rw [h2] at h
              try simp only [ebind_ok] at h
              obtain h3 := Except.ok.inj h
              obtain ⟨hp, hnd⟩ := Prod.mk.injEq .. ▸ h3
              subst hnd
              subst hp
              simp [hvt]

/-- A successful `read_next_object_child` preserves the node's type, and when
it reports no child produced the node has become Sized. -/
theorem readNO_post (f : List Char) :
    ∀ (n : Nat) (nd : LNode) (b p : Bool) (nd2 : LNode),
      (lcore f n).readNO nd b = .ok (p, nd2) →
      nd2.ty = nd.ty ∧ (p = false → nd2.size.isSome = true) := by
  intro n nd b p nd2 h
  cases n with
  | zero => exact absurd h (by simp [lcore, lBot])
  | succ n =>
    simp only [lcore_succ, lStep] at h
    by_cases hsz : nd.size.isSome = true
    · rw [if_pos hsz] at h
      cases b with
      | true => simp at h
      | false =>
        try dsimp only at h
        obtain h2 := Except.ok.inj h
        obtain ⟨hp, hnd⟩ := Prod.mk.injEq .. ▸ h2
        subst hnd
        exact ⟨rfl, fun _ => hsz⟩
    · rw [if_neg hsz] at h
      cases h1 : (lcore f n).seekNC nd b with
      | error e => rw [h1] at h; simp at h
      | ok v =>
        rw [h1] at h
        try simp only [ebind_ok] at h
        have hvt := seekNC_ty f n nd b v h1
        by_cases hbr : (f.drop v.2.1).head? = some '\x7d'
        · rw [if_pos hbr] at h
          cases b with
          | true => simp at h
          | false =>
            try dsimp only at h
            obtain h2 := Except.ok.inj h
            obtain ⟨hp, hnd⟩ := Prod.mk.injEq .. ▸ h2
            subst hnd
            simp [hvt]
        · rw [if_neg hbr] at h
          cases h2 : lazyNew f v.2.1 with
          | error e => rw [h2] at h; simp at h
          | ok key =>
            rw [h2] at h
            try simp only [ebind_ok] at h
            by_cases hkt : key.ty ≠ NType.str
            · rw [if_pos hkt] at h; simp at h
            · rw [if_neg hkt] at h
              cases h3 : (lcore f n).endPos key with
              | error e => rw [h3] at h; simp at h
              | ok ke =>
                rw [h3] at h
                try simp only [ebind_ok] at h
                cases h4 : parseStringL f key.pos with
                | error e => rw [h4] at h; simp at h
                | ok kv =>
                  rw [h4] at h
                  try simp only [ebind_ok] at h
                  cases h5 : skipColonL f ke.1 with
                  | mk found cur2 =>
                    rw [h5] at h
                    cases found with
                    | false => simp at h
                    | true =>
                      try dsimp only at h
                      cases h6 : lazyNew f cur2 with
                      | error e => rw [h6] at h; simp at h
                      | ok child =>
                        rw [h6] at h
                        try simp only [ebind_ok] at h
                        obtain h7 := Except.ok.inj h
                        obtain ⟨hp, hnd⟩ := Prod.mk.injEq .. ▸ h7
                        subst hnd
                        subst hp
                        simp [hvt]

/-- A successful full array discovery leaves the node Sized, with its type
preserved. -/
theorem readUA_none_post (f : List Char) :
    ∀ (n : Nat) (nd nd2 : LNode),
      (lcore f n).readUA nd Option.none = .ok nd2 →
      nd2.ty = nd.ty ∧ nd2.size.isSome = true := by
  intro n
  induction n with
  | zero => intro nd nd2 h; exact absurd h (by simp [lcore, lBot])
  | succ n ih =>
    intro nd nd2 h
    simp only [lcore_succ, lStep] at h
    cases h1 : (lcore f n).readNA nd false with
    | error e => rw [h1] at h; simp at h
    | ok v =>
      rw [h1] at h
      try simp only [ebind_ok] at h
      obtain ⟨hvt, hvs⟩ := readNA_post f n nd false v.1 v.2 (by rw [h1])
      by_cases hp : v.1 = true
      · rw [if_pos hp] at h
        obtain ⟨ht2, hs2⟩ := ih v.2 nd2 h
        exact ⟨ht2.trans hvt, hs2⟩
      · rw [if_neg hp] at h
        obtain h2 := Except.ok.inj h
        subst h2
        exact ⟨hvt, hvs (Bool.not_eq_true _ ▸ hp)⟩

/-- A successful full object discovery leaves the node Sized, with its type
preserved. -/
theorem readUO_none_post (f : List Char) :
    ∀ (n : Nat) (nd nd2 : LNode),
      (lcore f n).readUO nd Option.none = .ok nd2 →
      nd2.ty = nd.ty ∧ nd2.size.isSome = true := by
  intro n
  induction n with
  | zero => intro nd nd2 h; exact absurd h (by simp [lcore, lBot])
  | succ n ih =>
    intro nd nd2 h
    simp only [lcore_succ, lStep] at h
    cases h1 : (lcore f n).readNO nd false with
    | error e => rw [h1] at h; simp at h
    | ok v =>
      rw [h1] at h
      try simp only [ebind_ok] at h
      obtain ⟨hvt, hvs⟩ := readNO_post f n nd false v.1 v.2 (by rw [h1])
      by_cases hp : v.1 = true
      · rw [if_pos hp] at h
        obtain ⟨ht2, hs2⟩ := ih v.2 nd2 h
        exact ⟨ht2.trans hvt, hs2⟩
      · rw [if_neg hp] at h
        obtain h2 := Except.ok.inj h
        subst h2
        exact ⟨hvt, hvs (Bool.not_eq_true _ ▸ hp)⟩

/-- On a Sized node the full-discovery loop returns immediately, for any file
and any fuel of at least 2: no scanning happens. -/
theorem readUA_sized (f : List Char) (G : Nat) (nd : LNode)
    (hsz : nd.size.isSome = true) :
    (lcore f (G + 2)).readUA nd Option.none = .ok nd := by
  show (lStep f (lStep f (lcore f G))).readUA nd Option.none = .ok nd
  simp [lStep, hsz]

/-- Object version of `readUA_sized`. -/
theorem readUO_sized (f : List Char) (G : Nat) (nd : LNode)
    (hsz : nd.size.isSome = true) :
    (lcore f (G + 2)).readUO nd Option.none = .ok nd := by
  show (lStep f (lStep f (lcore f G))).readUO nd Option.none = .ok nd
  simp [lStep, hsz]

/-- On a Sized node a successful `read_next_array_child` with
`expecting_next = False` returns the node unchanged and reports no child. -/
theorem readNA_sized_val (f : List Char) {n : Nat} {nd : LNode} {w : Bool × LNode}
    (hsz : nd.size.isSome = true)
    (h : (lcore f n).readNA nd false = .ok w) : w = (false, nd) := by
  cases n with
  | zero => exact absurd h (by simp [lcore, lBot])
  | succ n =>
    simp only [lcore_succ, lStep, if_pos hsz] at h
    exact (Except.ok.inj h).symm

/-- Object version of `readNA_sized_val`. -/
theorem readNO_sized_val (f : List Char) {n : Nat} {nd : LNode} {w : Bool × LNode}
    (hsz : nd.size.isSome = true)
    (h : (lcore f n).readNO nd false = .ok w) : w = (false, nd) := by
  cases n with
  | zero => exact absurd h (by simp [lcore, lBot])
  | succ n =>
    simp only [lcore_succ, lStep, if_pos hsz] at h
    exact (Except.ok.inj h).symm

/-- Discovery determinism for arrays: a partial discovery (any
`read_array_children_up_to` call) is a prefix of the full discovery, so the
full discovery started from before or after it reaches the same final
state. -/
theorem readUA_chain (f : List Char) :
    ∀ (K : Nat) (nd : LNode) (a : Option Nat) (nd2 : LNode),
      (lcore f K).readUA nd a = .ok nd2 →
      ∀ (H1 : Nat) (x : LNode), (lcore f H1).readUA nd Option.none = .ok x →
      ∀ (H2 : Nat) (y : LNode), (lcore f H2).readUA nd2 Option.none = .ok y →
      x = y := by
  intro K
  induction K with
  | zero => intro nd a nd2 h; exact absurd h (by simp [lcore, lBot])
  | succ K ih =>
    intro nd a nd2 h H1 x hx H2 y hy
    simp only [lcore_succ, lStep] at h
    cases a with
    | some a0 =>
      try dsimp only at h
      by_cases hle : a0 ≤ nd.ach.length
      · rw [if_pos hle] at h
        obtain h2 := Except.ok.inj h
        subst h2
        exact uniq_readUA f hx hy
      · rw [if_neg hle] at h
        cases h1 : (lcore f K).readNA nd true with
        | error e => rw [h1] at h; simp at h
        | ok v =>
          rw [h1] at h
          try simp only [ebind_ok] at h
          obtain ⟨hp, hf⟩ := readNA_tf f K nd v.1 v.2 (by rw [h1])
          cases H1 with
          | zero => exact absurd hx (by simp [lcore, lBot])
          | succ H1a =>
            simp only [lcore_succ, lStep] at hx
            cases hx1 : (lcore f H1a).readNA nd false with
            | error e => rw [hx1] at hx; simp at hx
            | ok w =>
              rw [hx1] at hx
              try simp only [ebind_ok] at hx
              have hw : w = (true, v.2) := uniq_readNA f (by rw [hx1]) hf
              rw [hw] at hx
              simp only [if_pos rfl] at hx
              by_cases heq : v.2.ach.length = a0
              · rw [if_pos heq] at h
                obtain h2 := Except.ok.inj h
                subst h2
                exact uniq_readUA f hx hy
              · rw [if_neg heq] at h
                exact ih v.2 (some a0) nd2 h H1a x hx H2 y hy
    | none =>
      try dsimp only at h
      cases h1 : (lcore f K).readNA nd false with
      | error e => rw [h1] at h; simp at h
      | ok v =>
        rw [h1] at h
        try simp only [ebind_ok] at h
        cases H1 with
        | zero => exact absurd hx (by simp [lcore, lBot])
        | succ H1a =>
          simp only [lcore_succ, lStep] at hx
          cases hx1 : (lcore f H1a).readNA nd false with
          | error e => rw [hx1] at hx; simp at hx
          | ok w =>
            rw [hx1] at hx
            try simp only [ebind_ok] at hx
            have hw : w = v := uniq_readNA f (by rw [hx1]) (by rw [h1])
            rw [hw] at hx
            by_cases hp : v.1 = true
            · rw [if_pos hp] at h
              rw [if_pos hp] at hx
              exact ih v.2 Option.none nd2 h H1a x hx H2 y hy
            · rw [if_neg hp] at h
              rw [if_neg hp] at hx
              obtain h2 := Except.ok.inj h
              subst h2
              obtain hx2 := Except.ok.inj hx
              subst hx2
              have hsz := (readNA_post f K nd false v.1 v.2 (by rw [h1])).2
                (Bool.not_eq_true _ ▸ hp)
              cases H2 with
              | zero => exact absurd hy (by simp [lcore, lBot])
              | succ H2a =>
                simp only [lcore_succ, lStep] at hy
                cases hy1 : (lcore f H2a).readNA v.2 false with
                | error e => rw [hy1] at hy; simp at hy
                | ok w2 =>
                  rw [hy1] at hy
                  try simp only [ebind_ok] at hy
                  have hw2 : w2 = (false, v.2) := readNA_sized_val f hsz (by rw [hy1])
                  rw [hw2] at hy
                  simp only [Bool.false_eq_true, if_false] at hy
                  exact Except.ok.inj hy

/-- Discovery determinism for objects: a partial discovery (any
`read_object_children_up_to` call) is a prefix of the full discovery. -/
theorem readUO_chain (f : List Char) :
    ∀ (K : Nat) (nd : LNode) (k : Option String) (nd2 : LNode),
      (lcore f K).readUO nd k = .ok nd2 →
      ∀ (H1 : Nat) (x : LNode), (lcore f H1).readUO nd Option.none = .ok x →
      ∀ (H2 : Nat) (y : LNode), (lcore f H2).readUO nd2 Option.none = .ok y →
      x = y := by
  intro K
  induction K with
  | zero => intro nd k nd2 h; exact absurd h (by simp [lcore, lBot])
  | succ K ih =>
    intro nd k nd2 h H1 x hx H2 y hy
    simp only [lcore_succ, lStep] at h
    cases k with
    | some k0 =>
      try dsimp only at h
      by_cases hin : (dictGet nd.och k0).isSome = true
      · rw [if_pos hin] at h
        obtain h2 := Except.ok.inj h
        subst h2
        exact uniq_readUO f hx hy
      · rw [if_neg hin] at h
        cases h1 : (lcore f K).readNO nd true with
        | error e => rw [h1] at h; simp at h
        | ok v =>
          rw [h1] at h
          try simp only [ebind_ok] at h
          obtain ⟨hp, hf⟩ := readNO_tf f K nd v.1 v.2 (by rw [h1])
          cases H1 with
          | zero => exact absurd hx (by simp [lcore, lBot])
          | succ H1a =>
            simp only [lcore_succ, lStep] at hx
            cases hx1 : (lcore f H1a).readNO nd false with
            | error e => rw [hx1] at hx; simp at hx
            | ok w =>
              rw [hx1] at hx
              try simp only [ebind_ok] at hx
              have hw : w = (true, v.2) := uniq_readNO f (by rw [hx1]) hf
              rw [hw] at hx
              simp only [if_pos rfl] at hx
              by_cases hfd : (dictGet v.2.och k0).isSome = true
              · rw [if_pos hfd] at h
                obtain h2 := Except.ok.inj h
                subst h2
                exact uniq_readUO f hx hy
              · rw [if_neg hfd] at h
                exact ih v.2 (some k0) nd2 h H1a x hx H2 y hy
    | none =>
      try dsimp only at h
      cases h1 : (lcore f K).readNO nd false with
      | error e => rw [h1] at h; simp at h
      | ok v =>
        rw [h1] at h
        try simp only [ebind_ok] at h
        cases H1 with
        | zero => exact absurd hx (by simp [lcore, lBot])
        | succ H1a =>
          simp only [lcore_succ, lStep] at hx
          cases hx1 : (lcore f H1a).readNO nd false with
          | error e => rw [hx1] at hx; simp at hx
          | ok w =>
            rw [hx1] at hx
            try simp only [ebind_ok] at hx
            have hw : w = v := uniq_readNO f (by rw [hx1]) (by rw [h1])
            rw [hw] at hx
            by_cases hp : v.1 = true
            · rw [if_pos hp] at h
              rw [if_pos hp] at hx
              exact ih v.2 Option.none nd2 h H1a x hx H2 y hy
            · rw [if_neg hp] at h
              rw [if_neg hp] at hx
              obtain h2 := Except.ok.inj h
              subst h2
              obtain hx2 := Except.ok.inj hx
              subst hx2
              have hsz := (readNO_post f K nd false v.1 v.2 (by rw [h1])).2
                (Bool.not_eq_true _ ▸ hp)
              cases H2 with
              | zero => exact absurd hy (by simp [lcore, lBot])
              | succ H2a =>
                simp only [lcore_succ, lStep] at hy
                cases hy1 : (lcore f H2a).readNO v.2 false with
                | error e => rw [hy1] at hy; simp at hy
                | ok w2 =>
                  rw [hy1] at hy
                  try simp only [ebind_ok] at hy
                  have hw2 : w2 = (false, v.2) := readNO_sized_val f hsz (by rw [hy1])
                  rw [hw2] at hy
                  simp only [Bool.false_eq_true, if_false] at hy
                  exact Except.ok.inj hy

/-- Any successful `read_array_children_up_to` preserves the node's type. -/
theorem readUA_ty (f : List Char) :
    ∀ (n : Nat) (nd : LNode) (a : Option Nat) (nd2 : LNode),
      (lcore f n).readUA nd a = .ok nd2 → nd2.ty = nd.ty := by
  intro n
  induction n with
  | zero => intro nd a nd2 h; exact absurd h (by simp [lcore, lBot])
  | succ n ih =>
    intro nd a nd2 h
    simp only [lcore_succ, lStep] at h
    cases a with
    | some a0 =>
      try dsimp only at h
      by_cases hle : a0 ≤ nd.ach.length
      · rw [if_pos hle] at h
        rw [Except.ok.inj h]
      · rw [if_neg hle] at h
        cases h1 : (lcore f n).readNA nd true with
        | error e => rw [h1] at h; simp at h
        | ok v =>
          rw [h1] at h
          try simp only [ebind_ok] at h
          have hvt := (readNA_post f n nd true v.1 v.2 (by rw [h1])).1
          by_cases heq : v.2.ach.length = a0
          · rw [if_pos heq] at h
            rw [← Except.ok.inj h]
            exact hvt
          · rw [if_neg heq] at h
            exact (ih v.2 (some a0) nd2 h).trans hvt
    | none =>
      try dsimp only at h
      cases h1 : (lcore f n).readNA nd false with
      | error e => rw [h1] at h; simp at h
      | ok v =>
        rw [h1] at h
        try simp only [ebind_ok] at h
        have hvt := (readNA_post f n nd false v.1 v.2 (by rw [h1])).1
        by_cases hp : v.1 = true
        · rw [if_pos hp] at h
          exact (ih v.2 Option.none nd2 h).trans hvt
        · rw [if_neg hp] at h
          rw [← Except.ok.inj h]
          exact hvt

/-- Any successful `read_object_children_up_to` preserves the node's type. -/
theorem readUO_ty (f : List Char) :
    ∀ (n : Nat) (nd : LNode) (k : Option String) (nd2 : LNode),
      (lcore f n).readUO nd k = .ok nd2 → nd2.ty = nd.ty := by
  intro n
  induction n with
  | zero => intro nd k nd2 h; exact absurd h (by simp [lcore, lBot])
  | succ n ih =>
    intro nd k nd2 h
    simp only [lcore_succ, lStep] at h
    cases k with
    | some k0 =>
      try dsimp only at h
      by_cases hin : (dictGet nd.och k0).isSome = true
      · rw [if_pos hin] at h
        rw [Except.ok.inj h]
      · rw [if_neg hin] at h
        cases h1 : (lcore f n).readNO nd true with
        | error e => rw [h1] at h; simp at h
        | ok v =>
          rw [h1] at h
          try simp only [ebind_ok] at h
          have hvt := (readNO_post f n nd true v.1 v.2 (by rw [h1])).1
          by_cases hfd : (dictGet v.2.och k0).isSome = true
          · rw [if_pos hfd] at h
            rw [← Except.ok.inj h]
            exact hvt
          · rw [if_neg hfd] at h
            exact (ih v.2 (some k0) nd2 h).trans hvt
    | none =>
      try dsimp only at h
      cases h1 : (lcore f n).readNO nd false with
      | error e => rw [h1] at h; simp at h
      | ok v =>
        rw [h1] at h
        try simp only [ebind_ok] at h
        have hvt := (readNO_post f n nd false v.1 v.2 (by rw [h1])).1
        by_cases hp : v.1 = true
        · rw [if_pos hp] at h
          exact (ih v.2 Option.none nd2 h).trans hvt
        · rw [if_neg hp] at h
          rw [← Except.ok.inj h]
          exact hvt

/-- Inversion of `lazyLen` on an array node. -/
theorem lazyLen_arr_inv {H : Nat} {f : List Char} {nd : LNode} {m : Nat}
    {nd3 : LNode} (hty : nd.ty = .arr) (h : lazyLen H f nd = .ok (m, nd3)) :
    (lcore f H).readUA nd Option.none = .ok nd3 ∧ m = nd3.ach.length := by
  unfold lazyLen at h
  rw [hty] at h
  cases hin : (lcore f H).readUA nd Option.none with
  | error e => rw [hin] at h; simp at h
  | ok nd2 =>
    rw [hin] at h
    simp only [emap_ok, Except.ok.injEq, Prod.mk.injEq] at h
    obtain ⟨hm, hnd⟩ := h
    subst hnd
    exact ⟨rfl, hm.symm⟩

/-- Inversion of `lazyLen` on an object node. -/
theorem lazyLen_obj_inv {H : Nat} {f : List Char} {nd : LNode} {m : Nat}
    {nd3 : LNode} (hty : nd.ty = .obj) (h : lazyLen H f nd = .ok (m, nd3)) :
    (lcore f H).readUO nd Option.none = .ok nd3 ∧ m = nd3.och.length := by
  unfold lazyLen at h
  rw [hty] at h
  cases hin : (lcore f H).readUO nd Option.none with
  | error e => rw [hin] at h; simp at h
  | ok nd2 =>
    rw [hin] at h
    simp only [emap_ok, Except.ok.injEq, Prod.mk.injEq] at h
    obtain ⟨hm, hnd⟩ := h
    subst hnd
    exact ⟨rfl, hm.symm⟩

/-- Inversion of `lazyGetItem`: a successful item access on a container is
backed by a `read_..._children_up_to` call whose final state is the returned
node state. -/
theorem lazyGetItem_arr_inv {K : Nat} {f : List Char} {nd : LNode} {k : Int}
    {c nd2 : LNode} (hty : nd.ty = .arr)
    (h : lazyGetItem K f nd (.kInt k) = .ok (c, nd2)) :
    ∃ a, (lcore f K).readUA nd a = .ok nd2 := by
  unfold lazyGetItem at h
  rw [hty] at h
  try dsimp only at h
  by_cases hk : k < 0
  · rw [if_pos hk] at h
    cases hra : (lcore f K).readUA nd Option.none with
    | error e => rw [hra] at h; simp at h
    | ok ndr =>
      rw [hra] at h
      simp only [ebind_ok] at h
      try dsimp only at h
      simp only [if_pos hk] at h
      refine ⟨Option.none, ?_⟩
      by_cases hcond : 0 ≤ (ndr.ach.length : Int) + k
          ∧ ((ndr.ach.length : Int) + k).toNat < ndr.ach.length
      · rw [dif_pos hcond] at h
        obtain ⟨_, hnd⟩ := Prod.mk.injEq .. ▸ Except.ok.inj h
        rw [← hnd]
        exact hra
      · rw [dif_neg hcond] at h
        simp at h
  · rw [if_neg hk] at h
    cases hra : (lcore f K).readUA nd (some (k.toNat + 1)) with
    | error e => rw [hra] at h; simp at h
    | ok ndr =>
      rw [hra] at h
      simp only [ebind_ok] at h
      try dsimp only at h
      simp only [if_neg hk] at h
      refine ⟨some (k.toNat + 1), ?_⟩
      by_cases hcond : 0 ≤ k ∧ k.toNat < ndr.ach.length
      · rw [dif_pos hcond] at h
        obtain ⟨_, hnd⟩ := Prod.mk.injEq .. ▸ Except.ok.inj h
        rw [← hnd]
        exact hra
      · rw [dif_neg hcond] at h
        simp at h

/-- Object version of `lazyGetItem_arr_inv`. -/
theorem lazyGetItem_obj_inv {K : Nat} {f : List Char} {nd : LNode} {s : String}
    {c nd2 : LNode} (hty : nd.ty = .obj)
    (h : lazyGetItem K f nd (.kStr s) = .ok (c, nd2)) :
    (lcore f K).readUO nd (some s) = .ok nd2 := by
  unfold lazyGetItem at h
  rw [hty] at h
  try dsimp only at h
  cases hra : (lcore f K).readUO nd (some s) with
  | error e => rw [hra] at h; simp at h
  | ok ndr =>
    rw [hra] at h
    simp only [ebind_ok] at h
    cases hg : dictGet ndr.och s with
    | none => rw [hg] at h; simp at h
    | some c2 =>
      rw [hg] at h
      try dsimp only at h
      obtain ⟨_, hnd⟩ := Prod.mk.injEq .. ▸ Except.ok.inj h
      rw [← hnd]
      try exact hra

/-- Claim C3: when `__len__` (lazyjson) succeeds on a container node with
count `n` and post-state `nd1`: (i) the node is now permanently Sized —
repeating `__len__` returns the same `n` and the identical state, for *any*
file contents and any fuel of at least 2, so no scanning of the source can be
involved; (ii) the count is independent of which children were previously
probed individually: a `__len__` run after any successful `__getitem__` probe
returns the same `n`. -/
theorem c3_length_idempotent_sized :
    ∀ (F : Nat) (f : List Char) (nd : LNode) (n : Nat) (nd1 : LNode),
      lazyLen F f nd = .ok (n, nd1) →
      (∀ (G : Nat) (f2 : List Char), lazyLen (G + 2) f2 nd1 = .ok (n, nd1))
      ∧ nd1.size.isSome = true
      ∧ (∀ (K : Nat) (key : PyKey) (c nd2 : LNode) (H : Nat) (m : Nat) (nd3 : LNode),
          lazyGetItem K f nd key = .ok (c, nd2) →
          lazyLen H f nd2 = .ok (m, nd3) → m = n) := by
  intro F f nd n nd1 hp
  have hty0 : nd.ty = .arr ∨ nd.ty = .obj := by
    have hp2 := hp
    unfold lazyLen at hp2
    cases hty : nd.ty <;> rw [hty] at hp2
    · exact Or.inr rfl
    · exact Or.inl rfl
    all_goals exact absurd hp2 (by simp)
  cases hty0 with
  | inl hty =>
    obtain ⟨hin, hn⟩ := lazyLen_arr_inv hty hp
    obtain ⟨hty1, hsz1⟩ := readUA_none_post f F nd nd1 hin
    refine ⟨?_, hsz1, ?_⟩
    · intro G f2
      unfold lazyLen
      rw [hty1.trans hty, readUA_sized f2 G nd1 hsz1]
      simp [hn]
    · intro K key c nd2 H m nd3 hpk hlen2
      cases key with
      | kStr s =>
        unfold lazyGetItem at hpk
        rw [hty] at hpk
        simp at hpk
      | kNone =>
        unfold lazyGetItem at hpk
        rw [hty] at hpk
        simp at hpk
      | kInt k =>
        obtain ⟨a, hprobe⟩ := lazyGetItem_arr_inv hty hpk
        have hty2 : nd2.ty = .arr := (readUA_ty f K nd a nd2 hprobe).trans hty
        obtain ⟨hin2, hm⟩ := lazyLen_arr_inv hty2 hlen2
        have := readUA_chain f K nd a nd2 hprobe F nd1 hin H nd3 hin2
        rw [hn, hm, this]
  | inr hty =>
    obtain ⟨hin, hn⟩ := lazyLen_obj_inv hty hp
    obtain ⟨hty1, hsz1⟩ := readUO_none_post f F nd nd1 hin
    refine ⟨?_, hsz1, ?_⟩
    · intro G f2
      unfold lazyLen
      rw [hty1.trans hty, readUO_sized f2 G nd1 hsz1]
      simp [hn]
    · intro K key c nd2 H m nd3 hpk hlen2
      cases key with
      | kInt k =>
        unfold lazyGetItem at hpk
        rw [hty] at hpk
        simp at hpk
      | kNone =>
        unfold lazyGetItem at hpk
        rw [hty] at hpk
        simp at hpk
      | kStr s =>
        have hprobe := lazyGetItem_obj_inv hty hpk
        have hty2 : nd2.ty = .obj := (readUO_ty f K nd (some s) nd2 hprobe).trans hty
        obtain ⟨hin2, hm⟩ := lazyLen_obj_inv hty2 hlen2
        have := readUO_chain f K nd (some s) nd2 hprobe F nd1 hin H nd3 hin2
        rw [hn, hm, this]

def c3doc : List Char := "[1, 2]".data
def c3fresh : LNode := .mk 0 .arr [] [] Option.none Option.none Option.none
def c3post : LNode :=
  .mk 0 .arr [.mk 1 .num [] [] Option.none Option.none Option.none,
              .mk 4 .num [] [] Option.none Option.none Option.none] []
    Option.none (some 2) (some 6)
def c3probe : LNode :=
  .mk 0 .arr [.mk 1 .num [] [] Option.none Option.none Option.none] []
    Option.none Option.none Option.none

/-- Witness for C3 on `[1, 2]`: the first length call yields 2 and the Sized
state; repeating it over a bogus file with tiny fuel still yields 2 and the
identical state; probing index 0 first does not change the count. -/
theorem c3_witness :
    lazyLen 20 c3doc c3fresh = .ok (2, c3post)
    ∧ lazyLen (5 + 2) ("XX").data c3post = .ok (2, c3post)
    ∧ c3post.size.isSome = true
    ∧ lazyGetItem 20 c3doc c3fresh (.kInt 0)
        = .ok (.mk 1 .num [] [] Option.none Option.none Option.none, c3probe)
    ∧ (2 : Nat) = 2 := by
  have hp : lazyLen 20 c3doc c3fresh = .ok (2, c3post) := by rfl
  have h := c3_length_idempotent_sized 20 c3doc c3fresh 2 c3post hp
  refine ⟨hp, h.1 5 ("XX").data, h.2.1, by rfl, ?_⟩
  exact h.2.2 20 (.kInt 0) (.mk 1 .num [] [] Option.none Option.none Option.none)
    c3probe 20 2 c3post (by rfl) (by rfl)



/-- The document of the partial-discovery example: a well-formed opening
`\x7b"a": [], ` followed by an arbitrary trailing region `junk`. -/
def c2doc (junk : List Char) : List Char :=
  '\x7b' :: '"' :: 'a' :: '"' :: ':' :: ' ' :: '[' :: ']' :: ',' :: ' ' :: junk

/-- A character that, at the start of the trailing region of `c2doc`, is
consumed by no scanner: not insignificant, not an object close, and not the
start of any JSON value. -/
def c2bad (c : Char) : Prop :=
  c ∉ wsChars ∧ c ≠ '/' ∧ c ≠ '\x7d' ∧ c ≠ '\x7b' ∧ c ≠ '[' ∧ c ≠ '"' ∧
    c ≠ 't' ∧ c ≠ 'f' ∧ c ≠ 'n' ∧
    c ∉ ['0', '1', '2', '3', '4', '5', '6', '7', '8', '9', '-']

theorem skipAuxS_bad (c : Char) (rest : List Char) (h : c2bad c) :
    skipAuxS (c :: rest) false = 0 := by
  obtain ⟨h1, h2, _⟩ := h
  unfold skipAuxS
  simp [h1, h2]

theorem nodeTypeOfBuf_bad (c : Char) (l : List Char) (h : c2bad c) :
    nodeTypeOfBuf (c :: l) = .error .malformedInput := by
  obtain ⟨h1, h2, h3, h4, h5, h6, h7, h8, h9, h10⟩ := h
  simp [nodeTypeOfBuf, List.isPrefixOf, Ne.symm h4, Ne.symm h5, Ne.symm h6,
    Ne.symm h7, Ne.symm h8, Ne.symm h9, h10]

theorem mkSNodeS_bad (c : Char) (rest : List Char) (h : c2bad c) :
    mkSNodeS (c2doc (c :: rest)) 10 = .error .malformedInput := by
  have hd : (c2doc (c :: rest)).drop 10 = c :: rest := rfl
  unfold mkSNodeS skipToStartS
  rw [hd, skipAuxS_bad c rest h]
  norm_num
  rw [hd, show (c :: rest).take 5 = c :: rest.take 4 from rfl,
    nodeTypeOfBuf_bad c (rest.take 4) h]
  rfl

theorem seekNO_bad (c : Char) (rest : List Char) (h : c2bad c) :
    seekNextObjectChildS (c2doc (c :: rest)) 10 = .error .malformedInput := by
  have hh : ((c2doc (c :: rest)).drop 10).head? = some c := rfl
  unfold seekNextObjectChildS
  rw [hh]
  split
  · next heq => exact absurd heq (by simp)
  · next heq =>
      exact absurd (Option.some.inj heq) h.2.2.1
  · next x heq =>
      rw [mkSNodeS_bad c rest h, ebind_err]


/-- Unfolding of `objStep` at a seek state: one level of fuel is consumed and
the generator either ends at `'\x7d'`, errors, or yields the child built at
the value position. -/
theorem objStep_atPos (f : List Char) (n p : Nat) :
    (score f (n + 1)).objStep (.oAtPos p)
      = match seekNextObjectChildS f p with
        | Except.error e => Except.error e
        | Except.ok Option.none => Except.ok (ObjStep.doneO (p + 1))
        | Except.ok (some (k, vpos)) =>
            (mkSNodeS f vpos).map fun c => ObjStep.yieldO k c (.oAfter c) := rfl

/-- Unfolding of `objStep` at a resume state: the child's end is computed and
the comma is consumed before seeking the next child. -/
theorem objStep_after (f : List Char) (n : Nat) (c : SNode) :
    (score f (n + 1)).objStep (.oAfter c)
      = (score f n).endPos c >>= fun eo =>
          match eo with
          | Option.none => Except.error Err.typeErr
          | some e => (score f n).objStep (.oAtPos (skipCommaS f e).2) := rfl

/-- Unfolding of `objFind`: pull one child and compare keys. -/
theorem objFind_succ (f : List Char) (n : Nat) (g : ObjG) (key : String) :
    (score f (n + 1)).objFind g key
      = (score f n).objStep g >>= fun step =>
          match step with
          | ObjStep.doneO _ => Except.error Err.keyNotFound
          | ObjStep.yieldO k c g2 =>
              if k = key then Except.ok c else (score f n).objFind g2 key := rfl

/-- Unfolding of `objList`: pull one child and recurse. -/
theorem objList_succ (f : List Char) (n : Nat) (g : ObjG) :
    (score f (n + 1)).objList g
      = (score f n).objStep g >>= fun step =>
          match step with
          | ObjStep.doneO e => Except.ok ([], e)
          | ObjStep.yieldO k c g2 =>
              ((score f n).objList g2).map fun r => ((k, c) :: r.1, r.2) := rfl

/-- An erroring `objStep` makes `objFind` error identically. -/
theorem objFind_err (f : List Char) (n : Nat) (g : ObjG) (key : String) (e : Err)
    (h : (score f n).objStep g = .error e) :
    (score f (n + 1)).objFind g key = .error e := by
  rw [objFind_succ, h, ebind_err]

/-- An erroring `objStep` makes `objList` error identically. -/
theorem objList_err (f : List Char) (n : Nat) (g : ObjG) (e : Err)
    (h : (score f n).objStep g = .error e) :
    (score f (n + 1)).objList g = .error e := by
  rw [objList_succ, h, ebind_err]


/-- Unfolding of `value` at an object node. -/
theorem value_obj (f : List Char) (n p : Nat) :
    (score f (n + 1)).value ⟨p, .obj⟩
      = (score f n).objList (.oAtPos (p + 1)) >>= fun r =>
          sValuePairs (score f n).value r.1 [] >>= fun ps =>
            Except.ok (PyVal.dict ps) := rfl

/-- An erroring child enumeration makes `value` on an object error
identically. -/
theorem value_obj_err (f : List Char) (n p : Nat) (e : Err)
    (h : (score f n).objList (.oAtPos (p + 1)) = .error e) :
    (score f (n + 1)).value ⟨p, .obj⟩ = .error e := by
  rw [value_obj, h, ebind_err]

/-- Skipping insignificant text steps over a whitespace character. -/
theorem skipAuxS_cons_ws (c : Char) (l : List Char) (hc : c ∈ wsChars) :
    skipAuxS (c :: l) false = 1 + skipAuxS l false := by
  conv_lhs => rw [skipAuxS.eq_def]
  simp [hc]

set_option maxHeartbeats 2000000 in
/-- C2: lazy partial-discovery tolerance (sleepyjson).  On the document
`\x7b"a": [], junk` — well-formed before position 10 and arbitrary after — the
object node resolves, `get("a")` succeeds and yields an empty array node
(length 0), regardless of the trailing region.  When the trailing region is
empty or starts with a character that begins no JSON value (e.g. `INVALID`),
`get("b")` fails and `value()` on the same object node fails, because those
traversals reach the malformed region. -/
theorem c2_partial_discovery (junk : List Char) :
    mkSNodeS (c2doc junk) 0 = .ok ⟨0, .obj⟩
    ∧ sGetItem 12 (c2doc junk) ⟨0, .obj⟩ (.kStr "a") = .ok ⟨6, .arr⟩
    ∧ sLen 12 (c2doc junk) ⟨6, .arr⟩ = .ok 0
    ∧ (∀ c rest, junk = c :: rest → c2bad c →
        sGetItem 12 (c2doc junk) ⟨0, .obj⟩ (.kStr "b") = .error .malformedInput
        ∧ sValue 12 (c2doc junk) ⟨0, .obj⟩ = .error .malformedInput)
    ∧ (junk = [] →
        sGetItem 12 (c2doc junk) ⟨0, .obj⟩ (.kStr "b") = .error .unexpectedEnd
        ∧ sValue 12 (c2doc junk) ⟨0, .obj⟩ = .error .unexpectedEnd) := by
  refine ⟨rfl, rfl, rfl, ?_, ?_⟩
  · rintro c rest rfl h
    have hst : skipToStartS (c2doc (c :: rest)) 9 = 10 := by
      unfold skipToStartS
      rw [show (c2doc (c :: rest)).drop 9 = ' ' :: c :: rest from rfl,
        skipAuxS_cons_ws ' ' _ (by decide), skipAuxS_bad c rest h]
    have hcm : skipCommaS (c2doc (c :: rest)) 8
        = (true, skipToStartS (c2doc (c :: rest)) 9) := rfl
    rw [hst] at hcm
    have hsk : seekNextObjectChildS (c2doc (c :: rest)) 10 = .error .malformedInput :=
      seekNO_bad c rest h
    have q1 : (score (c2doc (c :: rest)) 9).objStep (.oAtPos 10)
        = .error .malformedInput := by
      have t := objStep_atPos (c2doc (c :: rest)) 8 10
      rw [hsk] at t
      exact t
    have q1' : (score (c2doc (c :: rest)) 8).objStep (.oAtPos 10)
        = .error .malformedInput := by
      have t := objStep_atPos (c2doc (c :: rest)) 7 10
      rw [hsk] at t
      exact t
    have hep9 : (score (c2doc (c :: rest)) 9).endPos ⟨6, .arr⟩ = .ok (some 8) := rfl
    have hep8 : (score (c2doc (c :: rest)) 8).endPos ⟨6, .arr⟩ = .ok (some 8) := rfl
    have q2 : (score (c2doc (c :: rest)) 10).objStep (.oAfter ⟨6, .arr⟩)
        = .error .malformedInput := by
      have t := objStep_after (c2doc (c :: rest)) 9 ⟨6, .arr⟩
      rw [hep9, ebind_ok] at t
      dsimp only at t
      rw [hcm] at t
      dsimp only at t
      exact t.trans q1
    have q2' : (score (c2doc (c :: rest)) 9).objStep (.oAfter ⟨6, .arr⟩)
        = .error .malformedInput := by
      have t := objStep_after (c2doc (c :: rest)) 8 ⟨6, .arr⟩
      rw [hep8, ebind_ok] at t
      dsimp only at t
      rw [hcm] at t
      dsimp only at t
      exact t.trans q1'
    constructor
    · have hg1 : (score (c2doc (c :: rest)) 11).objStep (.oAtPos 1)
          = .ok (.yieldO "a" ⟨6, .arr⟩ (.oAfter ⟨6, .arr⟩)) := rfl
      have e2 : (score (c2doc (c :: rest)) 11).objFind (.oAfter ⟨6, .arr⟩) "b"
          = .error .malformedInput := objFind_err _ 10 _ "b" _ q2
      have t := objFind_succ (c2doc (c :: rest)) 11 (.oAtPos 1) "b"
      rw [hg1, ebind_ok] at t
      dsimp only at t
      rw [if_neg (by decide : ¬ ("a" = "b"))] at t
      exact (show sGetItem 12 (c2doc (c :: rest)) ⟨0, .obj⟩ (.kStr "b")
          = (score (c2doc (c :: rest)) (11 + 1)).objFind (.oAtPos 1) "b" from rfl).trans
        (t.trans e2)
    · have hg1' : (score (c2doc (c :: rest)) 10).objStep (.oAtPos 1)
          = .ok (.yieldO "a" ⟨6, .arr⟩ (.oAfter ⟨6, .arr⟩)) := rfl
      have e1 : (score (c2doc (c :: rest)) 10).objList (.oAfter ⟨6, .arr⟩)
          = .error .malformedInput := objList_err _ 9 _ _ q2'
      have t := objList_succ (c2doc (c :: rest)) 10 (.oAtPos 1)
      rw [hg1', ebind_ok] at t
      dsimp only at t
      rw [e1, emap_err] at t
      have tv : (score (c2doc (c :: rest)) 11).objList (.oAtPos (0 + 1))
          = .error .malformedInput := t
      exact (show sValue 12 (c2doc (c :: rest)) ⟨0, .obj⟩
          = (score (c2doc (c :: rest)) (11 + 1)).value ⟨0, .obj⟩ from rfl).trans
        (value_obj_err _ 11 0 _ tv)
  · rintro rfl
    exact ⟨rfl, rfl⟩

theorem c2_witness :
    sGetItem 12 (c2doc "INVALID".data) ⟨0, .obj⟩ (.kStr "a") = .ok ⟨6, .arr⟩
    ∧ sLen 12 (c2doc "INVALID".data) ⟨6, .arr⟩ = .ok 0
    ∧ sGetItem 12 (c2doc "INVALID".data) ⟨0, .obj⟩ (.kStr "b") = .error .malformedInput
    ∧ sValue 12 (c2doc "INVALID".data) ⟨0, .obj⟩ = .error .malformedInput :=
  ⟨(c2_partial_discovery "INVALID".data).2.1,
   (c2_partial_discovery "INVALID".data).2.2.1,
   ((c2_partial_discovery "INVALID".data).2.2.2.1 'I' "NVALID".data rfl (by unfold c2bad; decide)).1,
   ((c2_partial_discovery "INVALID".data).2.2.2.1 'I' "NVALID".data rfl (by unfold c2bad; decide)).2⟩



/-- Characters that can start a JSON value (the determinant characters plus
digits and the minus sign). -/
def startChar (c : Char) : Prop :=
  c = '\x7b' ∨ c = '[' ∨ c = '"' ∨ c = 't' ∨ c = 'f' ∨ c = 'n' ∨
    c ∈ ['0', '1', '2', '3', '4', '5', '6', '7', '8', '9', '-']

theorem nodeTypeOfBuf_not_start (c : Char) (l : List Char) (h : ¬ startChar c) :
    nodeTypeOfBuf (c :: l) = .error .malformedInput := by
  unfold startChar at h
  push_neg at h
  obtain ⟨h1, h2, h3, h4, h5, h6, h7⟩ := h
  simp [nodeTypeOfBuf, List.isPrefixOf, Ne.symm h1, Ne.symm h2, Ne.symm h3,
    Ne.symm h4, Ne.symm h5, Ne.symm h6, h7]

theorem ntb_start (c : Char) (l : List Char) (ty : NType)
    (h : nodeTypeOfBuf (c :: l) = .ok ty) : startChar c := by
  by_contra hc
  rw [nodeTypeOfBuf_not_start c l hc] at h
  exact absurd h (by simp)

theorem skipAuxS_stop (c : Char) (l : List Char) (h1 : c ∉ wsChars) (h2 : c ≠ '/') :
    skipAuxS (c :: l) false = 0 := by
  unfold skipAuxS
  simp [h1, h2]

theorem startChar_skipAuxS (c : Char) (l : List Char) (h : startChar c) :
    skipAuxS (c :: l) false = 0 := by
  refine skipAuxS_stop c l ?_ ?_
  · rcases h with rfl | rfl | rfl | rfl | rfl | rfl | hm
    · decide
    · decide
    · decide
    · decide
    · decide
    · decide
    · simp only [List.mem_cons, List.not_mem_nil, or_false] at hm
      rcases hm with rfl | rfl | rfl | rfl | rfl | rfl | rfl | rfl | rfl | rfl | rfl <;>
        decide
  · rcases h with rfl | rfl | rfl | rfl | rfl | rfl | hm
    · decide
    · decide
    · decide
    · decide
    · decide
    · decide
    · simp only [List.mem_cons, List.not_mem_nil, or_false] at hm
      rcases hm with rfl | rfl | rfl | rfl | rfl | rfl | rfl | rfl | rfl | rfl | rfl <;>
        decide

theorem mkSNodeS_idem (f : List Char) (p : Nat) (nd : SNode)
    (h : mkSNodeS f p = .ok nd) : mkSNodeS f nd.pos = .ok nd := by
  have h' : Except.map (fun t => (⟨skipToStartS f p, t⟩ : SNode))
      (nodeTypeOfBuf ((f.drop (skipToStartS f p)).take 5)) = Except.ok nd := h
  cases hn : nodeTypeOfBuf ((f.drop (skipToStartS f p)).take 5) with
  | error e =>
    rw [hn, emap_err] at h'
    exact absurd h' (by simp)
  | ok ty =>
    rw [hn, emap_ok] at h'
    cases Except.ok.inj h'
    cases hl : f.drop (skipToStartS f p) with
    | nil =>
      rw [hl] at hn
      exact absurd hn (by simp [nodeTypeOfBuf])
    | cons c t =>
      have hc : startChar c := by
        have hn' := hn
        rw [hl, show (5 : Nat) = 4 + 1 from rfl, List.take_succ_cons] at hn'
        exact ntb_start c _ ty hn'
      have hs : skipToStartS f (skipToStartS f p) = skipToStartS f p := by
        conv_lhs => rw [skipToStartS]
        rw [hl, startChar_skipAuxS c t hc]
        omega
      show Except.map (fun ty2 => (⟨skipToStartS f (skipToStartS f p), ty2⟩ : SNode))
          (nodeTypeOfBuf ((f.drop (skipToStartS f (skipToStartS f p))).take 5))
        = Except.ok ⟨skipToStartS f p, ty⟩
      rw [hs, hn, emap_ok]

theorem docNode_mk (fuel : Nat) (f : List Char) (i : Nat) (nd : SNode)
    (h : docNode fuel f i = .ok nd) : mkSNodeS f nd.pos = .ok nd := by
  cases i with
  | zero => exact mkSNodeS_idem f 0 nd h
  | succ j =>
    unfold docNode at h
    cases hd : docNode fuel f j with
    | error e =>
      rw [hd, ebind_err] at h
      exact absurd h (by simp)
    | ok nd0 =>
      rw [hd, ebind_ok] at h
      cases he : sEndPos fuel f nd0 with
      | error e =>
        rw [he, ebind_err] at h
        exact absurd h (by simp)
      | ok eo =>
        rw [he, ebind_ok] at h
        cases eo with
        | none => exact absurd h (by simp)
        | some e2 =>
          dsimp only at h
          exact mkSNodeS_idem f e2 nd h

/-- The cursor invariant of the modelled Reader: the current index is cached,
every cached offset is the start offset of the corresponding document of the
stream, and the current node is the current document's node. -/
def ReaderInv (fuel : Nat) (f : List Char) (r : RState) : Prop :=
  r.idx < r.offs.length ∧
  ∀ i, i < r.offs.length →
    ∃ nd, docNode fuel f i = .ok nd ∧ r.offs.get? i = some nd.pos ∧
      (i = r.idx → r.node = nd)

theorem docNode_succ (fuel : Nat) (f : List Char) (i : Nat) :
    docNode fuel f (i + 1) = (do
      let nd ← docNode fuel f i
      match ← sEndPos fuel f nd with
      | Option.none => .error .typeErr
      | some e => mkSNodeS f e) := by
  rw [docNode]

theorem readerNew_inv (fuel : Nat) (f : List Char) (r : RState)
    (h : readerNew f = .ok r) : r.idx = 0 ∧ ReaderInv fuel f r := by
  unfold readerNew at h
  cases hm : mkSNodeS f 0 with
  | error e =>
    rw [hm, emap_err] at h
    exact absurd h (by simp)
  | ok nd =>
    rw [hm, emap_ok] at h
    cases Except.ok.inj h
    refine ⟨rfl, by simp, ?_⟩
    intro i hi
    simp only [List.length_singleton] at hi
    have h0 : i = 0 := by omega
    subst h0
    exact ⟨nd, hm, rfl, fun _ => rfl⟩

theorem readerNext_inv (fuel : Nat) (f : List Char) (r r2 : RState)
    (hinv : ReaderInv fuel f r) (h : readerNext fuel f r = .ok r2) :
    r2.idx = r.idx + 1 ∧ ReaderInv fuel f r2 := by
  obtain ⟨hlen, hall⟩ := hinv
  obtain ⟨ndc, hdocc, hgetc, hnodec⟩ := hall r.idx hlen
  have hnode := hnodec rfl
  unfold readerNext at h
  cases he : sEndPos fuel f r.node with
  | error e =>
    rw [he, ebind_err] at h
    exact absurd h (by simp)
  | ok eo =>
    rw [he, ebind_ok] at h
    cases eo with
    | none => exact absurd h (by simp)
    | some e =>
      try dsimp only at h
      by_cases hge : skipToStartS f e ≥ f.length
      · rw [if_pos hge] at h
        exact absurd h (by simp)
      · rw [if_neg hge] at h
        cases hm : mkSNodeS f e with
        | error e2 =>
          rw [hm, ebind_err] at h
          exact absurd h (by simp)
        | ok nd =>
          rw [hm, ebind_ok] at h
          try dsimp only at h
          cases Except.ok.inj h
          have hdocnext : docNode fuel f (r.idx + 1) = .ok nd := by
            rw [docNode_succ, hdocc, ebind_ok, ← hnode, he, ebind_ok]
            exact hm
          refine ⟨rfl, ?_⟩
          by_cases hcase : r.idx + 1 < r.offs.length
          · rw [if_pos hcase]
            refine ⟨hcase, ?_⟩
            intro i hi
            obtain ⟨ndi, hdi, hgi, _⟩ := hall i hi
            refine ⟨ndi, hdi, hgi, ?_⟩
            intro hieq
            subst hieq
            rw [hdocnext] at hdi
            exact Except.ok.inj hdi
          · rw [if_neg hcase]
            have hlen2 : r.offs.length = r.idx + 1 := by omega
            refine ⟨by simp only [List.length_append, List.length_singleton]; omega, ?_⟩
            intro i hi
            simp only [List.length_append, List.length_singleton] at hi
            by_cases hilt : i < r.offs.length
            · obtain ⟨ndi, hdi, hgi, _⟩ := hall i hilt
              refine ⟨ndi, hdi, ?_, ?_⟩
              · rw [List.get?_append hilt]
                exact hgi
              · intro hieq
                exact absurd (show i = r.idx + 1 from hieq) (by omega)
            · have hieq : i = r.offs.length := by omega
              subst hieq
              refine ⟨nd, ?_, ?_, fun _ => rfl⟩
              · rw [hlen2]
                exact hdocnext
              · rw [List.get?_concat_length]

theorem readerPrev_inv (fuel : Nat) (f : List Char) (r : RState)
    (hinv : ReaderInv fuel f r) (hpos : r.idx ≠ 0) :
    ∃ nd, docNode fuel f (r.idx - 1) = .ok nd ∧
      r.offs.get? (r.idx - 1) = some nd.pos ∧
      mkSNodeS f nd.pos = .ok nd ∧
      readerPrev f r = .ok ⟨r.idx - 1, r.offs, nd⟩ := by
  obtain ⟨hlen, hall⟩ := hinv
  obtain ⟨nd, hd, hg, _⟩ := hall (r.idx - 1) (by omega)
  have hmk := docNode_mk fuel f _ nd hd
  refine ⟨nd, hd, hg, hmk, ?_⟩
  unfold readerPrev
  rw [if_neg hpos, hg]
  dsimp only
  rw [hmk, emap_ok]

theorem readerPrev_atStart (f : List Char) (r : RState) (h : r.idx = 0) :
    readerPrev f r = .error .atStart := by
  unfold readerPrev
  rw [if_pos h]

theorem readerSeek_zero (fuel : Nat) (f : List Char) (r : RState)
    (hinv : ReaderInv fuel f r) :
    ∃ nd0, docNode fuel f 0 = .ok nd0 ∧
      readerSeek fuel f r 0 = .ok ⟨0, r.offs, nd0⟩ := by
  obtain ⟨hlen, hall⟩ := hinv
  obtain ⟨nd0, hd0, hg0, _⟩ := hall 0 (by omega)
  refine ⟨nd0, hd0, ?_⟩
  unfold readerSeek
  rw [if_neg (by decide : ¬ ((0 : Int) < 0)), show (0 : Int).toNat = 0 from rfl, hg0]
  dsimp only
  rw [docNode_mk fuel f 0 nd0 hd0, emap_ok]

/-- C9: Reader backward/random-access navigation, on the Reader modelled from
the spec (the navigation cursor with a per-index start-offset cache).  From
any reachable cursor state (characterized by `ReaderInv`): `next()` increments
the document index and preserves the invariant; `prev()` at a nonzero index
succeeds, decrements the index, and reconstructs the previous document's node
by a single node construction at the cached start offset (`readerPrev` takes
no scanning fuel at all, so no earlier document is re-scanned); `prev()` at
index 0 fails with `AtStart`; and `seek(0)` after any navigation returns to
the original first document's node. -/
theorem c9_reader_navigation (fuel : Nat) (f : List Char) :
    (∀ r, readerNew f = .ok r → r.idx = 0 ∧ ReaderInv fuel f r)
    ∧ (∀ r r2, ReaderInv fuel f r → readerNext fuel f r = .ok r2 →
        r2.idx = r.idx + 1 ∧ ReaderInv fuel f r2)
    ∧ (∀ r, ReaderInv fuel f r → r.idx ≠ 0 →
        ∃ nd, docNode fuel f (r.idx - 1) = .ok nd
          ∧ r.offs.get? (r.idx - 1) = some nd.pos
          ∧ mkSNodeS f nd.pos = .ok nd
          ∧ readerPrev f r = .ok ⟨r.idx - 1, r.offs, nd⟩)
    ∧ (∀ r : RState, r.idx = 0 → readerPrev f r = .error .atStart)
    ∧ (∀ r, ReaderInv fuel f r →
        ∃ nd0, docNode fuel f 0 = .ok nd0
          ∧ readerSeek fuel f r 0 = .ok ⟨0, r.offs, nd0⟩) :=
  ⟨fun r => readerNew_inv fuel f r,
   fun r r2 => readerNext_inv fuel f r r2,
   fun r => readerPrev_inv fuel f r,
   fun r => readerPrev_atStart f r,
   fun r => readerSeek_zero fuel f r⟩

theorem c9_witness :
    readerNew "1 2 3".data = .ok ⟨0, [0], ⟨0, .num⟩⟩
    ∧ readerNext 8 "1 2 3".data ⟨0, [0], ⟨0, .num⟩⟩ = .ok ⟨1, [0, 2], ⟨2, .num⟩⟩
    ∧ readerNext 8 "1 2 3".data ⟨1, [0, 2], ⟨2, .num⟩⟩ = .ok ⟨2, [0, 2, 4], ⟨4, .num⟩⟩
    ∧ readerPrev "1 2 3".data ⟨2, [0, 2, 4], ⟨4, .num⟩⟩ = .ok ⟨1, [0, 2, 4], ⟨2, .num⟩⟩
    ∧ readerSeek 8 "1 2 3".data ⟨2, [0, 2, 4], ⟨4, .num⟩⟩ 0 = .ok ⟨0, [0, 2, 4], ⟨0, .num⟩⟩
    ∧ readerPrev "1 2 3".data ⟨0, [0], ⟨0, .num⟩⟩ = .error .atStart := by
  obtain ⟨hnew, hnext, hprev, hprev0, hseek⟩ := c9_reader_navigation 8 "1 2 3".data
  have h0 := hnew ⟨0, [0], ⟨0, .num⟩⟩ rfl
  have e1 : readerNext 8 "1 2 3".data ⟨0, [0], ⟨0, .num⟩⟩
      = .ok ⟨1, [0, 2], ⟨2, .num⟩⟩ := rfl
  have inv1 := (hnext _ _ h0.2 e1).2
  have e2 : readerNext 8 "1 2 3".data ⟨1, [0, 2], ⟨2, .num⟩⟩
      = .ok ⟨2, [0, 2, 4], ⟨4, .num⟩⟩ := rfl
  have inv2 := (hnext _ _ inv1 e2).2
  obtain ⟨nd, hdnd, _, _, hprev2⟩ := hprev _ inv2 (by decide)
  have hnd : nd = ⟨2, .num⟩ :=
    Except.ok.inj (hdnd.symm.trans (rfl : docNode 8 "1 2 3".data 1 = .ok ⟨2, .num⟩))
  subst hnd
  obtain ⟨nd0, hdnd0, hseek2⟩ := hseek _ inv2
  have hnd0 : nd0 = ⟨0, .num⟩ :=
    Except.ok.inj (hdnd0.symm.trans (rfl : docNode 8 "1 2 3".data 0 = .ok ⟨0, .num⟩))
  subst hnd0
  exact ⟨rfl, e1, e2, hprev2, hseek2, hprev0 _ rfl⟩



/-- The sign group of the spec's number grammar: an optional `'-'`. -/
def SignPart (s : List Char) : Prop := s = [] ∨ s = ['-']

/-- The integer group of the spec's number grammar: `0`, or a nonempty digit
run without a leading zero. -/
def IntPart (i : List Char) : Prop :=
  i = ['0'] ∨ (i ≠ [] ∧ (∀ c ∈ i, c.isDigit = true) ∧ i.headD ' ' ≠ '0')

/-- The fraction group of the spec's number grammar: absent, or a dot followed
by a nonempty digit run. -/
def FracPart (fr : List Char) : Prop :=
  fr = [] ∨ ∃ d, d ≠ [] ∧ (∀ c ∈ d, c.isDigit = true) ∧ fr = '.' :: d

/-- The exponent group of the spec's number grammar: absent, or `e`/`E`, an
optional sign, and a nonempty digit run. -/
def ExpPart (ex : List Char) : Prop :=
  ex = [] ∨ ∃ e sgn d, (e = 'e' ∨ e = 'E') ∧ (sgn = [] ∨ sgn = ['+'] ∨ sgn = ['-']) ∧
    d ≠ [] ∧ (∀ c ∈ d, c.isDigit = true) ∧ ex = e :: (sgn ++ d)

/-- A full match of the spec's JSON number grammar
`-? (0|[1-9]\d*) (\.\d+)? ([eE][+-]?\d+)?`. -/
def SpecJsonNum (cs : List Char) : Prop :=
  ∃ s i fr ex, SignPart s ∧ IntPart i ∧ FracPart fr ∧ ExpPart ex ∧
    cs = s ++ i ++ fr ++ ex

theorem digitRun_nil : digitRun [] = 0 := rfl

theorem digitRun_cons_digit (c : Char) (l : List Char) (h : c.isDigit = true) :
    digitRun (c :: l) = 1 + digitRun l := by
  unfold digitRun
  rw [List.takeWhile_cons, h]
  simp [Nat.add_comm]

theorem digitRun_cons_not (c : Char) (l : List Char) (h : ¬ c.isDigit = true) :
    digitRun (c :: l) = 0 := by
  unfold digitRun
  rw [List.takeWhile_cons, Bool.of_not_eq_true h]
  rfl

theorem digitRun_le_length (l : List Char) : digitRun l ≤ l.length := by
  induction l with
  | nil => simp [digitRun_nil]
  | cons c l ih =>
    by_cases hc : c.isDigit = true
    · rw [digitRun_cons_digit c l hc]
      simp only [List.length_cons]
      omega
    · rw [digitRun_cons_not c l hc]
      simp

theorem digitRun_prefix_le (d t : List Char)
    (hd : ∀ c ∈ d, c.isDigit = true) : d.length ≤ digitRun (d ++ t) := by
  induction d with
  | nil => simp
  | cons c d ih =>
    rw [List.cons_append, digitRun_cons_digit c _ (hd c (by simp))]
    have := ih (fun c2 hc2 => hd c2 (by simp [hc2]))
    simp only [List.length_cons]
    omega

theorem digitRun_lt_digit (d t : List Char)
    (hd : ∀ c ∈ d, c.isDigit = true) (hlt : d.length < digitRun (d ++ t)) :
    ∃ c t2, t = c :: t2 ∧ c.isDigit = true := by
  induction d with
  | nil =>
    cases t with
    | nil => simp [digitRun_nil] at hlt
    | cons c t2 =>
      refine ⟨c, t2, rfl, ?_⟩
      by_contra hc
      rw [List.nil_append, digitRun_cons_not c t2 hc] at hlt
      omega
  | cons c d ih =>
    rw [List.cons_append, digitRun_cons_digit c _ (hd c (by simp))] at hlt
    exact ih (fun c2 hc2 => hd c2 (by simp [hc2])) (by simp at hlt ⊢; omega)

theorem take_digitRun_digits (l : List Char) :
    ∀ c ∈ l.take (digitRun l), c.isDigit = true := by
  induction l with
  | nil => simp
  | cons c l ih =>
    by_cases hc : c.isDigit = true
    · rw [digitRun_cons_digit c l hc]
      intro c2 hc2
      rw [show 1 + digitRun l = digitRun l + 1 by omega, List.take_succ_cons] at hc2
      rcases List.mem_cons.mp hc2 with rfl | hmem
      · exact hc
      · exact ih c2 hmem
    · rw [digitRun_cons_not c l hc]
      simp

theorem intLen_cons_ne (c : Char) (r : List Char) (h0 : c ≠ '0') :
    intLen (c :: r) = if c.isDigit = true then some (1 + digitRun r)
      else Option.none := by
  unfold intLen
  split
  · next heq =>
    injection heq with h1 _
    exact absurd h1 h0
  · next heq =>
    injection heq with h1 h2
    subst h1
    subst h2
    rfl
  · next heq => exact absurd heq (by simp)

theorem intLen_some_le (l : List Char) (k : Nat) (h : intLen l = some k) :
    1 ≤ k ∧ k ≤ l.length := by
  cases l with
  | nil => exact absurd h (by simp [intLen])
  | cons c r =>
    by_cases h0 : c = '0'
    · subst h0
      cases Option.some.inj h
      simp
    · rw [intLen_cons_ne c r h0] at h
      by_cases hd : c.isDigit = true
      · rw [if_pos hd] at h
        cases Option.some.inj h
        have := digitRun_le_length r
        simp only [List.length_cons]
        omega
      · rw [if_neg hd] at h
        exact absurd h (by simp)

theorem intLen_take (l : List Char) (k : Nat) (h : intLen l = some k) :
    IntPart (l.take k) := by
  cases l with
  | nil => exact absurd h (by simp [intLen])
  | cons c r =>
    by_cases h0 : c = '0'
    · subst h0
      cases Option.some.inj h
      exact Or.inl rfl
    · rw [intLen_cons_ne c r h0] at h
      by_cases hd : c.isDigit = true
      · rw [if_pos hd] at h
        cases Option.some.inj h
        rw [show 1 + digitRun r = digitRun r + 1 by omega, List.take_succ_cons]
        refine Or.inr ⟨by simp, ?_, by simpa using h0⟩
        intro c2 hc2
        rcases List.mem_cons.mp hc2 with rfl | hmem
        · exact hd
        · exact take_digitRun_digits r c2 hmem
      · rw [if_neg hd] at h
        exact absurd h (by simp)

theorem intLen_step (i t : List Char) (k : Nat)
    (h : intLen (i ++ t) = some k) (hi : IntPart i) :
    i.length ≤ k ∧ (i.length < k → ∃ c t2, t = c :: t2 ∧ c.isDigit = true) := by
  rcases hi with rfl | ⟨hne, hdig, h0⟩
  · cases Option.some.inj h
    refine ⟨by simp, ?_⟩
    intro hlt
    simp at hlt
  · cases i with
    | nil => exact absurd rfl hne
    | cons c i2 =>
      simp only [List.headD_cons] at h0
      rw [List.cons_append, intLen_cons_ne c _ h0,
        if_pos (hdig c (by simp))] at h
      cases Option.some.inj h
      have hle := digitRun_prefix_le i2 t (fun c2 hc2 => hdig c2 (by simp [hc2]))
      refine ⟨by simp only [List.length_cons]; omega, ?_⟩
      intro hlt
      refine digitRun_lt_digit i2 t (fun c2 hc2 => hdig c2 (by simp [hc2])) ?_
      simp only [List.length_cons] at hlt
      omega

theorem intLen_none_elim (i t : List Char)
    (h : intLen (i ++ t) = Option.none) (hi : IntPart i) : False := by
  rcases hi with rfl | ⟨hne, hdig, h0⟩
  · exact absurd h (by simp [intLen])
  · cases i with
    | nil => exact absurd rfl hne
    | cons c i2 =>
      simp only [List.headD_cons] at h0
      rw [List.cons_append, intLen_cons_ne c _ h0,
        if_pos (hdig c (by simp))] at h
      exact absurd h (by simp)

theorem fracLen_nil : fracLen [] = 0 := rfl

theorem fracLen_cons_dot (r : List Char) :
    fracLen ('.' :: r) = if digitRun r = 0 then 0 else 1 + digitRun r := rfl

theorem fracLen_cons_ne (c : Char) (r : List Char) (h : c ≠ '.') :
    fracLen (c :: r) = 0 := by
  unfold fracLen
  split
  · next heq =>
    injection heq with h1 _
    exact absurd h1 h
  · rfl

theorem fracLen_le_length (l : List Char) : fracLen l ≤ l.length := by
  cases l with
  | nil => simp [fracLen_nil]
  | cons c r =>
    by_cases hc : c = '.'
    · subst hc
      rw [fracLen_cons_dot]
      have := digitRun_le_length r
      split
      · omega
      · simp only [List.length_cons]
        omega
    · rw [fracLen_cons_ne c r hc]
      omega

theorem fracLen_take (l : List Char) : FracPart (l.take (fracLen l)) := by
  cases l with
  | nil => exact Or.inl rfl
  | cons c r =>
    by_cases hc : c = '.'
    · subst hc
      rw [fracLen_cons_dot]
      by_cases hz : digitRun r = 0
      · rw [if_pos hz]
        exact Or.inl rfl
      · rw [if_neg hz, show 1 + digitRun r = digitRun r + 1 by omega,
          List.take_succ_cons]
        refine Or.inr ⟨r.take (digitRun r), ?_, take_digitRun_digits r, rfl⟩
        have := digitRun_le_length r
        intro hcontra
        have : (r.take (digitRun r)).length = 0 := by rw [hcontra]; rfl
        rw [List.length_take] at this
        omega
    · rw [fracLen_cons_ne c r hc]
      exact Or.inl rfl

theorem fracLen_step (fr t : List Char) (hfr : FracPart fr) :
    fr.length ≤ fracLen (fr ++ t) ∧
      (fr.length < fracLen (fr ++ t) →
        ∃ c t2, t = c :: t2 ∧ (c = '.' ∨ c.isDigit = true)) := by
  rcases hfr with rfl | ⟨d, hdne, hdig, rfl⟩
  · refine ⟨Nat.zero_le _, ?_⟩
    intro hlt
    simp only [List.length_nil, List.nil_append] at hlt ⊢
    cases t with
    | nil => simp [fracLen_nil] at hlt
    | cons c t2 =>
      by_cases hc : c = '.'
      · exact ⟨c, t2, rfl, Or.inl hc⟩
      · rw [fracLen_cons_ne c t2 hc] at hlt
        omega
  · have hd1 : 1 ≤ d.length := by
      cases d with
      | nil => exact absurd rfl hdne
      | cons _ _ => simp
    have hle := digitRun_prefix_le d t hdig
    have hz : ¬ digitRun (d ++ t) = 0 := by omega
    rw [List.cons_append, fracLen_cons_dot, if_neg hz]
    refine ⟨by simp only [List.length_cons]; omega, ?_⟩
    intro hlt
    simp only [List.length_cons] at hlt
    obtain ⟨c, t2, ht, hcd⟩ := digitRun_lt_digit d t hdig (by omega)
    exact ⟨c, t2, ht, Or.inr hcd⟩

theorem expLen_cons (c : Char) (r : List Char) :
    expLen (c :: r) = if c = 'e' ∨ c = 'E' then
      (match r with
      | s :: r2 =>
        if s = '+' ∨ s = '-' then
          if digitRun r2 = 0 then 0 else 2 + digitRun r2
        else if digitRun r = 0 then 0 else 1 + digitRun r
      | [] => 0)
    else 0 := rfl

theorem expLen_nil : expLen [] = 0 := rfl

theorem expLen_le_length (l : List Char) : expLen l ≤ l.length := by
  cases l with
  | nil => simp [expLen_nil]
  | cons c r =>
    rw [expLen_cons]
    by_cases hce : c = 'e' ∨ c = 'E'
    · rw [if_pos hce]
      cases r with
      | nil => simp
      | cons s r2 =>
        dsimp only
        have h1 := digitRun_le_length r2
        have h2 := digitRun_le_length (s :: r2)
        by_cases hs : s = '+' ∨ s = '-'
        · rw [if_pos hs]
          by_cases hz : digitRun r2 = 0
          · rw [if_pos hz]
            exact Nat.zero_le _
          · rw [if_neg hz]
            simp only [List.length_cons] at h1 ⊢
            omega
        · rw [if_neg hs]
          by_cases hz : digitRun (s :: r2) = 0
          · rw [if_pos hz]
            exact Nat.zero_le _
          · rw [if_neg hz]
            simp only [List.length_cons] at h2 ⊢
            omega
    · rw [if_neg hce]
      exact Nat.zero_le _

theorem expLen_take (l : List Char) : ExpPart (l.take (expLen l)) := by
  cases l with
  | nil => exact Or.inl rfl
  | cons c r =>
    rw [expLen_cons]
    by_cases hce : c = 'e' ∨ c = 'E'
    · rw [if_pos hce]
      cases r with
      | nil => exact Or.inl rfl
      | cons s r2 =>
        dsimp only
        by_cases hs : s = '+' ∨ s = '-'
        · rw [if_pos hs]
          by_cases hz : digitRun r2 = 0
          · rw [if_pos hz]
            exact Or.inl rfl
          · rw [if_neg hz, show 2 + digitRun r2 = (digitRun r2 + 1) + 1 by omega,
              List.take_succ_cons, List.take_succ_cons]
            refine Or.inr ⟨c, [s], r2.take (digitRun r2), hce, ?_, ?_,
              take_digitRun_digits r2, rfl⟩
            · rcases hs with rfl | rfl
              · exact Or.inr (Or.inl rfl)
              · exact Or.inr (Or.inr rfl)
            · have := digitRun_le_length r2
              intro hcontra
              have hlen : (r2.take (digitRun r2)).length = 0 := by rw [hcontra]; rfl
              rw [List.length_take] at hlen
              omega
        · rw [if_neg hs]
          by_cases hz : digitRun (s :: r2) = 0
          · rw [if_pos hz]
            exact Or.inl rfl
          · rw [if_neg hz, show 1 + digitRun (s :: r2) = digitRun (s :: r2) + 1 by omega,
              List.take_succ_cons]
            refine Or.inr ⟨c, [], (s :: r2).take (digitRun (s :: r2)), hce, Or.inl rfl, ?_,
              take_digitRun_digits (s :: r2), by rw [List.nil_append]⟩
            have := digitRun_le_length (s :: r2)
            intro hcontra
            have hlen : ((s :: r2).take (digitRun (s :: r2))).length = 0 := by
              rw [hcontra]; rfl
            rw [List.length_take, List.length_cons] at hlen
            omega
    · rw [if_neg hce]
      exact Or.inl rfl

theorem expLen_step (ex t : List Char) (hex : ExpPart ex) :
    ex.length ≤ expLen (ex ++ t) := by
  rcases hex with rfl | ⟨e, sgn, d, he, hsgn, hdne, hdig, rfl⟩
  · exact Nat.zero_le _
  · have hd1 : 1 ≤ d.length := by
      cases d with
      | nil => exact absurd rfl hdne
      | cons _ _ => simp
    rw [List.cons_append, expLen_cons, if_pos he]
    rcases hsgn with rfl | rfl | rfl
    · rw [List.nil_append]
      cases d with
      | nil => exact absurd rfl hdne
      | cons c0 d2 =>
        have hc0 : c0.isDigit = true := hdig c0 (by simp)
        have hs : ¬ (c0 = '+' ∨ c0 = '-') := by
          rintro (rfl | rfl) <;> simp at hc0
        show _ ≤ (if c0 = '+' ∨ c0 = '-' then
            (if digitRun (d2 ++ t) = 0 then 0 else 2 + digitRun (d2 ++ t))
          else if digitRun (c0 :: (d2 ++ t)) = 0 then 0
          else 1 + digitRun (c0 :: (d2 ++ t)))
        rw [if_neg hs]
        have hle := digitRun_prefix_le (c0 :: d2) t (by
          intro c2 hc2
          exact hdig c2 hc2)
        rw [List.cons_append] at hle
        have hz : ¬ digitRun (c0 :: (d2 ++ t)) = 0 := by
          simp only [List.length_cons] at hle
          omega
        rw [if_neg hz]
        simp only [List.length_cons] at hle ⊢
        omega
    · rw [List.cons_append, List.cons_append]
      try dsimp only
      rw [if_pos (Or.inl rfl)]
      simp only [List.nil_append]
      have hle := digitRun_prefix_le d t hdig
      have hz : ¬ digitRun (d ++ t) = 0 := by omega
      rw [if_neg hz]
      simp only [List.length_cons, List.length_append, List.length_singleton]
      omega
    · rw [List.cons_append, List.cons_append]
      try dsimp only
      rw [if_pos (Or.inr rfl)]
      simp only [List.nil_append]
      have hle := digitRun_prefix_le d t hdig
      have hz : ¬ digitRun (d ++ t) = 0 := by omega
      rw [if_neg hz]
      simp only [List.length_cons, List.length_append, List.length_singleton]
      omega

theorem matchNumber_eq (cs : List Char) :
    matchNumber cs =
      (match intLen (cs.drop (if cs.headD ' ' = '-' then 1 else 0)) with
      | Option.none => Option.none
      | some il =>
          some ((if cs.headD ' ' = '-' then 1 else 0) + il
            + fracLen ((cs.drop (if cs.headD ' ' = '-' then 1 else 0)).drop il)
            + expLen (((cs.drop (if cs.headD ' ' = '-' then 1 else 0)).drop il).drop
                (fracLen ((cs.drop (if cs.headD ' ' = '-' then 1 else 0)).drop il))))) := rfl

theorem IntPart_ne_nil (i : List Char) (hi : IntPart i) : i ≠ [] := by
  rcases hi with rfl | ⟨hne, _, _⟩
  · simp
  · exact hne

theorem IntPart_head_digit (c : Char) (i2 : List Char) (hi : IntPart (c :: i2)) :
    c.isDigit = true := by
  rcases hi with heq | ⟨_, hdig, _⟩
  · injection heq with h1 _
    subst h1
    decide
  · exact hdig c (by simp)

theorem sign_align (s i rest : List Char) (hs : SignPart s) (hi : IntPart i) :
    (if ((s ++ i ++ rest).headD ' ') = '-' then 1 else 0) = s.length ∧
      (s ++ i ++ rest).drop s.length = i ++ rest := by
  rcases hs with rfl | rfl
  · refine ⟨?_, by simp⟩
    cases i with
    | nil => exact absurd rfl (IntPart_ne_nil [] hi)
    | cons c i2 =>
      have hcd := IntPart_head_digit c i2 hi
      have hcne : ¬ c = '-' := by
        intro hh
        subst hh
        exact absurd hcd (by decide)
      simp only [List.nil_append, List.cons_append, List.headD_cons,
        if_neg hcne, List.length_nil]
  · constructor
    · simp
    · simp

theorem matchNumber_core_sound (l : List Char) (il : Nat) (h : intLen l = some il) :
    il + fracLen (l.drop il)
        + expLen ((l.drop il).drop (fracLen (l.drop il))) ≤ l.length
    ∧ ∃ i fr ex, IntPart i ∧ FracPart fr ∧ ExpPart ex ∧
        l.take (il + fracLen (l.drop il)
          + expLen ((l.drop il).drop (fracLen (l.drop il)))) = i ++ (fr ++ ex) := by
  have hil := intLen_some_le l il h
  have hfl := fracLen_le_length (l.drop il)
  have hel := expLen_le_length ((l.drop il).drop (fracLen (l.drop il)))
  refine ⟨?_, l.take il, (l.drop il).take (fracLen (l.drop il)),
    ((l.drop il).drop (fracLen (l.drop il))).take
      (expLen ((l.drop il).drop (fracLen (l.drop il)))),
    intLen_take l il h, fracLen_take _, expLen_take _, ?_⟩
  · simp only [List.length_drop] at hfl hel
    omega
  · rw [show il + fracLen (l.drop il)
          + expLen ((l.drop il).drop (fracLen (l.drop il)))
        = il + (fracLen (l.drop il)
          + expLen ((l.drop il).drop (fracLen (l.drop il)))) by omega,
      List.take_add, List.take_add]

theorem matchNumber_some_max (s i fr ex t : List Char) (n : Nat)
    (hs : SignPart s) (hi : IntPart i) (hfr : FracPart fr) (hex : ExpPart ex)
    (h : matchNumber (s ++ i ++ (fr ++ (ex ++ t))) = some n) :
    s.length + i.length + fr.length + ex.length ≤ n := by
  obtain ⟨hsg, hdrop⟩ := sign_align s i (fr ++ (ex ++ t)) hs hi
  rw [matchNumber_eq, hsg, hdrop] at h
  cases hI : intLen (i ++ (fr ++ (ex ++ t))) with
  | none =>
    rw [hI] at h
    exact absurd h (by simp)
  | some il =>
    rw [hI] at h
    try dsimp only at h
    obtain ⟨hile, histep⟩ := intLen_step i (fr ++ (ex ++ t)) il hI hi
    by_cases hieq : i.length = il
    · have hdi : (i ++ (fr ++ (ex ++ t))).drop il = fr ++ (ex ++ t) := by
        rw [← hieq, List.drop_left]
      rw [hdi] at h
      obtain ⟨hfle, hfstep⟩ := fracLen_step fr (ex ++ t) hfr
      by_cases hfeq : fr.length = fracLen (fr ++ (ex ++ t))
      · have hdf : (fr ++ (ex ++ t)).drop (fracLen (fr ++ (ex ++ t))) = ex ++ t := by
          rw [← hfeq, List.drop_left]
        rw [hdf] at h
        have hexle := expLen_step ex t hex
        cases Option.some.inj h
        omega
      · obtain ⟨c, t2, hct, hcd⟩ := hfstep (by omega)
        have hexnil : ex = [] := by
          rcases hex with rfl | ⟨e, sgn, d, he, _, _, _, rfl⟩
          · rfl
          · rw [List.cons_append] at hct
            injection hct with h1 _
            rcases hcd with rfl | hdig2
            · rcases he with rfl | rfl <;> simp at h1
            · subst h1
              rcases he with he | he <;> rw [he] at hdig2 <;> simp at hdig2
        subst hexnil
        cases Option.some.inj h
        simp only [List.length_nil]
        omega
    · obtain ⟨c, t2, hct, hcd⟩ := histep (by omega)
      have hfrnil : fr = [] := by
        rcases hfr with rfl | ⟨d, _, _, rfl⟩
        · rfl
        · rw [List.cons_append] at hct
          injection hct with h1 _
          subst h1
          exact absurd hcd (by decide)
      subst hfrnil
      rw [List.nil_append] at hct
      have hexnil : ex = [] := by
        rcases hex with rfl | ⟨e, sgn, d, he, _, _, _, rfl⟩
        · rfl
        · rw [List.cons_append] at hct
          injection hct with h1 _
          subst h1
          rcases he with rfl | rfl <;> simp at hcd
      subst hexnil
      cases Option.some.inj h
      simp only [List.length_nil]
      omega

theorem matchNumber_none_elim (s i rest : List Char)
    (hs : SignPart s) (hi : IntPart i)
    (h : matchNumber (s ++ i ++ rest) = Option.none) : False := by
  obtain ⟨hsg, hdrop⟩ := sign_align s i rest hs hi
  rw [matchNumber_eq, hsg, hdrop] at h
  cases hI : intLen (i ++ rest) with
  | none => exact intLen_none_elim i rest hI hi
  | some il =>
    rw [hI] at h
    exact absurd h (by simp)

theorem matchNumber_some_sound (cs : List Char) (n : Nat)
    (h : matchNumber cs = some n) : n ≤ cs.length ∧ SpecJsonNum (cs.take n) := by
  rw [matchNumber_eq] at h
  by_cases hneg : cs.headD ' ' = '-'
  · cases cs with
    | nil => simp at hneg
    | cons c cs1 =>
      simp only [List.headD_cons] at hneg
      subst hneg
      have hif : (if (('-' :: cs1).headD ' ') = '-' then (1 : Nat) else 0) = 1 := by
        simp
      rw [hif, show ('-' :: cs1).drop 1 = cs1 from rfl] at h
      cases hI : intLen cs1 with
      | none =>
        rw [hI] at h
        exact absurd h (by simp)
      | some il =>
        rw [hI] at h
        try dsimp only at h
        cases Option.some.inj h
        obtain ⟨hle, i0, fr0, ex0, hi0, hfr0, hex0, heq0⟩ :=
          matchNumber_core_sound cs1 il hI
        constructor
        · simp only [List.length_cons]
          omega
        · rw [show 1 + il + fracLen (cs1.drop il)
                + expLen ((cs1.drop il).drop (fracLen (cs1.drop il)))
              = (il + fracLen (cs1.drop il)
                + expLen ((cs1.drop il).drop (fracLen (cs1.drop il)))) + 1 by omega,
            List.take_succ_cons, heq0]
          exact ⟨['-'], i0, fr0, ex0, Or.inr rfl, hi0, hfr0, hex0, by simp⟩
  · rw [if_neg hneg] at h
    simp only [List.drop_zero] at h
    cases hI : intLen cs with
    | none =>
      rw [hI] at h
      exact absurd h (by simp)
    | some il =>
      rw [hI] at h
      try dsimp only at h
      cases Option.some.inj h
      obtain ⟨hle, i0, fr0, ex0, hi0, hfr0, hex0, heq0⟩ :=
        matchNumber_core_sound cs il hI
      refine ⟨by omega, ?_⟩
      simp only [Nat.zero_add]
      rw [heq0]
      exact ⟨[], i0, fr0, ex0, Or.inl rfl, hi0, hfr0, hex0, by simp⟩

theorem numRunL_eq (l : List Char) :
    numRunL l = l.takeWhile (fun c => decide (c ∈ numChars)) := by
  induction l with
  | nil => rfl
  | cons c l ih =>
    by_cases hc : c ∈ numChars
    · rw [show numRunL (c :: l) = c :: numRunL l by simp [numRunL, hc],
        List.takeWhile_cons, ih]
      simp [hc]
    · rw [show numRunL (c :: l) = [] by simp [numRunL, hc], List.takeWhile_cons]
      simp [hc]

theorem tw_none (q : Char → Bool) (l : List Char) :
    l.findIdx? (fun c => !(q c)) = Option.none →
      ∀ t, (l ++ t).takeWhile q = l ++ t.takeWhile q := by
  induction l with
  | nil =>
    intro _ t
    simp
  | cons c l ih =>
    intro h t
    rw [List.findIdx?_cons] at h
    split at h
    · exact absurd h (by simp)
    · next heq =>
      have hqc : q c = true := by
        revert heq
        cases hq : q c <;> simp
      rw [List.findIdx?_succ] at h
      have h2 : l.findIdx? (fun c => !(q c)) = Option.none := by
        cases hj : l.findIdx? (fun c => !(q c)) with
        | none => rfl
        | some j =>
          rw [hj] at h
          simp at h
      simp only [List.cons_append, List.takeWhile_cons, if_pos hqc]
      rw [ih h2 t]

theorem tw_some (q : Char → Bool) (l : List Char) :
    ∀ i, l.findIdx? (fun c => !(q c)) = some i →
      ∀ t, (l ++ t).takeWhile q = l.take i := by
  induction l with
  | nil =>
    intro i h t
    simp at h
  | cons c l ih =>
    intro i h t
    rw [List.findIdx?_cons] at h
    split at h
    · next heq =>
      have hqc : q c = false := by
        revert heq
        cases hq : q c <;> simp
      cases Option.some.inj h
      simp [List.takeWhile_cons, hqc]
    · next heq =>
      have hqc : q c = true := by
        revert heq
        cases hq : q c <;> simp
      rw [List.findIdx?_succ] at h
      cases hj : l.findIdx? (fun c => !(q c)) with
      | none =>
        rw [hj] at h
        simp at h
      | some j =>
        rw [hj] at h
        simp at h
        subst h
        simp only [List.cons_append, List.takeWhile_cons, if_pos hqc,
          List.take_succ_cons]
        rw [ih j hj t]

theorem numAccS_eq (fuel : Nat) (rest : List Char) (hf : rest.length < fuel) :
    numAccS fuel rest = rest.takeWhile (fun c => decide (c ∈ numChars)) := by
  have hpred : (fun c : Char => decide ¬(c ∈ numChars))
      = (fun c : Char => !(decide (c ∈ numChars))) := by
    funext c
    exact decide_not
  induction fuel generalizing rest with
  | zero => omega
  | succ fuel ih =>
    rw [numAccS]
    try dsimp only
    by_cases hb : (rest.take 1024).isEmpty
    · rw [if_pos hb]
      have hrest : rest = [] := by
        cases rest with
        | nil => rfl
        | cons c r => simp at hb
      subst hrest
      rfl
    · rw [if_neg hb]
      have hne : rest ≠ [] := by
        intro hcontra
        subst hcontra
        simp at hb
      rw [hpred]
      cases hf2 : (rest.take 1024).findIdx? (fun c => !(decide (c ∈ numChars))) with
      | some i =>
        conv_rhs => rw [← List.take_append_drop 1024 rest]
        rw [tw_some _ _ i hf2 (rest.drop 1024)]
      | none =>
        have hd : (rest.drop 1024).length < fuel := by
          have h1 : 1 ≤ rest.length := by
            cases rest with
            | nil => exact absurd rfl hne
            | cons _ _ => simp
          simp only [List.length_drop]
          omega
        rw [ih (rest.drop 1024) hd]
        conv_rhs => rw [← List.take_append_drop 1024 rest]
        rw [tw_none _ _ hf2 (rest.drop 1024)]

/-- The greedily consumed run of number characters starting at `pos`: the
longest prefix of the suffix drawn from `{0-9, +, -, ., e, E}`. -/
def numRun (f : List Char) (pos : Nat) : List Char :=
  (f.drop pos).takeWhile (fun c => decide (c ∈ numChars))

/-- C5: the `measure_number` contract.  The scanner greedily consumes the run
of characters drawn from `numChars`; on success it returns the length of the
longest prefix of that run that fully matches the JSON number grammar
(optional minus, integer part without leading zeros, optional fraction,
optional signed exponent — `SpecJsonNum`), and it fails with
`MalformedNumber` exactly when no prefix of the run matches the grammar.  The
sleepyjson chunked scanner and the lazyjson byte-at-a-time scanner agree on
every input. -/
theorem c5_measure_number (f : List Char) (pos : Nat) :
    (∀ n, measureNumberS f pos = .ok n →
        n ≤ (numRun f pos).length
        ∧ SpecJsonNum ((numRun f pos).take n)
        ∧ ∀ m, m ≤ (numRun f pos).length → SpecJsonNum ((numRun f pos).take m) →
            m ≤ n)
    ∧ (measureNumberS f pos = .error .malformedNumber ↔
        ∀ m, m ≤ (numRun f pos).length → ¬ SpecJsonNum ((numRun f pos).take m))
    ∧ measureNumberS f pos = measureNumberL f pos := by
  have hrunS : numAccS (f.length + 1) (f.drop pos) = numRun f pos := by
    apply numAccS_eq
    have := List.length_drop pos f
    omega
  have hrunL : numRunL (f.drop pos) = numRun f pos := numRunL_eq _
  have hS : measureNumberS f pos = (match matchNumber (numRun f pos) with
      | some n => Except.ok n
      | Option.none => Except.error Err.malformedNumber) := by
    unfold measureNumberS
    rw [hrunS]
  have hL : measureNumberL f pos = (match matchNumber (numRun f pos) with
      | some n => Except.ok n
      | Option.none => Except.error Err.malformedNumber) := by
    unfold measureNumberL
    rw [hrunL]
  refine ⟨?_, ?_, by rw [hS, hL]⟩
  · intro n hok
    rw [hS] at hok
    cases hm : matchNumber (numRun f pos) with
    | none =>
      rw [hm] at hok
      exact absurd hok (by simp)
    | some n2 =>
      rw [hm] at hok
      try dsimp only at hok
      cases Except.ok.inj hok
      obtain ⟨hle, hspec⟩ := matchNumber_some_sound (numRun f pos) n hm
      refine ⟨hle, hspec, ?_⟩
      intro m hmle hspec2
      obtain ⟨s, i, fr, ex, hs, hi, hfr, hex, heqd⟩ := hspec2
      have hrun2 : numRun f pos = s ++ i ++ (fr ++ (ex ++ (numRun f pos).drop m)) := by
        conv_lhs => rw [← List.take_append_drop m (numRun f pos)]
        rw [heqd]
        simp [List.append_assoc]
      have hmax := matchNumber_some_max s i fr ex ((numRun f pos).drop m) n
        hs hi hfr hex (by rw [← hrun2]; exact hm)
      have hmlen : m = s.length + i.length + fr.length + ex.length := by
        have hl := congrArg List.length heqd
        simp only [List.length_take, List.length_append] at hl
        omega
      omega
  · constructor
    · intro herr m hmle hspec2
      rw [hS] at herr
      cases hm : matchNumber (numRun f pos) with
      | some n2 =>
        rw [hm] at herr
        exact absurd herr (by simp)
      | none =>
        obtain ⟨s, i, fr, ex, hs, hi, hfr, hex, heqd⟩ := hspec2
        have hrun2 : numRun f pos
            = s ++ i ++ ((fr ++ ex) ++ (numRun f pos).drop m) := by
          conv_lhs => rw [← List.take_append_drop m (numRun f pos)]
          rw [heqd]
          simp [List.append_assoc]
        exact matchNumber_none_elim s i ((fr ++ ex) ++ (numRun f pos).drop m) hs hi
          (by rw [← hrun2]; exact hm)
    · intro hall
      rw [hS]
      cases hm : matchNumber (numRun f pos) with
      | none => rfl
      | some n2 =>
        exfalso
        obtain ⟨hle, hspec⟩ := matchNumber_some_sound (numRun f pos) n2 hm
        exact hall n2 hle hspec

theorem c5_witness :
    measureNumberS "1e-5e".data 0 = .ok 4
    ∧ measureNumberS "0123".data 0 = .ok 1
    ∧ measureNumberS ".3.8".data 0 = .error .malformedNumber
    ∧ SpecJsonNum "1e-5".data
    ∧ measureNumberL "1e-5e".data 0 = .ok 4 := by
  refine ⟨rfl, rfl, rfl, ?_, ?_⟩
  · have h := ((c5_measure_number "1e-5e".data 0).1 4 rfl).2.1
    exact (show (numRun "1e-5e".data 0).take 4 = "1e-5".data from rfl) ▸ h
  · rw [← (c5_measure_number "1e-5e".data 0).2.2]
    rfl



/-- Per-character reference automaton for the string scanner's actual
contract: the closing quote is the first quote whose immediately preceding
character is not a backslash (no backslash-run parity), a raw `'\n'` before it
is a `BareLineBreak` (a raw `'\r'` is accepted by the sleepyjson scanner), and
running out of characters is an `UnterminatedString`.  `acc` counts the
consumed characters including the opening quote. -/
def scanStr : List Char → Bool → Nat → Except Err Nat
  | [], _, _ => .error .unterminatedString
  | c :: cs, prevBS, acc =>
    if c = '"' ∧ prevBS = false then .ok (acc + 1)
    else if c = '\n' then .error .bareLineBreak
    else scanStr cs (c = '\\') (acc + 1)

theorem qNext_scan (cs : List Char) :
    ∀ (prevc : Char) (acc : Nat),
      (match qNext prevc cs with
       | some q =>
          if '\n' ∈ cs.take q then Except.error Err.bareLineBreak
          else Except.ok (acc + q + 1)
       | Option.none =>
          if '\n' ∈ cs then Except.error Err.bareLineBreak
          else Except.error Err.unterminatedString)
      = scanStr cs (decide (prevc = '\\')) acc := by
  induction cs with
  | nil =>
    intro prevc acc
    simp [qNext, scanStr]
  | cons c cs2 ih =>
    intro prevc acc
    rw [qNext, scanStr]
    by_cases hu : c = '"' ∧ prevc ≠ '\\'
    · rw [if_pos hu, if_pos (show c = '"' ∧ (decide (prevc = '\\')) = false
        from ⟨hu.1, by simp [hu.2]⟩)]
      simp
    · rw [if_neg hu, if_neg (show ¬ (c = '"' ∧ (decide (prevc = '\\')) = false) by
        rintro ⟨h1, h2⟩
        exact hu ⟨h1, by simpa using h2⟩)]
      have hihn := ih c (acc + 1)
      by_cases hn : c = '\n'
      · rw [if_pos hn]
        cases hq : qNext c cs2 with
        | none =>
          dsimp only [Option.map]
          rw [if_pos (show ('\n' : Char) ∈ c :: cs2 from List.mem_cons.mpr (Or.inl hn.symm))]
        | some q =>
          dsimp only [Option.map]
          rw [if_pos (show ('\n' : Char) ∈ (c :: cs2).take (q + 1) by
            rw [List.take_succ_cons]
            exact List.mem_cons.mpr (Or.inl hn.symm))]
      · rw [if_neg hn]
        cases hq : qNext c cs2 with
        | none =>
          dsimp only [Option.map]
          rw [hq] at hihn
          try dsimp only at hihn
          rw [← hihn]
          by_cases hm2 : '\n' ∈ cs2
          · rw [if_pos (List.mem_cons_of_mem c hm2), if_pos hm2]
          · rw [if_neg (show ¬ ('\n' : Char) ∈ c :: cs2 by
              simp only [List.mem_cons]
              rintro (h | h)
              · exact hn h.symm
              · exact hm2 h), if_neg hm2]
        | some q =>
          dsimp only [Option.map]
          rw [hq] at hihn
          try dsimp only at hihn
          rw [← hihn]
          rw [List.take_succ_cons]
          rw [show acc + (q + 1) + 1 = acc + 1 + q + 1 by omega]
          by_cases hm2 : '\n' ∈ cs2.take q
          · rw [if_pos (List.mem_cons_of_mem c hm2), if_pos hm2]
          · rw [if_neg (show ¬ ('\n' : Char) ∈ c :: cs2.take q by
              simp only [List.mem_cons]
              rintro (h | h)
              · exact hn h.symm
              · exact hm2 h), if_neg hm2]

theorem msAuxS_nil (fuel acc : Nat) (b : Bool) :
    msAuxS (fuel + 1) [] acc b = .error .unterminatedString := by
  rw [msAuxS]
  rfl

theorem qFindS_eq_qNext (c : Char) (cs : List Char)
    (hqk : ¬(c = '"' ∧ (c :: cs).getLastD 'x' = '\\')) :
    qFindS (c :: cs) false = qNext 'x' (c :: cs) := by
  rw [qFindS, qNext]
  by_cases hc : c = '"'
  · rw [if_pos hc, if_pos (show c = '"' ∧ ('x' : Char) ≠ '\\' from ⟨hc, by decide⟩),
      if_neg (show ¬ (false = true ∨ (c :: cs).getLastD 'x' = '\\') by
        rintro (h | h)
        · simp at h
        · exact hqk ⟨hc, h⟩)]
  · rw [if_neg hc, if_neg (show ¬ (c = '"' ∧ ('x' : Char) ≠ '\\') from
      fun h => hc h.1)]

theorem msAuxS_scan (l : List Char) (fuel acc : Nat)
    (hlen : l.length ≤ 1024)
    (hq : ¬(l.head? = some '"' ∧ l.getLastD 'x' = '\\')) :
    msAuxS (fuel + 1 + 1) l acc false = scanStr l false acc := by
  rw [msAuxS]
  try dsimp only
  cases l with
  | nil => rfl
  | cons c cs =>
    rw [List.take_of_length_le hlen]
    rw [if_neg (by simp)]
    rw [qFindS_eq_qNext c cs (by
      rintro ⟨h1, h2⟩
      exact hq ⟨by subst h1; rfl, h2⟩)]
    rw [List.drop_eq_nil_of_le (by omega : (c :: cs).length ≤ 1024)]
    rw [msAuxS_nil fuel (acc + (c :: cs).length) ((c :: cs).getLastD 'x' = '\\')]
    exact qNext_scan (c :: cs) 'x' acc

/-- C4, counterexample: the string scanner does not implement the claimed
backslash-run-parity rule, and sleepyjson does not reject a raw CR.  On
`"\\"` (opening quote, two backslashes, closing quote) the closing quote is
preceded by an even run of two backslashes, so the claimed rule closes the
literal at length 4; the scanner instead treats the quote as escaped (its
immediate predecessor is a backslash) and reports `UnterminatedString`.  On a
literal containing a raw `'\r'` the claim demands `BareLineBreak`; sleepyjson
accepts it (`ok 5`), while lazyjson rejects it — the two cited implementations
do not even agree. -/
theorem c4_measure_string_counterexample :
    measureStringS ['"', '\\', '\\', '"'] 0 = .error .unterminatedString
    ∧ measureStringS ['"', 'a', '\r', 'b', '"'] 0 = .ok 5
    ∧ measureStringL ['"', 'a', '\r', 'b', '"'] 0 = .error .bareLineBreak :=
  ⟨rfl, rfl, rfl⟩

/-- C4 (amended): `measure_string` contract as implemented (sleepyjson).  For
a literal whose remaining suffix fits in the first scan chunk and does not
trigger the chunk-start quirk (first suffix character a quote while the
chunk's last character is a backslash — Python's `buf[0 - 1]`), the chunked
scanner agrees with the per-character automaton `scanStr`: the closing quote
is the first quote not immediately preceded by a backslash character (no run
parity), a raw `'\n'` before it raises `BareLineBreak` (a raw `'\r'` is
accepted), exhausting the source raises `UnterminatedString`, and the result
counts both quotes. -/
theorem c4_measure_string_amended (f : List Char) (pos : Nat)
    (hlen : (f.drop (pos + 1)).length ≤ 1024)
    (hq : ¬((f.drop (pos + 1)).head? = some '"'
        ∧ (f.drop (pos + 1)).getLastD 'x' = '\\')) :
    measureStringS f pos = scanStr (f.drop (pos + 1)) false 1 := by
  unfold measureStringS
  rcases f with _ | ⟨c0, f2⟩
  · rfl
  · exact msAuxS_scan _ f2.length 1 hlen hq

theorem c4_witness :
    measureStringS "\"He said \\\"Watch out\\\"!\"".data 0
        = scanStr ("\"He said \\\"Watch out\\\"!\"".data.drop 1) false 1
    ∧ measureStringS "\"He said \\\"Watch out\\\"!\"".data 0 = .ok 24
    ∧ measureStringS ['"', 'N', '\n', '"'] 0 = .error .bareLineBreak := by
  refine ⟨c4_measure_string_amended _ 0 (by decide) (by decide), rfl, rfl⟩



/-- Fuel monotonicity relation for the sleepyjson operations (the fields
needed by the `equals` analysis): any result other than running out of fuel
is preserved at the higher level. -/
structure SMonoRel (P Q : SCoreFns) : Prop where
  mendPos : ∀ nd r, P.endPos nd = r → r ≠ .error .outOfFuel → Q.endPos nd = r
  marrStep : ∀ g r, P.arrStep g = r → r ≠ .error .outOfFuel → Q.arrStep g = r
  mobjStep : ∀ g r, P.objStep g = r → r ≠ .error .outOfFuel → Q.objStep g = r
  marrList : ∀ g r, P.arrList g = r → r ≠ .error .outOfFuel → Q.arrList g = r
  mobjList : ∀ g r, P.objList g = r → r ≠ .error .outOfFuel → Q.objList g = r
  mvalue : ∀ nd r, P.value nd = r → r ≠ .error .outOfFuel → Q.value nd = r
  mequals : ∀ nd o r, P.equalsFn nd o = r → r ≠ .error .outOfFuel →
    Q.equalsFn nd o = r
  meqZip : ∀ g xs r, P.eqZip g xs = r → r ≠ .error .outOfFuel → Q.eqZip g xs = r
  meqPairs : ∀ g m r, P.eqPairs g m = r → r ≠ .error .outOfFuel →
    Q.eqPairs g m = r

theorem sValueList_mono (P Q : SCoreFns)
    (hv : ∀ nd r, P.value nd = r → r ≠ .error .outOfFuel → Q.value nd = r) :
    ∀ l r, sValueList P.value l = r → r ≠ .error .outOfFuel →
      sValueList Q.value l = r := by
  intro l
  induction l with
  | nil =>
    intro r h _
    exact h
  | cons c cs ih =>
    intro r h hne
    rw [sValueList] at h ⊢
    cases h1 : P.value c with
    | error e =>
      rw [h1, ebind_err] at h
      subst h
      rw [hv c _ h1 (errNe hne), ebind_err]
    | ok v =>
      rw [h1, ebind_ok] at h
      rw [hv c _ h1 (by simp), ebind_ok]
      cases h2 : sValueList P.value cs with
      | error e =>
        rw [h2, ebind_err] at h
        subst h
        rw [ih _ h2 (errNe hne), ebind_err]
      | ok vs =>
        rw [h2, ebind_ok] at h
        rw [ih _ h2 (by simp), ebind_ok]
        exact h

theorem sValuePairs_mono (P Q : SCoreFns)
    (hv : ∀ nd r, P.value nd = r → r ≠ .error .outOfFuel → Q.value nd = r) :
    ∀ l acc r, sValuePairs P.value l acc = r → r ≠ .error .outOfFuel →
      sValuePairs Q.value l acc = r := by
  intro l
  induction l with
  | nil =>
    intro acc r h _
    exact h
  | cons kc cs ih =>
    intro acc r h hne
    obtain ⟨k, c⟩ := kc
    rw [sValuePairs] at h ⊢
    cases h1 : P.value c with
    | error e =>
      rw [h1, ebind_err] at h
      subst h
      rw [hv c _ h1 (errNe hne), ebind_err]
    | ok v =>
      rw [h1, ebind_ok] at h
      rw [hv c _ h1 (by simp), ebind_ok]
      exact ih _ _ h hne

/-- One `sStep` preserves the monotonicity relation. -/
theorem sStep_mono (f : List Char) (P Q : SCoreFns) (ih : SMonoRel P Q) :
    SMonoRel (sStep f P) (sStep f Q) := by
  obtain ⟨ihE, ihAS, ihOS, ihAL, ihOL, ihV, ihEq, ihZ, ihP⟩ := ih
  constructor
  -- endPos
  · intro nd r h hne
    simp only [sStep] at h ⊢
    cases hty : nd.ty <;> simp only [hty] at h ⊢ <;> try exact h
    · cases h1 : P.objList (.oAtPos (nd.pos + 1)) with
      | error e =>
        rw [h1, emap_err] at h
        subst h
        rw [ihOL _ _ h1 (errNe hne), emap_err]
      | ok v =>
        rw [h1, emap_ok] at h
        rw [ihOL _ _ h1 (by simp), emap_ok]
        exact h
    · cases h1 : P.arrList (.atPos (nd.pos + 1)) with
      | error e =>
        rw [h1, emap_err] at h
        subst h
        rw [ihAL _ _ h1 (errNe hne), emap_err]
      | ok v =>
        rw [h1, emap_ok] at h
        rw [ihAL _ _ h1 (by simp), emap_ok]
        exact h
  -- arrStep
  · intro g r h hne
    simp only [sStep] at h ⊢
    cases g with
    | atPos p => exact h
    | after c =>
      try dsimp only at h ⊢
      cases h1 : P.endPos c with
      | error e =>
        rw [h1, ebind_err] at h
        subst h
        rw [ihE _ _ h1 (errNe hne), ebind_err]
      | ok eo =>
        rw [h1, ebind_ok] at h
        rw [ihE _ _ h1 (by simp), ebind_ok]
        cases eo with
        | none => exact h
        | some e2 =>
          try dsimp only at h ⊢
          cases hsk : skipCommaS f e2 with
          | mk b cur =>
            rw [hsk] at h
            try rw [hsk]
            cases b
            · try dsimp only at h ⊢
              exact h
            · try dsimp only at h ⊢
              exact ihAS _ _ h hne
  -- objStep
  · intro g r h hne
    simp only [sStep] at h ⊢
    cases g with
    | oAtPos p => exact h
    | oAfter c =>
      try dsimp only at h ⊢
      cases h1 : P.endPos c with
      | error e =>
        rw [h1, ebind_err] at h
        subst h
        rw [ihE _ _ h1 (errNe hne), ebind_err]
      | ok eo =>
        rw [h1, ebind_ok] at h
        rw [ihE _ _ h1 (by simp), ebind_ok]
        cases eo with
        | none => exact h
        | some e2 =>
          try dsimp only at h ⊢
          exact ihOS _ _ h hne
  -- arrList
  · intro g r h hne
    simp only [sStep] at h ⊢
    cases h1 : P.arrStep g with
    | error e =>
      rw [h1, ebind_err] at h
      subst h
      rw [ihAS _ _ h1 (errNe hne), ebind_err]
    | ok step =>
      rw [h1, ebind_ok] at h
      rw [ihAS _ _ h1 (by simp), ebind_ok]
      cases step with
      | doneA e2 => exact h
      | yieldA c g2 =>
        try dsimp only at h ⊢
        cases h2 : P.arrList g2 with
        | error e =>
          rw [h2, emap_err] at h
          subst h
          rw [ihAL _ _ h2 (errNe hne), emap_err]
        | ok v =>
          rw [h2, emap_ok] at h
          rw [ihAL _ _ h2 (by simp), emap_ok]
          exact h
  -- objList
  · intro g r h hne
    simp only [sStep] at h ⊢
    cases h1 : P.objStep g with
    | error e =>
      rw [h1, ebind_err] at h
      subst h
      rw [ihOS _ _ h1 (errNe hne), ebind_err]
    | ok step =>
      rw [h1, ebind_ok] at h
      rw [ihOS _ _ h1 (by simp), ebind_ok]
      cases step with
      | doneO e2 => exact h
      | yieldO k c g2 =>
        try dsimp only at h ⊢
        cases h2 : P.objList g2 with
        | error e =>
          rw [h2, emap_err] at h
          subst h
          rw [ihOL _ _ h2 (errNe hne), emap_err]
        | ok v =>
          rw [h2, emap_ok] at h
          rw [ihOL _ _ h2 (by simp), emap_ok]
          exact h
  -- value
  · intro nd r h hne
    simp only [sStep] at h ⊢
    cases hty : nd.ty <;> simp only [hty] at h ⊢ <;> try exact h
    · cases h1 : P.objList (.oAtPos (nd.pos + 1)) with
      | error e =>
        rw [h1, ebind_err] at h
        subst h
        rw [ihOL _ _ h1 (errNe hne), ebind_err]
      | ok r0 =>
        rw [h1, ebind_ok] at h
        rw [ihOL _ _ h1 (by simp), ebind_ok]
        cases h2 : sValuePairs P.value r0.1 [] with
        | error e =>
          rw [h2, ebind_err] at h
          subst h
          rw [sValuePairs_mono P Q ihV _ _ _ h2 (errNe hne), ebind_err]
        | ok ps =>
          rw [h2, ebind_ok] at h
          rw [sValuePairs_mono P Q ihV _ _ _ h2 (by simp), ebind_ok]
          exact h
    · cases h1 : P.arrList (.atPos (nd.pos + 1)) with
      | error e =>
        rw [h1, ebind_err] at h
        subst h
        rw [ihAL _ _ h1 (errNe hne), ebind_err]
      | ok r0 =>
        rw [h1, ebind_ok] at h
        rw [ihAL _ _ h1 (by simp), ebind_ok]
        cases h2 : sValueList P.value r0.1 with
        | error e =>
          rw [h2, ebind_err] at h
          subst h
          rw [sValueList_mono P Q ihV _ _ h2 (errNe hne), ebind_err]
        | ok vs =>
          rw [h2, ebind_ok] at h
          rw [sValueList_mono P Q ihV _ _ h2 (by simp), ebind_ok]
          exact h
  -- equalsFn
  · intro nd o r h hne
    simp only [sStep] at h ⊢
    cases hty : nd.ty <;> simp only [hty] at h ⊢
    · -- obj
      cases o with
      | some x =>
        cases x <;> try dsimp only at h ⊢
        case dict m => exact ihP _ _ _ h hne
        all_goals
          cases h1 : P.objStep (.oAtPos (nd.pos + 1)) with
          | error e =>
            rw [h1, ebind_err] at h
            subst h
            rw [ihOS _ _ h1 (errNe hne), ebind_err]
          | ok step =>
            rw [h1, ebind_ok] at h
            rw [ihOS _ _ h1 (by simp), ebind_ok]
            exact h
      | none =>
        try dsimp only at h ⊢
        cases h1 : P.objStep (.oAtPos (nd.pos + 1)) with
        | error e =>
          rw [h1, ebind_err] at h
          subst h
          rw [ihOS _ _ h1 (errNe hne), ebind_err]
        | ok step =>
          rw [h1, ebind_ok] at h
          rw [ihOS _ _ h1 (by simp), ebind_ok]
          exact h
    · -- arr
      cases o with
      | none => exact h
      | some x =>
        cases x <;> try dsimp only at h ⊢
        case str s => exact ihZ _ _ _ h hne
        case list xs => exact ihZ _ _ _ h hne
        case dict m => exact ihZ _ _ _ h hne
        all_goals exact h
    all_goals
      cases h1 : P.value nd with
      | error e =>
        rw [h1, ebind_err] at h
        subst h
        rw [ihV _ _ h1 (errNe hne), ebind_err]
      | ok v =>
        rw [h1, ebind_ok] at h
        rw [ihV _ _ h1 (by simp), ebind_ok]
        exact h
  -- eqZip
  · intro g xs r h hne
    simp only [sStep] at h ⊢
    cases h1 : P.arrStep g with
    | error e =>
      rw [h1, ebind_err] at h
      subst h
      rw [ihAS _ _ h1 (errNe hne), ebind_err]
    | ok step =>
      rw [h1, ebind_ok] at h
      rw [ihAS _ _ h1 (by simp), ebind_ok]
      cases step with
      | doneA e2 => exact h
      | yieldA c g2 =>
        try dsimp only at h ⊢
        cases xs with
        | nil => exact h
        | cons x xs2 =>
          try dsimp only at h ⊢
          cases h2 : P.equalsFn c (some x) with
          | error e =>
            rw [h2, ebind_err] at h
            subst h
            rw [ihEq _ _ _ h2 (errNe hne), ebind_err]
          | ok b0 =>
            rw [h2, ebind_ok] at h
            rw [ihEq _ _ _ h2 (by simp), ebind_ok]
            by_cases hb : b0 = true
            · rw [if_pos hb] at h
              rw [if_pos hb]
              exact ihZ _ _ _ h hne
            · rw [if_neg hb] at h
              rw [if_neg hb]
              exact h
  -- eqPairs
  · intro g m r h hne
    simp only [sStep] at h ⊢
    cases h1 : P.objStep g with
    | error e =>
      rw [h1, ebind_err] at h
      subst h
      rw [ihOS _ _ h1 (errNe hne), ebind_err]
    | ok step =>
      rw [h1, ebind_ok] at h
      rw [ihOS _ _ h1 (by simp), ebind_ok]
      cases step with
      | doneO e2 => exact h
      | yieldO k c g2 =>
        try dsimp only at h ⊢
        cases h2 : P.equalsFn c (dictGet m k) with
        | error e =>
          rw [h2, ebind_err] at h
          subst h
          rw [ihEq _ _ _ h2 (errNe hne), ebind_err]
        | ok b0 =>
          rw [h2, ebind_ok] at h
          rw [ihEq _ _ _ h2 (by simp), ebind_ok]
          by_cases hb : b0 = true
          · rw [if_pos hb] at h
            rw [if_pos hb]
            exact ihP _ _ _ h hne
          · rw [if_neg hb] at h
            rw [if_neg hb]
            exact h

/-- Monotonicity of the sleepyjson operations in the fuel. -/
theorem smono (f : List Char) : ∀ n, SMonoRel (score f n) (score f (n + 1))
  | 0 =>
    ⟨fun _ r h hne => absurd h.symm hne,
     fun _ r h hne => absurd h.symm hne,
     fun _ r h hne => absurd h.symm hne,
     fun _ r h hne => absurd h.symm hne,
     fun _ r h hne => absurd h.symm hne,
     fun _ r h hne => absurd h.symm hne,
     fun _ _ r h hne => absurd h.symm hne,
     fun _ _ r h hne => absurd h.symm hne,
     fun _ _ r h hne => absurd h.symm hne⟩
  | n + 1 => sStep_mono f _ _ (smono f n)

theorem smono_rfl (P : SCoreFns) : SMonoRel P P :=
  ⟨fun _ _ h _ => h, fun _ _ h _ => h, fun _ _ h _ => h, fun _ _ h _ => h,
   fun _ _ h _ => h, fun _ _ h _ => h, fun _ _ _ h _ => h, fun _ _ _ h _ => h,
   fun _ _ _ h _ => h⟩

theorem smono_trans {P Q R : SCoreFns} (h1 : SMonoRel P Q) (h2 : SMonoRel Q R) :
    SMonoRel P R :=
  ⟨fun nd r h hne => h2.mendPos nd r (h1.mendPos nd r h hne) hne,
   fun g r h hne => h2.marrStep g r (h1.marrStep g r h hne) hne,
   fun g r h hne => h2.mobjStep g r (h1.mobjStep g r h hne) hne,
   fun g r h hne => h2.marrList g r (h1.marrList g r h hne) hne,
   fun g r h hne => h2.mobjList g r (h1.mobjList g r h hne) hne,
   fun nd r h hne => h2.mvalue nd r (h1.mvalue nd r h hne) hne,
   fun nd o r h hne => h2.mequals nd o r (h1.mequals nd o r h hne) hne,
   fun g xs r h hne => h2.meqZip g xs r (h1.meqZip g xs r h hne) hne,
   fun g m r h hne => h2.meqPairs g m r (h1.meqPairs g m r h hne) hne⟩

theorem smono_le (f : List Char) {n m : Nat} (h : n ≤ m) :
    SMonoRel (score f n) (score f m) := by
  induction h with
  | refl => exact smono_rfl _
  | step h2 ih => exact smono_trans ih (smono f _)

/-- Fuel-independence of a successful `array_iter` step. -/
theorem uniq_sArrStep (f : List Char) (n m : Nat) (g : ArrG) (r1 r2 : ArrStep)
    (h1 : (score f n).arrStep g = .ok r1) (h2 : (score f m).arrStep g = .ok r2) :
    r1 = r2 := by
  have hb1 := (smono_le f (Nat.le_max_left n m)).marrStep g _ h1 (by simp)
  have hb2 := (smono_le f (Nat.le_max_right n m)).marrStep g _ h2 (by simp)
  rw [hb1] at hb2
  exact Except.ok.inj hb2

/-- Fuel-independence of a successful `items` step. -/
theorem uniq_sObjStep (f : List Char) (n m : Nat) (g : ObjG) (r1 r2 : ObjStep)
    (h1 : (score f n).objStep g = .ok r1) (h2 : (score f m).objStep g = .ok r2) :
    r1 = r2 := by
  have hb1 := (smono_le f (Nat.le_max_left n m)).mobjStep g _ h1 (by simp)
  have hb2 := (smono_le f (Nat.le_max_right n m)).mobjStep g _ h2 (by simp)
  rw [hb1] at hb2
  exact Except.ok.inj hb2

/-- The element-wise zip comparison the spec describes for arrays: compare in
document order with the element comparator `ef`, stopping at the shorter of
the two sequences (extra children or extra elements of `other` are never
examined). -/
def zipEq (ef : SNode → Option PyVal → Except Err Bool) :
    List SNode → List PyVal → Except Err Bool
  | [], _ => .ok true
  | _, [] => .ok true
  | c :: cs, x :: xs => do
    let b ← ef c (some x)
    if b then zipEq ef cs xs else .ok false

/-- The pair comparison the spec describes for objects: each of this node's
key/value pairs is compared against the mapping's entry for that key; keys
present only in the mapping are never examined. -/
def pairsEq (ef : SNode → Option PyVal → Except Err Bool) :
    List (String × SNode) → List (String × PyVal) → Except Err Bool
  | [], _ => .ok true
  | (k, c) :: ps, m => do
    let b ← ef c (dictGet m k)
    if b then pairsEq ef ps m else .ok false

theorem dictGet_dictPut_ne {α : Type} (m : List (String × α)) (k k2 : String)
    (v : α) (hne : k2 ≠ k) : dictGet (dictPut m k v) k2 = dictGet m k2 := by
  induction m with
  | nil =>
    simp only [dictPut, dictGet]
    rw [if_neg (fun hh => hne hh.symm)]
  | cons kv rest ih =>
    obtain ⟨k0, w⟩ := kv
    simp only [dictPut]
    by_cases h0 : k0 = k
    · rw [if_pos h0]
      simp only [dictGet]
      have hk02 : ¬ k0 = k2 := fun hh => hne (hh ▸ h0)
      rw [if_neg hk02, if_neg hk02]
    · rw [if_neg h0]
      simp only [dictGet]
      by_cases h1 : k0 = k2
      · rw [if_pos h1, if_pos h1]
      · rw [if_neg h1, if_neg h1]
        exact ih

/-- Unfolding of `arrList`: pull one child and recurse. -/
theorem arrList_succ (f : List Char) (n : Nat) (g : ArrG) :
    (score f (n + 1)).arrList g
      = (score f n).arrStep g >>= fun step =>
          match step with
          | ArrStep.doneA e => Except.ok ([], e)
          | ArrStep.yieldA c g2 =>
              ((score f n).arrList g2).map fun r => (c :: r.1, r.2) := rfl

/-- Unfolding of `eqZip`: pull one child and compare it to the next element. -/
theorem eqZip_succ (f : List Char) (n : Nat) (g : ArrG) (xs : List PyVal) :
    (score f (n + 1)).eqZip g xs
      = (score f n).arrStep g >>= fun step =>
          match step with
          | ArrStep.doneA _ => Except.ok true
          | ArrStep.yieldA c g2 =>
            match xs with
            | [] => Except.ok true
            | x :: xs2 =>
              (score f n).equalsFn c (some x) >>= fun b =>
                if b then (score f n).eqZip g2 xs2 else Except.ok false := rfl

/-- Unfolding of `eqPairs`: pull one pair and compare it to the mapping's
entry. -/
theorem eqPairs_succ (f : List Char) (n : Nat) (g : ObjG)
    (m : List (String × PyVal)) :
    (score f (n + 1)).eqPairs g m
      = (score f n).objStep g >>= fun step =>
          match step with
          | ObjStep.doneO _ => Except.ok true
          | ObjStep.yieldO k c g2 =>
            (score f n).equalsFn c (dictGet m k) >>= fun b =>
              if b then (score f n).eqPairs g2 m else Except.ok false := rfl

theorem zipEq_nil_left (ef : SNode → Option PyVal → Except Err Bool)
    (xs : List PyVal) : zipEq ef [] xs = .ok true := by
  cases xs <;> rfl

theorem zipEq_nil_right (ef : SNode → Option PyVal → Except Err Bool)
    (l : List SNode) : zipEq ef l [] = .ok true := by
  cases l <;> rfl

/-- A successful `eqZip` run is the `zipEq` comparison of the enumerated
children, with every per-child comparison lifted to a common fuel. -/
theorem eqZip_char (f : List Char) :
    ∀ n m K g l e xs b,
      (score f m).arrList g = .ok (l, e) →
      (score f n).eqZip g xs = .ok b →
      n ≤ K → m ≤ K →
      zipEq ((score f K).equalsFn) l xs = .ok b := by
  intro n
  induction n with
  | zero =>
    intro m K g l e xs b _ h2 _ _
    exact absurd h2 (by simp [score, sBot])
  | succ n ih =>
    intro m K g l e xs b h1 h2 hnK hmK
    cases m with
    | zero => exact absurd h1 (by simp [score, sBot])
    | succ m1 =>
      rw [arrList_succ] at h1
      rw [eqZip_succ] at h2
      cases hs1 : (score f m1).arrStep g with
      | error e2 =>
        rw [hs1, ebind_err] at h1
        exact absurd h1 (by simp)
      | ok step1 =>
        rw [hs1, ebind_ok] at h1
        cases hs2 : (score f n).arrStep g with
        | error e2 =>
          rw [hs2, ebind_err] at h2
          exact absurd h2 (by simp)
        | ok step2 =>
          rw [hs2, ebind_ok] at h2
          have hstep := uniq_sArrStep f n m1 g step2 step1 hs2 hs1
          subst hstep
          cases step2 with
          | doneA e0 =>
            try dsimp only at h1 h2
            have h1' := Except.ok.inj h1
            rw [Prod.mk.injEq] at h1'
            obtain ⟨hl, he⟩ := h1'
            subst hl
            cases Except.ok.inj h2
            exact zipEq_nil_left _ _
          | yieldA c g2 =>
            try dsimp only at h1 h2
            cases hal : (score f m1).arrList g2 with
            | error e2 =>
              rw [hal, emap_err] at h1
              exact absurd h1 (by simp)
            | ok r2 =>
              rw [hal, emap_ok] at h1
              have h1' := Except.ok.inj h1
              rw [Prod.mk.injEq] at h1'
              obtain ⟨hl, he⟩ := h1'
              subst hl
              cases xs with
              | nil =>
                cases Except.ok.inj h2
                exact zipEq_nil_right _ _
              | cons x xs2 =>
                try dsimp only at h2
                cases heq : (score f n).equalsFn c (some x) with
                | error e2 =>
                  rw [heq, ebind_err] at h2
                  exact absurd h2 (by simp)
                | ok b0 =>
                  rw [heq, ebind_ok] at h2
                  have heqK := (smono_le f (Nat.le_of_succ_le hnK)).mequals
                    c (some x) _ heq (by simp)
                  rw [zipEq, heqK, ebind_ok]
                  by_cases hb : b0 = true
                  · rw [if_pos hb] at h2
                    rw [if_pos hb]
                    exact ih m1 K g2 r2.1 r2.2 xs2 b hal h2
                      (Nat.le_of_succ_le hnK) (Nat.le_of_succ_le hmK)
                  · rw [if_neg hb] at h2
                    rw [if_neg hb]
                    exact h2

theorem pairsEq_nil (ef : SNode → Option PyVal → Except Err Bool)
    (m : List (String × PyVal)) : pairsEq ef [] m = .ok true := rfl

/-- A successful `eqPairs` run is the `pairsEq` comparison of the enumerated
pairs, with every per-child comparison lifted to a common fuel. -/
theorem eqPairs_char (f : List Char) :
    ∀ n m K g l e m2 b,
      (score f m).objList g = .ok (l, e) →
      (score f n).eqPairs g m2 = .ok b →
      n ≤ K → m ≤ K →
      pairsEq ((score f K).equalsFn) l m2 = .ok b := by
  intro n
  induction n with
  | zero =>
    intro m K g l e m2 b _ h2 _ _
    exact absurd h2 (by simp [score, sBot])
  | succ n ih =>
    intro m K g l e m2 b h1 h2 hnK hmK
    cases m with
    | zero => exact absurd h1 (by simp [score, sBot])
    | succ m1 =>
      rw [objList_succ] at h1
      rw [eqPairs_succ] at h2
      cases hs1 : (score f m1).objStep g with
      | error e2 =>
        rw [hs1, ebind_err] at h1
        exact absurd h1 (by simp)
      | ok step1 =>
        rw [hs1, ebind_ok] at h1
        cases hs2 : (score f n).objStep g with
        | error e2 =>
          rw [hs2, ebind_err] at h2
          exact absurd h2 (by simp)
        | ok step2 =>
          rw [hs2, ebind_ok] at h2
          have hstep := uniq_sObjStep f n m1 g step2 step1 hs2 hs1
          subst hstep
          cases step2 with
          | doneO e0 =>
            try dsimp only at h1 h2
            have h1' := Except.ok.inj h1
            rw [Prod.mk.injEq] at h1'
            obtain ⟨hl, he⟩ := h1'
            subst hl
            cases Except.ok.inj h2
            exact pairsEq_nil _ _
          | yieldO k c g2 =>
            try dsimp only at h1 h2
            cases hol : (score f m1).objList g2 with
            | error e2 =>
              rw [hol, emap_err] at h1
              exact absurd h1 (by simp)
            | ok r2 =>
              rw [hol, emap_ok] at h1
              have h1' := Except.ok.inj h1
              rw [Prod.mk.injEq] at h1'
              obtain ⟨hl, he⟩ := h1'
              subst hl
              cases heq : (score f n).equalsFn c (dictGet m2 k) with
              | error e2 =>
                rw [heq, ebind_err] at h2
                exact absurd h2 (by simp)
              | ok b0 =>
                rw [heq, ebind_ok] at h2
                have heqK := (smono_le f (Nat.le_of_succ_le hnK)).mequals
                  c (dictGet m2 k) _ heq (by simp)
                rw [pairsEq, heqK, ebind_ok]
                by_cases hb : b0 = true
                · rw [if_pos hb] at h2
                  rw [if_pos hb]
                  exact ih m1 K g2 r2.1 r2.2 m2 b hol h2
                    (Nat.le_of_succ_le hnK) (Nat.le_of_succ_le hmK)
                · rw [if_neg hb] at h2
                  rw [if_neg hb]
                  exact h2

theorem pairsEq_ignore (ef : SNode → Option PyVal → Except Err Bool) :
    ∀ (ps : List (String × SNode)) (m2 : List (String × PyVal)) (k : String)
      (v : PyVal), k ∉ ps.map Prod.fst →
      pairsEq ef ps (dictPut m2 k v) = pairsEq ef ps m2 := by
  intro ps
  induction ps with
  | nil =>
    intro m2 k v _
    rfl
  | cons kc ps ih =>
    intro m2 k v hk
    obtain ⟨k0, c⟩ := kc
    simp only [List.map_cons, List.mem_cons, not_or] at hk
    obtain ⟨hk0, hkrest⟩ := hk
    rw [pairsEq, pairsEq, dictGet_dictPut_ne m2 k k0 v (by
      intro hh
      exact hk0 (by rw [hh]))]
    rw [ih m2 k v hkrest]

theorem equalsFn_scalar (f : List Char) (n p : Nat) (ty : NType)
    (hty : ty = .tru ∨ ty = .fls ∨ ty = .nul ∨ ty = .str ∨ ty = .num)
    (o : Option PyVal) :
    (score f (n + 1)).equalsFn ⟨p, ty⟩ o
      = (score f n).value ⟨p, ty⟩ >>= fun v =>
          match o with
          | Option.none => Except.ok false
          | some x => Except.ok (pyEq v x) := by
  rcases hty with rfl | rfl | rfl | rfl | rfl <;> rfl

/-- C8: the `equals` contract (sleepyjson).  (1) For an array node compared
against a list, a successful `equals` run is exactly the element-wise `zipEq`
comparison of the enumerated children in document order, where `zipEq` stops
at the shorter of the two sequences; (2) for an object node compared against a
mapping, it is exactly the `pairsEq` comparison checking only this node's
key/value pairs against the mapping; (3)/(4) `zipEq` ignores extra elements on
either side (an exhausted side yields `True` regardless of the other); (5)
`pairsEq` is unchanged by adding an entry to the mapping under a key the node
does not have — keys present only in `other` are ignored; (6) a scalar node
compares by Python equality of its materialized value. -/
theorem c8_equals_contract (f : List Char) :
    (∀ fuel m K nd l e xs b, nd.ty = .arr →
        (score f m).arrList (sArrG nd) = .ok (l, e) →
        sEquals (fuel + 1) f nd (.list xs) = .ok b →
        fuel ≤ K → m ≤ K →
        zipEq ((score f K).equalsFn) l xs = .ok b)
    ∧ (∀ fuel m K nd l e m2 b, nd.ty = .obj →
        (score f m).objList (sObjG nd) = .ok (l, e) →
        sEquals (fuel + 1) f nd (.dict m2) = .ok b →
        fuel ≤ K → m ≤ K →
        pairsEq ((score f K).equalsFn) l m2 = .ok b)
    ∧ (∀ ef (l : List SNode), zipEq ef l [] = .ok true)
    ∧ (∀ ef (xs : List PyVal), zipEq ef [] xs = .ok true)
    ∧ (∀ ef (ps : List (String × SNode)) (m2 : List (String × PyVal)) k v,
        k ∉ ps.map Prod.fst →
        pairsEq ef ps (dictPut m2 k v) = pairsEq ef ps m2)
    ∧ (∀ fuel nd v other,
        (nd.ty = .tru ∨ nd.ty = .fls ∨ nd.ty = .nul ∨ nd.ty = .str ∨
          nd.ty = .num) →
        (score f fuel).value nd = .ok v →
        sEquals (fuel + 1) f nd other = .ok (pyEq v other)) := by
  refine ⟨?_, ?_, fun ef l => zipEq_nil_right ef l, fun ef xs => zipEq_nil_left ef xs,
    fun ef ps m2 k v h => pairsEq_ignore ef ps m2 k v h, ?_⟩
  · intro fuel m K nd l e xs b hty h1 h2 hfK hmK
    cases nd with
    | mk pos ty =>
      try dsimp only at hty
      subst hty
      have h2' : (score f fuel).eqZip (.atPos (pos + 1)) xs = .ok b := h2
      exact eqZip_char f fuel m K (.atPos (pos + 1)) l e xs b h1 h2' hfK hmK
  · intro fuel m K nd l e m2 b hty h1 h2 hfK hmK
    cases nd with
    | mk pos ty =>
      try dsimp only at hty
      subst hty
      have h2' : (score f fuel).eqPairs (.oAtPos (pos + 1)) m2 = .ok b := h2
      exact eqPairs_char f fuel m K (.oAtPos (pos + 1)) l e m2 b h1 h2' hfK hmK
  · intro fuel nd v other hty hv
    cases nd with
    | mk pos ty =>
      try dsimp only at hty
      show (score f (fuel + 1)).equalsFn ⟨pos, ty⟩ (some other)
        = .ok (pyEq v other)
      rw [equalsFn_scalar f fuel pos ty hty (some other), hv, ebind_ok]

theorem c8_witness :
    sEquals 6 "[1, 2]".data ⟨0, .arr⟩ (.list [.int 1, .int 2, .int 3]) = .ok true
    ∧ zipEq ((score "[1, 2]".data 6).equalsFn)
        [⟨1, .num⟩, ⟨4, .num⟩] [.int 1, .int 2, .int 3] = .ok true
    ∧ sEquals 8 "\x7b\"a\": 1\x7d".data ⟨0, .obj⟩
        (.dict [("a", .int 1), ("zzz", .int 9)]) = .ok true
    ∧ pairsEq ((score "\x7b\"a\": 1\x7d".data 8).equalsFn)
        [("a", ⟨6, .num⟩)] [("a", .int 1), ("zzz", .int 9)] = .ok true
    ∧ sEquals 3 "true".data ⟨0, .tru⟩ (.bool true) = .ok true := by
  refine ⟨rfl, ?_, rfl, ?_, ?_⟩
  · exact (c8_equals_contract "[1, 2]".data).1 5 5 6 ⟨0, .arr⟩
      [⟨1, .num⟩, ⟨4, .num⟩] Option.none [.int 1, .int 2, .int 3] true
      rfl rfl rfl (by omega) (by omega)
  · exact (c8_equals_contract "\x7b\"a\": 1\x7d".data).2.1 7 7 8 ⟨0, .obj⟩
      [("a", ⟨6, .num⟩)] 8 [("a", .int 1), ("zzz", .int 9)] true
      rfl rfl rfl (by omega) (by omega)
  · exact (c8_equals_contract "true".data).2.2.2.2.2 2 ⟨0, .tru⟩ (.bool true)
      (.bool true) (Or.inl rfl) rfl
